import Mathlib

/-!
# RUM full-text support functions (`rum_ts_utils.c`)

A shallow embedding of the position codec, the operand normaliser, the
weight configuration and the ranking kernels of `rum_ts_utils.c`, and the
properties established about them.

Conventions of the embedding:

* a `uint16` / `WordEntryPos` is a `Nat` below `65536`; every store into one is
  reduced modulo `65536`;
* a `char` buffer is a `List Nat` of byte values, a `char *` into it is the
  suffix it points at; a read past the end of the buffer is `none`;
* `float` arithmetic is carried out exactly, in a linearly ordered field `F`;
  `sqrt` and `exp` of `math.h` are arguments of the kernels that use them.
-/

namespace Rum

/-! ## Constants and macros of the position word -/

/-- Top bit of a byte (`HIGHBIT` of the PostgreSQL header `c.h`). -/
def HIGHBIT : Nat := 0x80

/-- The C constant `SIXTHBIT`. -/
def SIXTHBIT : Nat := 0x20

/-- The C constant `LOWERMASK`. -/
def LOWERMASK : Nat := 0x1F

/-- The C expression `~HIGHBIT`, an `int` of 32 bits. -/
def NOT_HIGHBIT : Nat := 0xFFFFFF7F

/-- One past the largest offset of a position word (`MAXENTRYPOS` of `ts_type.h`). -/
def MAXENTRYPOS : Nat := 1 <<< 14

/-- Weight level of a position word: its two top bits (`WEP_GETWEIGHT` of `ts_type.h`). -/
def WEP_GETWEIGHT (x : Nat) : Nat := x >>> 14

/-- Offset of a position word: its fourteen low bits (`WEP_GETPOS` of `ts_type.h`). -/
def WEP_GETPOS (x : Nat) : Nat := x &&& 0x3fff

/-- The word `x` after `WEP_SETWEIGHT(x, v)` (`ts_type.h`), stored back into a `uint16`. -/
def WEP_SETWEIGHT (x v : Nat) : Nat := ((v <<< 14) ||| (x &&& 0x3fff)) % 65536

/-- The word `x` after `WEP_SETPOS(x, v)` (`ts_type.h`), stored back into a `uint16`. -/
def WEP_SETPOS (x v : Nat) : Nat := ((x &&& 0xc000) ||| (v &&& 0x3fff)) % 65536

/-! ## Position codec -/

/-- The `while (true)` loop of `compress_pos` for one position word `wep`: the bytes
written for the `uint16` value `delta`. -/
def compress_delta (delta wep : Nat) : List Nat :=
  if h : SIXTHBIT ≤ delta then
    (((delta &&& NOT_HIGHBIT) ||| HIGHBIT) % 256) :: compress_delta (delta >>> 7) wep
  else
    [(delta ||| (WEP_GETWEIGHT wep <<< 5)) % 256]
termination_by delta
decreasing_by
  simp only [SIXTHBIT] at h
  rw [Nat.shiftRight_eq_div_pow]
  exact Nat.div_lt_self (by omega) (by norm_num)

/-- The `for` loop of `compress_pos` from the state `prev`: the bytes written for the
remaining position words. -/
def compress_loop (prev : Nat) : List Nat → List Nat
  | [] => []
  | p :: ps =>
    compress_delta ((WEP_GETPOS p + 65536 - WEP_GETPOS prev) % 65536) p ++ compress_loop p ps

/-- The bytes `compress_pos` writes to `target` for the position words `pos`; the C
function returns their number. -/
def compress_pos (pos : List Nat) : List Nat := compress_loop 0 pos

/-- The `while (true)` loop of `decompress_pos` with shift `i` and accumulator `delta`:
the pointer after the terminating byte and the updated cursor `*pos`. The buffer ending
before a terminating byte, or a shift by 32 or more, leaves the result undefined. -/
def decompress_loop (i delta pos : Nat) : List Nat → Option (List Nat × Nat)
  | [] => none
  | v :: rest =>
    if 32 ≤ i then none
    else if v &&& HIGHBIT ≠ 0 then
      decompress_loop (i + 7) ((delta ||| ((v &&& NOT_HIGHBIT) <<< i)) % 65536) pos rest
    else
      some (rest,
        WEP_SETWEIGHT ((pos + (delta ||| ((v &&& LOWERMASK) <<< i)) % 65536) % 65536) (v >>> 5))

/-- One call `ptr = decompress_pos(ptr, &pos)`. -/
def decompress_pos (ptr : List Nat) (pos : Nat) : Option (List Nat × Nat) :=
  decompress_loop 0 0 pos ptr

/-- The loop `for (l = 0; l < n; l++) ptr = decompress_pos(ptr, &post)` of the callers:
the final pointer and the cursor values seen after each call. -/
def decompress_n : Nat → List Nat → Nat → Option (List Nat × List Nat)
  | 0, ptr, _ => some (ptr, [])
  | n + 1, ptr, pos =>
    match decompress_pos ptr pos with
    | none => none
    | some (ptr1, pos1) =>
      match decompress_n n ptr1 pos1 with
      | none => none
      | some (ptr2, out) => some (ptr2, pos1 :: out)

/-- The C function `count_pos` over the `len` bytes at `ptr`. -/
def count_pos : List Nat → Nat
  | [] => 0
  | b :: bs => (if b &&& HIGHBIT = 0 then 1 else 0) + count_pos bs

/-! ## Lexemes, documents and queries -/

/-- The C library function `memcmp` over the first `n` bytes of two byte strings, as the
sign of its result. -/
def memcmp : List Nat → List Nat → Nat → Int
  | a :: as, b :: bs, n + 1 => if a < b then -1 else if b < a then 1 else memcmp as bs n
  | _, _, _ => 0

/-- The comparison `tsCompareString(a, lena, b, lenb, prefix)` of the PostgreSQL text
search library (`tsvector_op.c`), which `rum_ts_utils.c` calls for every comparison of
lexemes: `memcmp` over the common length, then the shorter string first; with `prefix`
set it is zero exactly when `a` is a prefix of `b`. The result is kept as a sign. -/
def tsCompareString (a b : List Nat) (prefix_flag : Bool) : Int :=
  if a.length = 0 then
    if prefix_flag then 0 else if 0 < b.length then -1 else 0
  else if b.length = 0 then
    if 0 < a.length then 1 else 0
  else
    let cmp := memcmp a b (min a.length b.length)
    if prefix_flag then
      if cmp = 0 ∧ b.length < a.length then 1 else cmp
    else if cmp = 0 ∧ a.length ≠ b.length then
      if a.length < b.length then -1 else 1
    else cmp

/-- A `WordEntry` of a `TSVector` with what it points at: the bytes of its lexeme, the
`haspos` flag and its position words (`npos` of them). -/
structure WordEntry where
  lexeme : List Nat
  haspos : Bool
  pos : List Nat
deriving DecidableEq, Repr

/-- A `TSVector`: its `WordEntry` array, `size` entries long. -/
abbrev TSVector := List WordEntry

/-- A `QueryOperand`: the `weight` mask, the `prefix` flag and the bytes of the operand
(`GETOPERAND(q) + distance`, `length` of them). -/
structure QueryOperand where
  weight : Nat
  prefix_flag : Bool
  lexeme : List Nat
deriving DecidableEq, Repr

/-- The operators of a `QueryOperator` (`OP_NOT`, `OP_AND`, `OP_OR`, `OP_PHRASE`). -/
inductive Oper where
  | OP_NOT
  | OP_AND
  | OP_OR
  | OP_PHRASE
deriving DecidableEq, Repr

/-- A `QueryItem`: an operand (`QI_VAL`) or an operator (`QI_OPR`) with the offset `left`
of its left argument. -/
inductive QueryItem where
  | QI_VAL (qoperand : QueryOperand)
  | QI_OPR (oper : Oper) (left : Nat)
deriving DecidableEq, Repr

/-- A `TSQuery`: its `QueryItem` array in Polish order, `size` items long. -/
abbrev TSQuery := List QueryItem

/-- `POSDATALEN(t, e)`: the number of positions of an entry, zero without `haspos`. -/
def POSDATALEN (e : WordEntry) : Nat := if e.haspos then e.pos.length else 0

/-- The C function `cnt_length`. -/
def cnt_length : TSVector → Nat
  | [] => 0
  | e :: es => (if POSDATALEN e = 0 then 1 else POSDATALEN e) + cnt_length es

/-! ## Operand normaliser -/

/-- The macro `WordECompareQueryItem(e, q, p, i, m)`: the operand `i` against the entry `p`. -/
def WordECompareQueryItem (p : WordEntry) (i : QueryOperand) (m : Bool) : Int :=
  tsCompareString i.lexeme p.lexeme m

/-- What `find_wordentry` hands back: the returned pointer, as an index into the entry
array (`none` for `NULL`), and `*nitem`. -/
structure FoundEntries where
  entry : Option Nat
  nitem : Nat
deriving DecidableEq, Repr

/-- The binary search loop of `find_wordentry` from the state `(StopLow, StopHigh,
StopMiddle, *nitem)`, for at most `fuel` iterations; the state at loop exit. -/
def find_wordentry_search (t : TSVector) (item : QueryOperand) :
    Nat → Nat → Nat → Nat → Nat → Option (Nat × Nat × Nat × Nat)
  | fuel, StopLow, StopHigh, StopMiddle, nitem =>
    if StopLow < StopHigh then
      match fuel with
      | 0 => none
      | fuel + 1 =>
        let StopMiddle := StopLow + (StopHigh - StopLow) / 2
        match t[StopMiddle]? with
        | none => none
        | some e =>
          let difference := WordECompareQueryItem e item false
          if difference = 0 then some (StopLow, StopMiddle, StopMiddle, 1)
          else if 0 < difference then
            find_wordentry_search t item fuel (StopMiddle + 1) StopHigh StopMiddle nitem
          else find_wordentry_search t item fuel StopLow StopMiddle StopMiddle nitem
    else some (StopLow, StopHigh, StopMiddle, nitem)

/-- The forward scan of `find_wordentry` for a prefix operand over the entries from
`StopMiddle` on: the number of leading entries the operand is a prefix of. -/
def find_wordentry_scan (item : QueryOperand) : List WordEntry → Nat
  | [] => 0
  | e :: es =>
    if WordECompareQueryItem e item true = 0 then find_wordentry_scan item es + 1 else 0

/-- The C function `find_wordentry`; the binary search gets `size` iterations. -/
def find_wordentry (t : TSVector) (item : QueryOperand) : Option FoundEntries :=
  match find_wordentry_search t item t.length 0 t.length t.length 0 with
  | none => none
  | some (StopLow, StopHigh, StopMiddle, nitem) =>
    let nitem :=
      if item.prefix_flag then
        find_wordentry_scan item (t.drop (if StopHigh ≤ StopLow then StopHigh else StopMiddle))
      else nitem
    some ⟨if 0 < nitem then some StopHigh else none, nitem⟩

/-- The entries a caller walks with `while (entry - firstentry < nitem)`. -/
def FoundEntries.entries (t : TSVector) (r : FoundEntries) : List WordEntry :=
  match r.entry with
  | none => []
  | some first => (t.drop first).take r.nitem

/-- The C function `compareQueryOperand`, whose header comment reads "sort QueryOperands
by (length, word)": it returns what `tsCompareString` returns for the two lexemes. -/
def compareQueryOperand (qa qb : QueryOperand) : Int :=
  tsCompareString qa.lexeme qb.lexeme false

/-- The first loop of `SortAndUniqItems`: the operands of the query in tree order. -/
def collect_operands : TSQuery → List QueryOperand
  | [] => []
  | QueryItem.QI_VAL v :: rest => v :: collect_operands rest
  | QueryItem.QI_OPR _ _ :: rest => collect_operands rest

/-- The duplicate-removing loop of `SortAndUniqItems` with `*prevptr = prev`: the kept
operands from `prev` on. -/
def uniq_loop (prev : QueryOperand) : List QueryOperand → List QueryOperand
  | [] => [prev]
  | x :: xs =>
    if compareQueryOperand x prev ≠ 0 then prev :: uniq_loop x xs else uniq_loop prev xs

/-- The C function `SortAndUniqItems`: the returned array, `*size` being its length.
The library routine `qsort_arg`, called with `compareQueryOperand`, is the argument
`qsort_arg`. -/
def SortAndUniqItems (qsort_arg : List QueryOperand → List QueryOperand) (q : TSQuery) :
    List QueryOperand :=
  let res := collect_operands q
  if res.length < 2 then res
  else
    match qsort_arg res with
    | [] => []
    | first :: rest => uniq_loop first rest

/-- The contract of the library routine `qsort_arg` with `compareQueryOperand`: the
result is a rearrangement of the array in which no element compares greater than a later
one. Which of several equal elements comes first is left to the routine. -/
def QsortContract (qsort_arg : List QueryOperand → List QueryOperand) : Prop :=
  ∀ l, List.Perm (qsort_arg l) l ∧
    List.Pairwise (fun a b => compareQueryOperand a b ≤ 0) (qsort_arg l)

/-- Insertion of one operand into a sorted array. -/
def insert_operand (x : QueryOperand) : List QueryOperand → List QueryOperand
  | [] => [x]
  | y :: ys => if compareQueryOperand x y ≤ 0 then x :: y :: ys else y :: insert_operand x ys

/-- Insertion sort of operands by `compareQueryOperand`, one routine that meets the
contract of `qsort_arg`. -/
def insertion_sort : List QueryOperand → List QueryOperand
  | [] => []
  | x :: xs => insert_operand x (insertion_sort xs)

/-- The order of lexeme keys as the data model words it: by length, then by bytes. -/
def length_then_bytes_lt (a b : List Nat) : Prop :=
  a.length < b.length ∨ (a.length = b.length ∧ a < b)

instance (a b : List Nat) : Decidable (length_then_bytes_lt a b) := by
  unfold length_then_bytes_lt; infer_instance

/-- The representation invariant of a document: its lexemes strictly ascend in the order
of `tsCompareString`, so they are sorted and no two are equal. -/
def lexeme_sorted (t : TSVector) : Prop :=
  t.Pairwise (fun x y => tsCompareString x.lexeme y.lexeme false < 0)

instance (t : TSVector) : Decidable (lexeme_sorted t) := by
  unfold lexeme_sorted; infer_instance

/-- The document with the lexemes `dog`, `dot`, `fig`, one position each. -/
def doc_dog_dot_fig : TSVector :=
  [⟨[100, 111, 103], true, [1]⟩, ⟨[100, 111, 116], true, [2]⟩, ⟨[102, 105, 103], true, [3]⟩]

/-- The entries `b`, `ab`: ascending by length then bytes, not in the order of
`tsCompareString`. -/
def doc_b_ab : TSVector := [⟨[98], true, [1]⟩, ⟨[97, 98], true, [2]⟩]

/-- The query `cat & dog & cat` in Polish order. -/
def query_cat_dog_cat : TSQuery :=
  [QueryItem.QI_OPR Oper.OP_AND 4, QueryItem.QI_VAL ⟨0, false, [99, 97, 116]⟩,
    QueryItem.QI_OPR Oper.OP_AND 2, QueryItem.QI_VAL ⟨0, false, [100, 111, 103]⟩,
    QueryItem.QI_VAL ⟨0, false, [99, 97, 116]⟩]

/-- The query `b | aa` in Polish order. -/
def query_b_aa : TSQuery :=
  [QueryItem.QI_OPR Oper.OP_OR 2, QueryItem.QI_VAL ⟨0, false, [98]⟩,
    QueryItem.QI_VAL ⟨0, false, [97, 97]⟩]

/-! ## Query extraction -/

/-- The search modes `rum_extract_tsquery` chooses between. -/
inductive SearchMode where
  | GIN_SEARCH_MODE_DEFAULT
  | GIN_SEARCH_MODE_ALL
deriving DecidableEq, Repr

/-- The outputs of `rum_extract_tsquery`: `*nentries`, the returned `entries`, the
`partialmatch` array, the shared `map_item_operand` array (one `int` per query item, zero
where the item is an operator) and `*searchMode` (`none` when it is left untouched). -/
structure ExtractedQuery where
  nentries : Nat
  entries : List (List Nat)
  partialmatch : List Bool
  map_item_operand : List Nat
  searchMode : Option SearchMode
deriving DecidableEq, Repr

/-- The inner loop of the rescan of `rum_extract_tsquery` from entry number `i`: the
first entry whose lexeme compares equal to that of `val`. -/
def rescan_find (val : QueryOperand) : List QueryOperand → Nat → Option Nat
  | [], _ => none
  | o :: os, i =>
    if tsCompareString o.lexeme val.lexeme false = 0 then some i
    else rescan_find val os (i + 1)

/-- The rescan loop of `rum_extract_tsquery` over the query items: the filled
`map_item_operand`, or the error raised with `elog(ERROR, ...)`. -/
def rescan_items (operands : List QueryOperand) : List QueryItem → Except String (List Nat)
  | [] => Except.ok []
  | QueryItem.QI_VAL val :: rest =>
    match rescan_find val operands 0 with
    | none => Except.error "Operand not found!"
    | some i =>
      match rescan_items operands rest with
      | Except.error e => Except.error e
      | Except.ok m => Except.ok (i :: m)
  | QueryItem.QI_OPR _ _ :: rest =>
    match rescan_items operands rest with
    | Except.error e => Except.error e
    | Except.ok m => Except.ok (0 :: m)

/-- The C function `rum_extract_tsquery`. The library routines `qsort_arg` and
`tsquery_requires_match` are arguments. -/
def rum_extract_tsquery (qsort_arg : List QueryOperand → List QueryOperand)
    (tsquery_requires_match : TSQuery → Bool) (query : TSQuery) :
    Except String ExtractedQuery :=
  if 0 < query.length then
    let searchMode :=
      if tsquery_requires_match query then SearchMode.GIN_SEARCH_MODE_DEFAULT
      else SearchMode.GIN_SEARCH_MODE_ALL
    let operands := SortAndUniqItems qsort_arg query
    match rescan_items operands query with
    | Except.error e => Except.error e
    | Except.ok m =>
      Except.ok ⟨operands.length, operands.map QueryOperand.lexeme,
        operands.map QueryOperand.prefix_flag, m, some searchMode⟩
  else Except.ok ⟨0, [], [], [], none⟩

/-! ## Weights and the proximity kernel

Numbers of type `float` and `double` are elements of a linearly ordered field `F`, and a
decimal literal of the source is the number it writes. -/

section Ranking

variable {F : Type} [LinearOrderedField F]

/-- The functions of `math.h` that the ranking code calls. -/
structure MathFns (F : Type) where
  sqrt : F → F
  exp : F → F
  log : F → F

/-- The static array `weights` (`0.1f, 0.2f, 0.4f, 1.0f`). -/
def weights : List F := [0.1, 0.2, 0.4, 1.0]

/-- The macro `wpos(wep)`, that is `w[WEP_GETWEIGHT(wep)]`, on a weight array `w`. -/
def wpos (w : List F) (wep : Nat) : F := w.getD (WEP_GETWEIGHT wep) 0

/-- The C function `word_distance`. -/
def word_distance (m : MathFns F) (w : Int) : F :=
  if 100 < w then 1 / 10 ^ 30
  else 1.0 / (1.005 + 0.05 * m.exp ((w : F) / 1.5 - 2))

/-- An array argument as `getWeights` reads it: `ARR_NDIM`, `ARR_DIMS`, and the elements
in storage order, a null element being `none`. -/
structure ArrayType (F : Type) where
  ndim : Nat
  dims : List Nat
  elems : List (Option F)

/-- The library function `ArrayGetNItems(ndim, dims)`: the product of the dimensions. -/
def ArrayGetNItems (ndim : Nat) (dims : List Nat) : Nat :=
  if ndim = 0 then 0 else (dims.take ndim).prod

/-- The library function `array_contains_nulls`. -/
def array_contains_nulls (win : ArrayType F) : Bool := win.elems.any Option.isNone

/-- The data area `ARR_DATA_PTR(win)`: the non-null elements in storage order. -/
def ARR_DATA_PTR (win : ArrayType F) : List F := win.elems.filterMap id

/-- An array is well formed when it has `ndim` dimensions and as many elements as
`ArrayGetNItems` counts. -/
def ArrayType.wellFormed (win : ArrayType F) : Prop :=
  win.dims.length = win.ndim ∧ win.elems.length = ArrayGetNItems win.ndim win.dims

/-- The loop of `getWeights` from index `i`, over the remaining default weights: the
filled part of `ws`, or the error `weight out of range`; `none` when the loop reads past
the data area. -/
def getWeights_loop (arrdata : List F) : Nat → List F → Option (Except String (List F))
  | _, [] => some (Except.ok [])
  | i, wi :: rest =>
    match arrdata[i]? with
    | none => none
    | some a =>
      let wsi := if 0 ≤ a then a else wi
      if 1.0 < wsi then some (Except.error "weight out of range")
      else
        match getWeights_loop arrdata (i + 1) rest with
        | none => none
        | some (Except.error e) => some (Except.error e)
        | some (Except.ok ws) => some (Except.ok (wsi :: ws))

/-- The C function `getWeights`; `win = none` is the `NULL` argument. The result is the
array the returned pointer points at, or the error reported. -/
def getWeights (win : Option (ArrayType F)) : Option (Except String (List F)) :=
  match win with
  | none => some (Except.ok weights)
  | some win =>
    if win.ndim ≠ 1 then some (Except.error "array of weight must be one-dimensional")
    else if ArrayGetNItems win.ndim win.dims < (weights : List F).length then
      some (Except.error "array of weight is too short")
    else if array_contains_nulls win then
      some (Except.error "array of weight must not contain nulls")
    else getWeights_loop (ARR_DATA_PTR win) 0 weights

/-! ## Per-term scoring on a document -/

/-- The loop over `j` of `calc_rank_or` from the state `(j, resj, wjm, jm)` over the
remaining positions `post`: the final `(resj, wjm, jm)`. -/
def calc_rank_or_positions (w : List F) : List Nat → Nat → F → F → Nat → F × F × Nat
  | [], _, resj, wjm, jm => (resj, wjm, jm)
  | p :: ps, j, resj, wjm, jm =>
    if wjm < wpos w p then
      calc_rank_or_positions w ps (j + 1) (resj + wpos w p / (((j + 1) * (j + 1) : Nat) : F))
        (wpos w p) j
    else
      calc_rank_or_positions w ps (j + 1) (resj + wpos w p / (((j + 1) * (j + 1) : Nat) : F))
        wjm jm

/-- What one pass of the `while` loop of `calc_rank_or` adds to `res` for the positions
`post` (`dimt` of them). -/
def calc_rank_or_term (w : List F) (post : List Nat) : F :=
  let r := calc_rank_or_positions w post 0 0.0 (-1.0) 0
  (r.2.1 + r.1 - r.2.1 / (((r.2.2 + 1) * (r.2.2 + 1) : Nat) : F)) / 1.64493406685

/-- The positions `calc_rank_or` scores for an entry: its own, or the one position of
the local `posnull` (the word `0`) when `haspos` is false. -/
def calc_rank_or_post (e : WordEntry) : List Nat := if e.haspos then e.pos else [0]

/-- The `while (entry - firstentry < nitem)` loop of `calc_rank_or` over the entries
found for one operand, from the running `res`. -/
def calc_rank_or_entries (w : List F) : List WordEntry → F → F
  | [], res => res
  | e :: es, res => calc_rank_or_entries w es (res + calc_rank_or_term w (calc_rank_or_post e))

/-- The loop over the operands `item[i]` of `calc_rank_or`, from the running `res`. -/
def calc_rank_or_items (w : List F) (t : TSVector) : List QueryOperand → F → Option F
  | [], res => some res
  | item :: rest, res =>
    match find_wordentry t item with
    | none => none
    | some r => calc_rank_or_items w t rest (calc_rank_or_entries w (r.entries t) res)

/-- The C function `calc_rank_or`. -/
def calc_rank_or (qsort_arg : List QueryOperand → List QueryOperand) (w : List F)
    (t : TSVector) (q : TSQuery) : Option F :=
  let item := SortAndUniqItems qsort_arg q
  match calc_rank_or_items w t item 0.0 with
  | none => none
  | some res => some (if 0 < item.length then res / (item.length : F) else res)

/-- The entries of the document that the ranking kernels walk for an operand: the range
`find_wordentry` returns. -/
def matched_entries (t : TSVector) (item : QueryOperand) : List WordEntry :=
  match find_wordentry t item with
  | none => []
  | some r => r.entries t

/-! ## Pairwise scoring on a document -/

/-- A `WordEntryPosVector *` of `calc_rank_and`: whether it is the pointer `POSNULL`, and
the `npos` position words it points at. -/
structure PosVector where
  isPOSNULL : Bool
  pos : List Nat
deriving DecidableEq, Repr

/-- The dummy vector `POSNULL` of `calc_rank_and`: one position at `MAXENTRYPOS - 1`. -/
def POSNULL : PosVector := ⟨true, [WEP_SETPOS 0 (MAXENTRYPOS - 1)]⟩

/-- The body of the two innermost loops of `calc_rank_and` and `calc_rank_pos_and` for
the position words `post` and `ct`: the new `res`. `posnull` is the value of the test
that one of the two compared pointers equals `POSNULL`. -/
def rank_and_pair (m : MathFns F) (w : List F) (posnull : Bool) (post ct : Nat) (res : F) : F :=
  let dist := Int.natAbs ((WEP_GETPOS post : Int) - (WEP_GETPOS ct : Int))
  if dist ≠ 0 ∨ (dist = 0 ∧ posnull) then
    let dist := if dist = 0 then MAXENTRYPOS else dist
    let curw := m.sqrt (wpos w post * wpos w ct * word_distance m (dist : Int))
    if res < 0 then curw else 1.0 - (1.0 - res) * (1.0 - curw)
  else res

/-- The loops over `l` and `p` of `calc_rank_and` for the vectors `pos[i]` and `pos[k]`. -/
def calc_rank_and_pairs (m : MathFns F) (w : List F) (posi posk : PosVector) (res : F) : F :=
  posi.pos.foldl
    (fun res post =>
      posk.pos.foldl
        (fun res ct => rank_and_pair m w (posi.isPOSNULL || posk.isPOSNULL) post ct res) res)
    res

/-- The loop over `k < i` of `calc_rank_and`; `pos` holds `pos[0]` to `pos[i - 1]`, a
null pointer being `none`. -/
def calc_rank_and_entry (m : MathFns F) (w : List F) (posi : PosVector)
    (pos : List (Option PosVector)) (res : F) : F :=
  pos.foldl
    (fun res posk =>
      match posk with
      | none => res
      | some posk => calc_rank_and_pairs m w posi posk res)
    res

/-- The `while (entry - firstentry < nitem)` loop of `calc_rank_and` for operand `i` over
the entries found, from the state `(pos[i], res)`. -/
def calc_rank_and_entries (m : MathFns F) (w : List F) (pos : List (Option PosVector)) :
    List WordEntry → Option PosVector × F → Option PosVector × F
  | [], st => st
  | e :: es, st =>
    let posi : PosVector := if e.haspos then ⟨false, e.pos⟩ else POSNULL
    calc_rank_and_entries m w pos es (some posi, calc_rank_and_entry m w posi pos st.2)

/-- The loop over the operands `item[i]` of `calc_rank_and`, from the state `(pos, res)`;
`pos` holds `pos[0]` to `pos[i - 1]`. -/
def calc_rank_and_items (m : MathFns F) (w : List F) (t : TSVector) :
    List QueryOperand → List (Option PosVector) → F → Option F
  | [], _, res => some res
  | item :: rest, pos, res =>
    match find_wordentry t item with
    | none => none
    | some r =>
      let st := calc_rank_and_entries m w pos (r.entries t) (none, res)
      calc_rank_and_items m w t rest (pos ++ [st.1]) st.2

/-- The C function `calc_rank_and`. -/
def calc_rank_and (m : MathFns F) (qsort_arg : List QueryOperand → List QueryOperand)
    (w : List F) (t : TSVector) (q : TSQuery) : Option F :=
  let item := SortAndUniqItems qsort_arg q
  if item.length < 2 then calc_rank_or qsort_arg w t q
  else calc_rank_and_items m w t item [] (-1.0)

/-! ## The ranking entry point on a document -/

/-- The normalisation flags of `calc_rank`. -/
def RANK_NORM_LOGLENGTH : Nat := 0x01

/-- Flag: divide by the length of the document. -/
def RANK_NORM_LENGTH : Nat := 0x02

/-- Flag: divide by the number of distinct lexemes. -/
def RANK_NORM_UNIQ : Nat := 0x08

/-- Flag: divide by the logarithm of the number of distinct lexemes. -/
def RANK_NORM_LOGUNIQ : Nat := 0x10

/-- Flag: map the rank `r` to `r / (r + 1)`. -/
def RANK_NORM_RDIVRPLUS1 : Nat := 0x20

/-- The test of `calc_rank` on the first query item: an operator `OP_AND` or `OP_PHRASE`. -/
def root_is_and_or_phrase : TSQuery → Bool
  | QueryItem.QI_OPR Oper.OP_AND _ :: _ => true
  | QueryItem.QI_OPR Oper.OP_PHRASE _ :: _ => true
  | _ => false

/-- The test of `calc_rank_pos` on the first query item: an operator `OP_AND`. -/
def root_is_and : TSQuery → Bool
  | QueryItem.QI_OPR Oper.OP_AND _ :: _ => true
  | _ => false

/-- The part of `calc_rank` after the kernel returned `res`: the clamp of a negative
value and the normalisations selected by `method`. -/
def calc_rank_normalize (m : MathFns F) (t : TSVector) (method : Nat) (res : F) : F :=
  let res := if res < 0 then 1 / 10 ^ 20 else res
  let res :=
    if method &&& RANK_NORM_LOGLENGTH ≠ 0 ∧ 0 < t.length then
      res / (m.log ((cnt_length t + 1 : Nat) : F) / m.log 2.0)
    else res
  let res :=
    if method &&& RANK_NORM_LENGTH ≠ 0 then
      if 0 < cnt_length t then res / (cnt_length t : F) else res
    else res
  let res :=
    if method &&& RANK_NORM_UNIQ ≠ 0 ∧ 0 < t.length then res / (t.length : F) else res
  let res :=
    if method &&& RANK_NORM_LOGUNIQ ≠ 0 ∧ 0 < t.length then
      res / (m.log ((t.length + 1 : Nat) : F) / m.log 2.0)
    else res
  if method &&& RANK_NORM_RDIVRPLUS1 ≠ 0 then res / (res + 1) else res

/-- The C function `calc_rank`. -/
def calc_rank (m : MathFns F) (qsort_arg : List QueryOperand → List QueryOperand)
    (w : List F) (t : TSVector) (q : TSQuery) (method : Nat) : Option F :=
  if t.length = 0 ∨ q.length = 0 then some 0.0
  else
    match (if root_is_and_or_phrase q then calc_rank_and m qsort_arg w t q
      else calc_rank_or qsort_arg w t q) with
    | none => none
    | some res => some (calc_rank_normalize m t method res)

end Ranking

/-! ## Scoring on position payloads

The static vector `POSNULL` of the file is state shared by the payload kernels: the value
of `POSNULL.pos[0]` on entry is the argument `posnull0` (it is `0` when the module is
loaded, and `calc_rank_pos_and` overwrites its offset). The kernels read it through a
`char *`; its two bytes are taken in little-endian order. -/

section PayloadRanking

variable {F : Type} [LinearOrderedField F]

/-- A `char *` of the payload kernels: whether it points into `POSNULL.pos`, how many
bytes it stands past the start of its buffer, and the bytes from it to the end of the
buffer. -/
structure CharPtr where
  in_posnull : Bool
  off : Nat
  rest : List Nat
deriving DecidableEq, Repr

/-- The bytes of the `uint16` value `v` of `POSNULL.pos[0]`, lowest first. -/
def POSNULL_bytes (v : Nat) : List Nat := [v % 256, v / 256 % 256]

/-- The comparison `ptr == (char *) POSNULL.pos`. -/
def CharPtr.is_posnull (p : CharPtr) : Bool := p.in_posnull && p.off == 0

/-- The call `ptr = decompress_pos(ptr, &pos)` on a `CharPtr`. -/
def CharPtr.decompress (p : CharPtr) (pos : Nat) : Option (CharPtr × Nat) :=
  match decompress_pos p.rest pos with
  | none => none
  | some (rest, pos1) => some (⟨p.in_posnull, p.off + (p.rest.length - rest.length), rest⟩, pos1)

/-- The start of the positions of operand `i`: `VARDATA_ANY(addInfo[i])`, or
`POSNULL.pos` when `addInfoIsNull[i]`. -/
def payload_ptr (posnull : Nat) (addInfo : Option (List Nat)) : CharPtr :=
  match addInfo with
  | some data => ⟨false, 0, data⟩
  | none => ⟨true, 0, POSNULL_bytes posnull⟩

/-- The number of positions of operand `i`: `count_pos` of its payload, or
`POSNULL.npos = 1` when `addInfoIsNull[i]`. -/
def payload_count (addInfo : Option (List Nat)) : Nat :=
  match addInfo with
  | some data => count_pos data
  | none => 1

/-- The loop over `j < dimt` of `calc_rank_pos_or` from the state
`(ptrt, post, j, resj, wjm, jm)`; `n` iterations remain. -/
def calc_rank_pos_or_positions (w : List F) :
    Nat → CharPtr → Nat → Nat → F → F → Nat → Option (F × F × Nat)
  | 0, _, _, _, resj, wjm, jm => some (resj, wjm, jm)
  | n + 1, ptrt, post, j, resj, wjm, jm =>
    match ptrt.decompress post with
    | none => none
    | some (ptrt1, post1) =>
      if wjm < wpos w post1 then
        calc_rank_pos_or_positions w n ptrt1 post1 (j + 1)
          (resj + wpos w post1 / (((j + 1) * (j + 1) : Nat) : F)) (wpos w post1) j
      else
        calc_rank_pos_or_positions w n ptrt1 post1 (j + 1)
          (resj + wpos w post1 / (((j + 1) * (j + 1) : Nat) : F)) wjm jm

/-- The loop over `i < size` of `calc_rank_pos_or` over the remaining operands, from the
running `res`. -/
def calc_rank_pos_or_items (w : List F) (posnull : Nat) : List (Option (List Nat)) → F → Option F
  | [], res => some res
  | a :: rest, res =>
    match calc_rank_pos_or_positions w (payload_count a) (payload_ptr posnull a) 0 0 0.0
        (-1.0) 0 with
    | none => none
    | some r =>
      calc_rank_pos_or_items w posnull rest
        (res + (r.2.1 + r.1 - r.2.1 / (((r.2.2 + 1) * (r.2.2 + 1) : Nat) : F)) / 1.64493406685)

/-- The C function `calc_rank_pos_or`; `addInfo[i]` is `none` when `addInfoIsNull[i]`,
and `size` is the length of the list. -/
def calc_rank_pos_or (w : List F) (addInfo : List (Option (List Nat))) (posnull0 : Nat) :
    Option F :=
  match calc_rank_pos_or_items w posnull0 addInfo 0.0 with
  | none => none
  | some res => some (if 0 < addInfo.length then res / (addInfo.length : F) else res)

/-- The loop over `p < lenct` of `calc_rank_pos_and` from the state `(ptrc, ct, res)`;
`n` iterations remain. -/
def calc_rank_pos_and_p (m : MathFns F) (w : List F) (ptrt : CharPtr) (post : Nat) :
    Nat → CharPtr → Nat → F → Option F
  | 0, _, _, res => some res
  | n + 1, ptrc, ct, res =>
    match ptrc.decompress ct with
    | none => none
    | some (ptrc1, ct1) =>
      calc_rank_pos_and_p m w ptrt post n ptrc1 ct1
        (rank_and_pair m w (ptrt.is_posnull || ptrc1.is_posnull) post ct1 res)

/-- The loop over `l < dimt` of `calc_rank_pos_and` from the state `(ptrt, post, res)`;
`n` iterations remain. `ptrc0` is the start of the positions of operand `k`. -/
def calc_rank_pos_and_l (m : MathFns F) (w : List F) (ptrc0 : CharPtr) (lenct : Nat) :
    Nat → CharPtr → Nat → F → Option (CharPtr × F)
  | 0, ptrt, _, res => some (ptrt, res)
  | n + 1, ptrt, post, res =>
    match ptrt.decompress post with
    | none => none
    | some (ptrt1, post1) =>
      match calc_rank_pos_and_p m w ptrt1 post1 lenct ptrc0 0 res with
      | none => none
      | some res1 => calc_rank_pos_and_l m w ptrc0 lenct n ptrt1 post1 res1

/-- The loop over `k < i` of `calc_rank_pos_and` over the remaining earlier operands,
from the state `(ptrt, res)`: `ptrt` is carried from one `k` to the next. -/
def calc_rank_pos_and_k (m : MathFns F) (w : List F) (posnull dimt : Nat) :
    List (Option (List Nat)) → CharPtr → F → Option (CharPtr × F)
  | [], ptrt, res => some (ptrt, res)
  | ak :: rest, ptrt, res =>
    match calc_rank_pos_and_l m w (payload_ptr posnull ak) (payload_count ak) dimt ptrt 0
        res with
    | none => none
    | some st => calc_rank_pos_and_k m w posnull dimt rest st.1 st.2

/-- The loop over `i < size` of `calc_rank_pos_and`: `before` holds the operands
`0 .. i - 1`, the list the operands from `i` on. -/
def calc_rank_pos_and_i (m : MathFns F) (w : List F) (posnull : Nat) :
    List (Option (List Nat)) → List (Option (List Nat)) → F → Option F
  | _, [], res => some res
  | before, ai :: rest, res =>
    match calc_rank_pos_and_k m w posnull (payload_count ai) before (payload_ptr posnull ai)
        res with
    | none => none
    | some st => calc_rank_pos_and_i m w posnull (before ++ [ai]) rest st.2

/-- The C function `calc_rank_pos_and`; it sets the offset of `POSNULL.pos[0]` to
`MAXENTRYPOS - 1` before its loops. -/
def calc_rank_pos_and (m : MathFns F) (w : List F) (addInfo : List (Option (List Nat)))
    (posnull0 : Nat) : Option F :=
  if addInfo.length < 2 then calc_rank_pos_or w addInfo posnull0
  else calc_rank_pos_and_i m w (WEP_SETPOS posnull0 (MAXENTRYPOS - 1)) [] addInfo (-1.0)

/-- The C function `calc_rank_pos`. -/
def calc_rank_pos (m : MathFns F) (w : List F) (q : TSQuery)
    (addInfo : List (Option (List Nat))) (posnull0 : Nat) : Option F :=
  if addInfo.length = 0 ∨ q.length = 0 then some 0.0
  else
    match (if root_is_and q then calc_rank_pos_and m w addInfo posnull0
      else calc_rank_pos_or w addInfo posnull0) with
    | none => none
    | some res => some (if res < 0 then 1 / 10 ^ 20 else res)

end PayloadRanking

/-! ## Inputs of the worked examples -/

/-- A weight array `{0.5, -1, 0.5, 0.5}` over the rationals. -/
def weights_array_example : ArrayType ℚ := ⟨1, [4], [some 0.5, some (-1), some 0.5, some 0.5]⟩

/-- The query `a <-> b` in Polish order. -/
def query_phrase_a_b : TSQuery :=
  [QueryItem.QI_OPR Oper.OP_PHRASE 2, QueryItem.QI_VAL ⟨0, false, [98]⟩,
    QueryItem.QI_VAL ⟨0, false, [97]⟩]

/-- The query `a & b` in Polish order. -/
def query_and_a_b : TSQuery :=
  [QueryItem.QI_OPR Oper.OP_AND 2, QueryItem.QI_VAL ⟨0, false, [98]⟩,
    QueryItem.QI_VAL ⟨0, false, [97]⟩]

/-- The document with `cat` at offset 1, level A, and `dog` at offset 5, level D. -/
def doc_cat_dog : TSVector :=
  [⟨[99, 97, 116], true, [49153]⟩, ⟨[100, 111, 103], true, [5]⟩]

/-- The operand `cat`. -/
def operand_cat : QueryOperand := ⟨0, false, [99, 97, 116]⟩

/-- The operand `dog`. -/
def operand_dog : QueryOperand := ⟨0, false, [100, 111, 103]⟩

/-- The document with the one lexeme `cat` at offset 1, level A. -/
def doc_cat : TSVector := [⟨[99, 97, 116], true, [49153]⟩]

/-! ## Notions of the later properties -/

section LaterNotions

variable {F : Type} [LinearOrderedField F]

/-- An operand is matched when `find_wordentry` returns a non-empty range for it. -/
def operand_matched (t : TSVector) (item : QueryOperand) : Bool :=
  !(matched_entries t item).isEmpty

/-- The term scores `calc_rank_or` adds for one operand: one per matched entry. -/
def operand_term_score (w : List F) (t : TSVector) (item : QueryOperand) : F :=
  ((matched_entries t item).map (fun e => calc_rank_or_term w (calc_rank_or_post e))).sum

/-- The query `cat | dog` in Polish order. -/
def query_cat_or_dog : TSQuery :=
  [QueryItem.QI_OPR Oper.OP_OR 2, QueryItem.QI_VAL operand_dog, QueryItem.QI_VAL operand_cat]

/-- The query `cat & dog` in Polish order. -/
def query_cat_and_dog : TSQuery :=
  [QueryItem.QI_OPR Oper.OP_AND 2, QueryItem.QI_VAL operand_dog, QueryItem.QI_VAL operand_cat]

/-- The query `cat & cat` in Polish order. -/
def query_cat_and_cat : TSQuery :=
  [QueryItem.QI_OPR Oper.OP_AND 2, QueryItem.QI_VAL operand_cat, QueryItem.QI_VAL operand_cat]

/-- The total position count of the normalisation as the specification words it: the
positions of all lexemes, a lexeme without positions counting as one. -/
def total_position_count (t : TSVector) : Nat :=
  (t.map (fun e => if POSDATALEN e = 0 then 1 else POSDATALEN e)).sum

/-- The whole-document normalisation as the specification words it: the score `r`
divided by each divisor whose flag is set in `method` (the base-2 logarithm of the total
position count plus one, the total position count, the distinct-term count, the base-2
logarithm of the distinct-term count plus one), then mapped through `x / (x + 1)` when
that flag is set. -/
def rank_normalized_spec (log2 : F → F) (method positions terms : Nat) (r : F) : F :=
  let x := r / (if method &&& 0x01 ≠ 0 then log2 ((positions : F) + 1) else 1)
    / (if method &&& 0x02 ≠ 0 then (positions : F) else 1)
    / (if method &&& 0x08 ≠ 0 then (terms : F) else 1)
    / (if method &&& 0x10 ≠ 0 then log2 ((terms : F) + 1) else 1)
  if method &&& 0x20 ≠ 0 then x / (x + 1) else x

/-- A document of four lexemes `a`, `b`, `c`, `d`, one position each. -/
def doc_four_terms : TSVector :=
  [⟨[97], true, [1]⟩, ⟨[98], true, [2]⟩, ⟨[99], true, [3]⟩, ⟨[100], true, [4]⟩]

/-- The noisy-OR accumulation of one contribution `curw` into the score, the sentinel
`-1` (any negative score) meaning that nothing was accumulated yet. -/
def noisy_or (score curw : F) : F :=
  if score < 0 then curw else 1.0 - (1.0 - score) * (1.0 - curw)

/-- The vector `calc_rank_and` takes for an entry: its positions, or `POSNULL` when
`haspos` is false. -/
def entry_posvector (e : WordEntry) : PosVector :=
  if e.haspos then ⟨false, e.pos⟩ else POSNULL

/-- The position pairs `calc_rank_and` examines for the vectors `pos[i]` and `pos[k]`,
in loop order, each with the value of the test that one of the vectors is `POSNULL`. -/
def posvector_pairs (posi posk : PosVector) : List (Bool × Nat × Nat) :=
  posi.pos.flatMap (fun post =>
    posk.pos.map (fun ct => (posi.isPOSNULL || posk.isPOSNULL, post, ct)))

/-- The pairs examined for `pos[i]` against `pos[0]` to `pos[i - 1]`. -/
def entry_pairs (posi : PosVector) (pos : List (Option PosVector)) : List (Bool × Nat × Nat) :=
  pos.flatMap (fun posk =>
    match posk with
    | none => []
    | some posk => posvector_pairs posi posk)

/-- The value of `pos[i]` after the entries `es` found for operand `i` were walked: the
vector of the last, or the null pointer when none was found. -/
def last_posvector : List WordEntry → Option PosVector
  | [] => none
  | [e] => some (entry_posvector e)
  | _ :: e :: es => last_posvector (e :: es)

/-- All position pairs `calc_rank_and` examines for the operands `items`, in loop order;
`pos` holds the vectors of the operands before them. -/
def items_pairs (t : TSVector) : List QueryOperand → List (Option PosVector) →
    List (Bool × Nat × Nat)
  | [], _ => []
  | item :: rest, pos =>
    (matched_entries t item).flatMap (fun e => entry_pairs (entry_posvector e) pos) ++
      items_pairs t rest (pos ++ [last_posvector (matched_entries t item)])

/-- A pair contributes when its offsets differ or one of its vectors is `POSNULL`. -/
def pair_contributes (p : Bool × Nat × Nat) : Bool :=
  decide (WEP_GETPOS p.2.1 ≠ WEP_GETPOS p.2.2) || p.1

end LaterNotions

/-! ## Document extraction -/

/-- The C expression `sizeof(WordEntryPos)`, a `uint16`. -/
def sizeof_WordEntryPos : Nat := 2

/-- The data bytes `rum_extract_tsvector` allocates for the payload of an entry with
`npos` positions: `2 * npos * sizeof(WordEntryPos)`, past the `VARHDRSZ` header. -/
def posData_capacity (npos : Nat) : Nat := 2 * npos * sizeof_WordEntryPos

/-- The outputs of `rum_extract_tsvector`: `*nentries`, the returned `entries` and the
`addInfo` array, `none` where `addInfoIsNull` is set. -/
structure ExtractedVector where
  nentries : Nat
  entries : List (List Nat)
  addInfo : List (Option (List Nat))
deriving DecidableEq, Repr

/-- The C function `rum_extract_tsvector`. -/
def rum_extract_tsvector (vector : TSVector) : ExtractedVector :=
  ⟨vector.length, vector.map WordEntry.lexeme,
    vector.map (fun we => if we.haspos then some (compress_pos we.pos) else none)⟩

/-! ## Pre-consistency check -/

/-- The struct `RumChkVal` as the callback uses it: the `check` array, the
`map_item_operand` array and the value of the flag `need_recheck` points at.
`first_item` is implicit: an operand is named by its item number. -/
structure RumChkVal where
  check : List Bool
  map_item_operand : List Nat
  need_recheck : Bool
deriving DecidableEq, Repr

/-- The C function `checkcondition_rum` on the operand `val` at item number `item`: the
returned presence and the struct afterwards; `none` when an array is read out of
bounds. -/
def checkcondition_rum (gcv : RumChkVal) (item : Nat) (val : QueryOperand) :
    Option (Bool × RumChkVal) :=
  let gcv1 : RumChkVal := if val.weight ≠ 0 then { gcv with need_recheck := true } else gcv
  match gcv1.map_item_operand[item]? with
  | none => none
  | some j =>
    match gcv1.check[j]? with
    | none => none
    | some present => some (present, gcv1)

/-- The library function `TS_execute(curitem, checkval, false, chkcond)` of PostgreSQL
9.6 (`tsvector_op.c`) on the item number `cur`: an operand is handed to the callback, a
negation is taken for true without evaluating its argument (`calcnot` is false),
`OP_AND` and `OP_OR` evaluate the left argument first and the right one only when the
left does not decide. `OP_PHRASE` is handed to the library's phrase evaluation, the
argument `phrase`. The recursion gets `fuel` levels. -/
def TS_execute (phrase : TSQuery → Nat → RumChkVal → Option (Bool × RumChkVal))
    (chkcond : RumChkVal → Nat → QueryOperand → Option (Bool × RumChkVal))
    (query : TSQuery) : Nat → Nat → RumChkVal → Option (Bool × RumChkVal)
  | 0, _, _ => none
  | fuel + 1, cur, checkval =>
    match query[cur]? with
    | none => none
    | some (QueryItem.QI_VAL val) => chkcond checkval cur val
    | some (QueryItem.QI_OPR Oper.OP_NOT _) => some (true, checkval)
    | some (QueryItem.QI_OPR Oper.OP_AND left) =>
      match TS_execute phrase chkcond query fuel (cur + left) checkval with
      | none => none
      | some (true, checkval1) => TS_execute phrase chkcond query fuel (cur + 1) checkval1
      | some (false, checkval1) => some (false, checkval1)
    | some (QueryItem.QI_OPR Oper.OP_OR left) =>
      match TS_execute phrase chkcond query fuel (cur + left) checkval with
      | none => none
      | some (true, checkval1) => some (true, checkval1)
      | some (false, checkval1) => TS_execute phrase chkcond query fuel (cur + 1) checkval1
    | some (QueryItem.QI_OPR Oper.OP_PHRASE _) => phrase query cur checkval

/-- The locals `res` and `recheck` of `rum_tsquery_pre_consistent` when control reaches
`PG_RETURN_BOOL(res)`; both go out of scope there. -/
structure PreConsistentLocals where
  res : Bool
  recheck : Bool
deriving DecidableEq, Repr

/-- The body of the C function `rum_tsquery_pre_consistent` down to its return statement:
the values of its locals there. The library function `TS_execute` (applied to the first
query item, with `calcnot` false) is the argument `ts_execute`; `recheck0` is the value
the uninitialised local `recheck` happens to hold. -/
def rum_tsquery_pre_consistent_body
    (ts_execute : (RumChkVal → Nat → QueryOperand → Option (Bool × RumChkVal)) → TSQuery →
      RumChkVal → Option (Bool × RumChkVal))
    (check : List Bool) (query : TSQuery) (extra_data0 : List Nat) (recheck0 : Bool) :
    Option PreConsistentLocals :=
  if 0 < query.length then
    match ts_execute checkcondition_rum query ⟨check, extra_data0, recheck0⟩ with
    | none => none
    | some (res, gcv) => some ⟨res, gcv.need_recheck⟩
  else some ⟨false, recheck0⟩

/-- The C function `rum_tsquery_pre_consistent`: what it hands to its caller, the Datum of
`PG_RETURN_BOOL(res)`. It reads its arguments 0 (`check`), 2 (`query`) and 4
(`extra_data`) and stores through none of them. -/
def rum_tsquery_pre_consistent
    (ts_execute : (RumChkVal → Nat → QueryOperand → Option (Bool × RumChkVal)) → TSQuery →
      RumChkVal → Option (Bool × RumChkVal))
    (check : List Bool) (query : TSQuery) (extra_data0 : List Nat) (recheck0 : Bool) :
    Option Bool :=
  (rum_tsquery_pre_consistent_body ts_execute check query extra_data0 recheck0).map
    (fun locals => locals.res)

/-- The presence `check[map_item_operand[item]]` the callback returns for the operand at
item number `item`; `none` when an array is read out of bounds. -/
def operand_presence (check : List Bool) (map_item_operand : List Nat) (item : Nat) :
    Option Bool :=
  match map_item_operand[item]? with
  | none => none
  | some j => check[j]?

/-- The operands the evaluation of `TS_execute` calls the callback on, in call order, and
its result, for a callback that returns the presence `present`: an operand is called on;
under a negation nothing is; the right argument of `OP_AND` is visited only after a true
left argument, that of `OP_OR` only after a false one. `none` when the evaluation meets a
phrase operator, leaves the query or runs out of `fuel`. -/
def TS_execute_calls (present : Nat → Option Bool) (query : TSQuery) :
    Nat → Nat → Option (Bool × List Nat)
  | 0, _ => none
  | fuel + 1, cur =>
    match query[cur]? with
    | none => none
    | some (QueryItem.QI_VAL _) =>
      match present cur with
      | none => none
      | some b => some (b, [cur])
    | some (QueryItem.QI_OPR Oper.OP_NOT _) => some (true, [])
    | some (QueryItem.QI_OPR Oper.OP_AND left) =>
      match TS_execute_calls present query fuel (cur + left) with
      | none => none
      | some (true, calls1) =>
        match TS_execute_calls present query fuel (cur + 1) with
        | none => none
        | some (b, calls2) => some (b, calls1 ++ calls2)
      | some (false, calls1) => some (false, calls1)
    | some (QueryItem.QI_OPR Oper.OP_OR left) =>
      match TS_execute_calls present query fuel (cur + left) with
      | none => none
      | some (true, calls1) => some (true, calls1)
      | some (false, calls1) =>
        match TS_execute_calls present query fuel (cur + 1) with
        | none => none
        | some (b, calls2) => some (b, calls1 ++ calls2)
    | some (QueryItem.QI_OPR Oper.OP_PHRASE _) => none

/-- Whether the item at number `i` is an operand with a non-zero weight mask. -/
def item_weighted (query : TSQuery) (i : Nat) : Bool :=
  match query[i]? with
  | some (QueryItem.QI_VAL val) => decide (val.weight ≠ 0)
  | _ => false

/-- The query with the weight mask of every operand set to zero. -/
def clear_weights (query : TSQuery) : TSQuery :=
  query.map (fun it =>
    match it with
    | QueryItem.QI_VAL val => QueryItem.QI_VAL { val with weight := 0 }
    | QueryItem.QI_OPR oper left => QueryItem.QI_OPR oper left)

/-- Whether the item at number `i` is no phrase operator and, when it is an `OP_AND` or
`OP_OR`, has its left argument inside the query, after the operator. -/
def item_plain (query : TSQuery) (i : Nat) : Bool :=
  match query[i]? with
  | some (QueryItem.QI_OPR Oper.OP_PHRASE _) => false
  | some (QueryItem.QI_OPR Oper.OP_AND left) => decide (1 ≤ left ∧ i + left < query.length)
  | some (QueryItem.QI_OPR Oper.OP_OR left) => decide (1 ≤ left ∧ i + left < query.length)
  | _ => true

/-- A query without phrase operator in which the arguments of every `OP_AND` and `OP_OR`
lie inside the query, after the operator: the right one next to it, the left one at the
offset `left`. -/
def query_plain (query : TSQuery) : Bool :=
  (List.range query.length).all (item_plain query)

/-- The query `a | b:A` in Polish order: the right operand `b`, with the weight mask of
level A, follows the operator, the left operand `a` stands at offset 2. -/
def query_a_or_bA : TSQuery :=
  [QueryItem.QI_OPR Oper.OP_OR 2, QueryItem.QI_VAL ⟨8, false, [98]⟩,
    QueryItem.QI_VAL ⟨0, false, [97]⟩]

/-- The query `b:A`, one operand with the weight mask of level A. -/
def query_bA : TSQuery := [QueryItem.QI_VAL ⟨8, false, [98]⟩]

/-- The query `b`, one operand without weight mask. -/
def query_b : TSQuery := [QueryItem.QI_VAL ⟨0, false, [98]⟩]

/-- The query `!b:A` in Polish order: a negation over the operand `b` with the weight
mask of level A. -/
def query_not_bA : TSQuery :=
  [QueryItem.QI_OPR Oper.OP_NOT 1, QueryItem.QI_VAL ⟨8, false, [98]⟩]

/-- The weight array `{0.1, 0.2, 0.3, 0.4, 7}`: five elements, the fifth out of range. -/
def weights_array_long : ArrayType ℚ :=
  ⟨1, [5], [some 0.1, some 0.2, some 0.3, some 0.4, some 7]⟩

/-! ## Notions of the range of the pairwise score -/

section ScoreRange

variable {F : Type} [LinearOrderedField F]

/-- The distance `calc_rank_and` scores a contributing pair with: the difference of the
two offsets, or `MAXENTRYPOS` when the offsets are equal. -/
def pair_distance (p : Bool × Nat × Nat) : Nat :=
  if WEP_GETPOS p.2.1 ≠ WEP_GETPOS p.2.2 then
    Int.natAbs ((WEP_GETPOS p.2.1 : Int) - (WEP_GETPOS p.2.2 : Int))
  else MAXENTRYPOS

/-- The contribution `curw` of a contributing pair. -/
def pair_curw (m : MathFns F) (w : List F) (p : Bool × Nat × Nat) : F :=
  m.sqrt (wpos w p.2.1 * wpos w p.2.2 * word_distance m (pair_distance p : Nat))

/-- The contributing pairs of `calc_rank_and` for the operands `items`, in loop order. -/
def contributing_pairs (t : TSVector) (items : List QueryOperand) : List (Bool × Nat × Nat) :=
  (items_pairs t items []).filter pair_contributes

/-- The document with `cat` at the offsets 1 and 3 and `dog` at the offsets 2 and 4, all
at level A. -/
def doc_cat_dog_interleaved : TSVector :=
  [⟨[99, 97, 116], true, [49153, 49155]⟩, ⟨[100, 111, 103], true, [49154, 49156]⟩]

end ScoreRange

/-! ## The position pairs of the pairwise kernel, by entries -/

section EntryPairs

/-- A position pair `calc_rank_and` examines: the entry found for the operand `item[i]`,
the entry whose vector stands in `pos[k]` for an earlier operand `item[k]`, and one
position word of each, `post[l]` and `ct[p]`. -/
structure EntryPair where
  entry_i : WordEntry
  entry_k : WordEntry
  post : Nat
  ct : Nat
deriving DecidableEq, Repr

/-- The position words `calc_rank_and` scores an entry with: its own position list, or,
when it has none (`haspos` false), the one synthetic word at offset `MAXENTRYPOS - 1`. -/
def scored_positions (e : WordEntry) : List Nat :=
  if e.haspos then e.pos else [MAXENTRYPOS - 1]

/-- Whether at least one entry of the pair is scored through the synthetic no-position
marker. -/
def EntryPair.synthetic (p : EntryPair) : Bool := !p.entry_i.haspos || !p.entry_k.haspos

/-- All position pairs `calc_rank_and` examines for the operands `items`, in loop order:
every entry found for an operand is paired with the entry that stands for each earlier
operand, the last one found for it (`prev`, `none` for an operand without entry), and
every scored position of the one with every scored position of the other. -/
def document_pairs (t : TSVector) : List QueryOperand → List (Option WordEntry) →
    List EntryPair
  | [], _ => []
  | item :: rest, prev =>
    (matched_entries t item).flatMap (fun ei =>
      prev.flatMap (fun ok =>
        match ok with
        | none => []
        | some ek =>
          (scored_positions ei).flatMap (fun post =>
            (scored_positions ek).map (fun ct => (⟨ei, ek, post, ct⟩ : EntryPair))))) ++
      document_pairs t rest (prev ++ [(matched_entries t item).getLast?])

/-- The document with `cat` without positions and `dog` at offset 16383, level D. -/
def doc_cat_nopos_dog : TSVector :=
  [⟨[99, 97, 116], false, []⟩, ⟨[100, 111, 103], true, [16383]⟩]

/-- The document with `cat` and `dog` both at offset 5, level D. -/
def doc_cat_dog_same : TSVector :=
  [⟨[99, 97, 116], true, [5]⟩, ⟨[100, 111, 103], true, [5]⟩]

end EntryPairs

/-! ## The pairwise kernel in floating point

The kernels above compute with exact numbers. Here every value the C code stores in a
`float` is rounded to binary32 and every result of an operation on `double` to binary64,
as the usual arithmetic conversions of C prescribe (`FLT_EVAL_METHOD` 0): a `float`
operand meeting a `double` one is converted to `double`, and the product of two `float`
values is a `float`. -/

section FloatingPoint

variable {F : Type} [LinearOrderedField F]

/-- The two roundings of the arithmetic: `f32` to a `float` (`float4`), `f64` to a
`double`. -/
structure FloatFns (F : Type) where
  f32 : F → F
  f64 : F → F

/-- What is required of a rounding to a binary format with `p` significant bits: it
never crosses a number `n / 2 ^ k` of the format (`n < 2 ^ p`), from either side. -/
def RoundsToPrecision (p : Nat) (f : F → F) : Prop :=
  ∀ n k : Nat, n < 2 ^ p →
    (∀ x : F, x ≤ (n : F) / 2 ^ k → f x ≤ (n : F) / 2 ^ k) ∧
    (∀ x : F, (n : F) / 2 ^ k ≤ x → (n : F) / 2 ^ k ≤ f x)

/-- The static array `weights` as stored: `0.1f, 0.2f, 0.4f, 1.0f`. -/
def weights_fp (fl : FloatFns F) : List F := [fl.f32 0.1, fl.f32 0.2, fl.f32 0.4, fl.f32 1.0]

/-- The C function `word_distance` in floating point. The constant `1e-30f` is a
`float`; `(float4) w / 1.5 - 2`, the call of `exp`, the product with `0.05`, the sum with
`1.005` and the quotient are `double` operations, `0.05` and `1.005` being the `double`
nearest to these decimals; the returned `float4` is rounded once more. `exp` of the C
library is taken as the rounded exact exponential `m.exp`. -/
def word_distance_fp (fl : FloatFns F) (m : MathFns F) (w : Int) : F :=
  if 100 < w then fl.f32 (1 / 10 ^ 30)
  else
    fl.f32 (fl.f64 (1.0 / fl.f64 (fl.f64 1.005 + fl.f64 (fl.f64 0.05 *
      fl.f64 (m.exp (fl.f64 (fl.f64 (fl.f32 (w : F) / 1.5) - 2)))))))

/-- The body of the two innermost loops of `calc_rank_and` in floating point. The
product `wpos(post) * wpos(ct) * word_distance(dist)` is a product of `float` values;
`sqrt` takes and returns a `double` (the rounded exact square root `m.sqrt`), stored in
the `float curw`; `1.0 - (1.0 - res) * (1.0 - curw)` is evaluated in `double` and stored
in the `float res`. -/
def rank_and_pair_fp (fl : FloatFns F) (m : MathFns F) (w : List F) (posnull : Bool)
    (post ct : Nat) (res : F) : F :=
  let dist := Int.natAbs ((WEP_GETPOS post : Int) - (WEP_GETPOS ct : Int))
  if dist ≠ 0 ∨ (dist = 0 ∧ posnull) then
    let dist := if dist = 0 then MAXENTRYPOS else dist
    let curw := fl.f32 (fl.f64 (m.sqrt
      (fl.f32 (fl.f32 (wpos w post * wpos w ct) * word_distance_fp fl m (dist : Int)))))
    if res < 0 then curw
    else fl.f32 (fl.f64 (1.0 - fl.f64 (fl.f64 (1.0 - res) * fl.f64 (1.0 - curw))))
  else res

/-- The loops over `l` and `p` of `calc_rank_and`, in floating point. -/
def calc_rank_and_pairs_fp (fl : FloatFns F) (m : MathFns F) (w : List F)
    (posi posk : PosVector) (res : F) : F :=
  posi.pos.foldl
    (fun res post =>
      posk.pos.foldl
        (fun res ct =>
          rank_and_pair_fp fl m w (posi.isPOSNULL || posk.isPOSNULL) post ct res) res)
    res

/-- The loop over `k < i` of `calc_rank_and`, in floating point. -/
def calc_rank_and_entry_fp (fl : FloatFns F) (m : MathFns F) (w : List F) (posi : PosVector)
    (pos : List (Option PosVector)) (res : F) : F :=
  pos.foldl
    (fun res posk =>
      match posk with
      | none => res
      | some posk => calc_rank_and_pairs_fp fl m w posi posk res)
    res

/-- The `while (entry - firstentry < nitem)` loop of `calc_rank_and`, in floating
point. -/
def calc_rank_and_entries_fp (fl : FloatFns F) (m : MathFns F) (w : List F)
    (pos : List (Option PosVector)) :
    List WordEntry → Option PosVector × F → Option PosVector × F
  | [], st => st
  | e :: es, st =>
    let posi : PosVector := if e.haspos then ⟨false, e.pos⟩ else POSNULL
    calc_rank_and_entries_fp fl m w pos es
      (some posi, calc_rank_and_entry_fp fl m w posi pos st.2)

/-- The loop over the operands `item[i]` of `calc_rank_and`, in floating point. -/
def calc_rank_and_items_fp (fl : FloatFns F) (m : MathFns F) (w : List F) (t : TSVector) :
    List QueryOperand → List (Option PosVector) → F → Option F
  | [], _, res => some res
  | item :: rest, pos, res =>
    match find_wordentry t item with
    | none => none
    | some r =>
      let st := calc_rank_and_entries_fp fl m w pos (r.entries t) (none, res)
      calc_rank_and_items_fp fl m w t rest (pos ++ [st.1]) st.2

/-- The C function `calc_rank_and` in floating point. With fewer than two distinct
operands it returns what `calc_rank_or(w, t, q)` returns, the argument `per_term`. -/
def calc_rank_and_fp (fl : FloatFns F) (m : MathFns F)
    (qsort_arg : List QueryOperand → List QueryOperand) (per_term : Option F)
    (w : List F) (t : TSVector) (q : TSQuery) : Option F :=
  let item := SortAndUniqItems qsort_arg q
  if item.length < 2 then per_term
  else calc_rank_and_items_fp fl m w t item [] (-1.0)

/-- The contribution `curw` of a contributing pair, in floating point. -/
def pair_curw_fp (fl : FloatFns F) (m : MathFns F) (w : List F) (p : Bool × Nat × Nat) : F :=
  fl.f32 (fl.f64 (m.sqrt (fl.f32 (fl.f32 (wpos w p.2.1 * wpos w p.2.2) *
    word_distance_fp fl m (pair_distance p : Nat)))))

variable [FloorRing F]

/-- Rounding to the nearest integer, a tie going to the even one. -/
def round_half_even (q : F) : Int :=
  if q - ⌊q⌋ < 1 / 2 then ⌊q⌋
  else if 1 / 2 < q - ⌊q⌋ then ⌊q⌋ + 1
  else if ⌊q⌋ % 2 = 0 then ⌊q⌋ else ⌊q⌋ + 1

/-- Rounding to nearest, ties to even, to the binary format with `p` significant bits
(IEEE 754; 24 bits for binary32, 53 for binary64), the exponent range taken as
unbounded: the magnitude is rounded to a whole multiple of the unit in the last place,
`2 ^ (e - p + 1)` for a magnitude in `[2 ^ e, 2 ^ (e + 1))`. -/
def float_round (p : Nat) (x : F) : F :=
  if x = 0 then 0
  else
    (if x < 0 then -1 else 1) *
      ((round_half_even (|x| / 2 ^ (Int.log 2 |x| - (p : Int) + 1)) : Int) : F) *
      2 ^ (Int.log 2 |x| - (p : Int) + 1)

/-- The roundings of IEEE 754 arithmetic: binary32 and binary64. -/
def ieee_rounding : FloatFns F := ⟨float_round 24, float_round 53⟩

end FloatingPoint

/-! ## Bit-level facts -/

theorem and_mod_two_pow (a b n : Nat) : (a &&& b) % 2 ^ n = (a % 2 ^ n) &&& (b % 2 ^ n) := by
  apply Nat.eq_of_testBit_eq; intro i
  simp only [Nat.testBit_mod_two_pow, Nat.testBit_and]
  cases decide (i < n) <;> simp

theorem or_mod_two_pow (a b n : Nat) : (a ||| b) % 2 ^ n = (a % 2 ^ n) ||| (b % 2 ^ n) := by
  apply Nat.eq_of_testBit_eq; intro i
  simp only [Nat.testBit_mod_two_pow, Nat.testBit_or]
  cases decide (i < n) <;> simp

theorem or_shiftLeft_of_lt {acc i : Nat} (h : acc < 2 ^ i) (x : Nat) :
    acc ||| (x <<< i) = acc + x * 2 ^ i := by
  rw [Nat.shiftLeft_eq, Nat.lor_comm, Nat.mul_comm, ← Nat.mul_add_lt_is_or h, Nat.add_comm]

theorem and_3fff (x : Nat) : x &&& 0x3fff = x % 16384 :=
  Nat.and_pow_two_sub_one_eq_mod x 14

set_option maxRecDepth 100000 in
theorem byte_facts_cont : ∀ l < 256, ((l &&& 127) ||| 128) = l % 128 + 128 := by decide

set_option maxRecDepth 100000 in
theorem byte_facts_high : ∀ l < 128, (l + 128) &&& HIGHBIT ≠ 0 ∧ (l + 128) &&& NOT_HIGHBIT = l := by
  decide

set_option maxRecDepth 100000 in
theorem byte_facts_final : ∀ d < 32, ∀ w < 4,
    ((d ||| (w <<< 5)) % 256) &&& HIGHBIT = 0 ∧ ((d ||| (w <<< 5)) % 256) &&& LOWERMASK = d ∧
      ((d ||| (w <<< 5)) % 256) >>> 5 = w := by
  decide

/-- The continuation byte written by `compress_pos` holds the seven low bits of `delta`
under a set top bit. -/
theorem cont_byte (d : Nat) : ((d &&& NOT_HIGHBIT) ||| HIGHBIT) % 256 = d % 128 + 128 := by
  have h := or_mod_two_pow (d &&& NOT_HIGHBIT) HIGHBIT 8
  have h2 := and_mod_two_pow d NOT_HIGHBIT 8
  simp only [NOT_HIGHBIT, HIGHBIT] at h h2 ⊢
  norm_num at h h2
  rw [h, h2]
  have hlt : d % 256 < 256 := Nat.mod_lt _ (by norm_num)
  have e : d % 128 = (d % 256) % 128 := by omega
  rw [e]
  exact byte_facts_cont _ hlt

theorem getweight_lt {p : Nat} (h : p < 65536) : WEP_GETWEIGHT p < 4 := by
  unfold WEP_GETWEIGHT
  rw [Nat.shiftRight_eq_div_pow]
  omega

/-- Storing the weight of `p` over a word with the offset of `p` gives `p` back. -/
theorem setweight_restore {p x : Nat} (hp : p < 65536) (hx : x % 16384 = p % 16384) :
    WEP_SETWEIGHT x (WEP_GETWEIGHT p) = p := by
  unfold WEP_SETWEIGHT WEP_GETWEIGHT
  have hlt : x % 16384 < 2 ^ 14 := by omega
  rw [and_3fff, Nat.lor_comm, or_shiftLeft_of_lt hlt, Nat.shiftRight_eq_div_pow, hx]
  omega

/-! ## Position codec: one delta -/

/-- Decoding the bytes written for `d`, from shift `i` and accumulator `acc`, stops at
the end of those bytes with the cursor advanced by `acc + d * 2 ^ i`. -/
theorem decompress_loop_compress_delta (p pos : Nat) (rest : List Nat) (hp : p < 65536) :
    ∀ (d i acc : Nat), i < 32 → acc < 2 ^ i → acc + d * 2 ^ i < 65536 →
      decompress_loop i acc pos (compress_delta d p ++ rest) =
        some (rest, WEP_SETWEIGHT ((pos + (acc + d * 2 ^ i)) % 65536) (WEP_GETWEIGHT p)) := by
  intro d
  induction d using Nat.strong_induction_on with
  | _ d ih =>
    intro i acc hi hacc htot
    rw [compress_delta]
    split
    · rename_i hd
      simp only [SIXTHBIT] at hd
      have hpow : 2 ^ i < 2048 := by
        by_contra hc
        have : 32 * 2048 ≤ d * 2 ^ i := Nat.mul_le_mul hd (by omega)
        omega
      have hi7 : i + 7 < 32 := by
        by_contra hc
        have : 2 ^ 11 ≤ 2 ^ i := Nat.pow_le_pow_right (by norm_num) (by omega)
        omega
      obtain ⟨hb1, hb2⟩ := byte_facts_high (d % 128) (Nat.mod_lt _ (by norm_num))
      rw [cont_byte]
      simp only [List.cons_append, decompress_loop, List.append_eq]
      rw [if_neg (by omega), if_pos hb1, hb2, or_shiftLeft_of_lt hacc]
      have hsplit : d * 2 ^ i = (d % 128) * 2 ^ i + (d / 128) * 2 ^ (i + 7) := by
        rw [pow_add]
        have := Nat.div_add_mod d 128
        nlinarith [this]
      have hlt : acc + d % 128 * 2 ^ i < 65536 := by omega
      rw [Nat.mod_eq_of_lt hlt, Nat.shiftRight_eq_div_pow]
      have hacc2 : acc + d % 128 * 2 ^ i < 2 ^ (i + 7) := by
        rw [pow_add]
        have : d % 128 < 128 := Nat.mod_lt _ (by norm_num)
        nlinarith [this]
      have hd2 : d / 2 ^ 7 < d := Nat.div_lt_self (by omega) (by norm_num)
      rw [ih (d / 2 ^ 7) hd2 (i + 7) _ hi7 hacc2 (by norm_num; omega)]
      congr 3
      norm_num
      omega
    · rename_i hd
      simp only [SIXTHBIT, not_le] at hd
      obtain ⟨hf1, hf2, hf3⟩ := byte_facts_final d hd _ (getweight_lt hp)
      simp only [List.singleton_append, decompress_loop, List.append_eq, List.nil_append]
      rw [if_neg (by omega), if_neg (by simpa using hf1), hf2, hf3, or_shiftLeft_of_lt hacc,
        Nat.mod_eq_of_lt htot]

/-! ## Position codec: whole lists -/

theorem getpos_eq_mod (x : Nat) : WEP_GETPOS x = x % 16384 := and_3fff x

/-- A word whose weight level is at most 3 fits in sixteen bits. -/
theorem lt_of_getweight_le {x : Nat} (h : WEP_GETWEIGHT x ≤ 3) : x < 65536 := by
  unfold WEP_GETWEIGHT at h
  rw [Nat.shiftRight_eq_div_pow] at h
  omega

/-- One call of `decompress_pos` on the bytes written for the word `p` after the word
`prev`, with the cursor at `prev`, moves the cursor to `p` and the pointer past exactly
those bytes. -/
theorem decompress_pos_compress_delta (prev p : Nat) (rest : List Nat) (hp : p < 65536) :
    decompress_pos (compress_delta ((WEP_GETPOS p + 65536 - WEP_GETPOS prev) % 65536) p ++ rest)
      prev = some (rest, p) := by
  unfold decompress_pos
  have hd : (WEP_GETPOS p + 65536 - WEP_GETPOS prev) % 65536 < 65536 :=
    Nat.mod_lt _ (by norm_num)
  rw [decompress_loop_compress_delta p prev rest hp _ 0 0 (by norm_num) (by norm_num)
    (by omega)]
  rw [setweight_restore hp]
  rw [getpos_eq_mod, getpos_eq_mod]
  omega

/-- Round trip from any cursor state, for every list of sixteen-bit words. -/
theorem decompress_n_compress_loop (xs : List Nat) :
    ∀ (prev : Nat) (rest : List Nat), (∀ x ∈ xs, x < 65536) →
      decompress_n xs.length (compress_loop prev xs ++ rest) prev = some (rest, xs) := by
  induction xs with
  | nil => intro prev rest _; simp [decompress_n, compress_loop]
  | cons p ps ih =>
    intro prev rest hall
    have hp : p < 65536 := hall p (List.mem_cons_self _ _)
    have hps : ∀ x ∈ ps, x < 65536 := fun x hx => hall x (List.mem_cons_of_mem _ hx)
    simp only [compress_loop, List.length_cons, decompress_n, List.append_assoc]
    rw [decompress_pos_compress_delta prev p _ hp]
    simp only [ih p rest hps]

/-- The bytes written for one delta hold exactly one byte with a clear top bit. -/
theorem count_pos_compress_delta (p : Nat) (hp : p < 65536) (rest : List Nat) :
    ∀ d : Nat, count_pos (compress_delta d p ++ rest) = 1 + count_pos rest := by
  intro d
  induction d using Nat.strong_induction_on with
  | _ d ih =>
    rw [compress_delta]
    split
    · rename_i hd
      simp only [SIXTHBIT] at hd
      obtain ⟨hb1, -⟩ := byte_facts_high (d % 128) (Nat.mod_lt _ (by norm_num))
      rw [cont_byte]
      simp only [List.cons_append, count_pos, if_neg hb1, Nat.zero_add]
      exact ih _ (by rw [Nat.shiftRight_eq_div_pow]; exact Nat.div_lt_self (by omega) (by norm_num))
    · rename_i hd
      simp only [SIXTHBIT, not_le] at hd
      obtain ⟨hf1, -, -⟩ := byte_facts_final d hd _ (getweight_lt hp)
      simp only [List.singleton_append, count_pos, if_pos hf1, List.append_eq, List.nil_append]

theorem count_pos_compress_loop (xs : List Nat) :
    ∀ prev : Nat, (∀ x ∈ xs, x < 65536) → count_pos (compress_loop prev xs) = xs.length := by
  induction xs with
  | nil => intro _ _; rfl
  | cons p ps ih =>
    intro prev hall
    have hp : p < 65536 := hall p (List.mem_cons_self _ _)
    have hps : ∀ x ∈ ps, x < 65536 := fun x hx => hall x (List.mem_cons_of_mem _ hx)
    simp only [compress_loop, List.length_cons]
    rw [count_pos_compress_delta p hp, ih p hps]
    omega

/-- C1. Codec round trip: for every list `xs` of position words whose offsets lie in
`[0, 16383]` and ascend and whose weight levels lie in `{0, 1, 2, 3}`, calling
`decompress_pos` `length xs` times on the bytes written by `compress_pos xs`, from a zero
cursor, yields exactly the words of `xs` in order (offset and weight level alike), and
the pointer ends exactly after the bytes `compress_pos` wrote (at `rest`, whatever
follows them). -/
theorem codec_round_trip (xs rest : List Nat)
    (hrange : ∀ x ∈ xs, WEP_GETPOS x ≤ 16383 ∧ WEP_GETWEIGHT x ≤ 3)
    (_hasc : xs.Pairwise (fun a b => WEP_GETPOS a ≤ WEP_GETPOS b)) :
    decompress_n xs.length (compress_pos xs ++ rest) 0 = some (rest, xs) :=
  decompress_n_compress_loop xs 0 rest
    (fun x hx => lt_of_getweight_le (hrange x hx).2)

/-- C1 at the positions (offset 1, level A), (offset 5, level D), (offset 300, level B). -/
theorem codec_round_trip_witness :
    decompress_n 3 (compress_pos [49153, 5, 33068] ++ [7]) 0 = some ([7], [49153, 5, 33068]) :=
  codec_round_trip [49153, 5, 33068] [7] (by decide) (by decide)

/-- C2. Counting without decoding: for every list `xs` of position words whose offsets
lie in `[0, 16383]` and ascend and whose weight levels lie in `{0, 1, 2, 3}`, `count_pos`
over the bytes written by `compress_pos xs`, which counts the bytes whose continuation
bit `0x80` is clear, returns `length xs` (so `0` for the empty list). -/
theorem count_pos_compress_pos (xs : List Nat)
    (hrange : ∀ x ∈ xs, WEP_GETPOS x ≤ 16383 ∧ WEP_GETWEIGHT x ≤ 3)
    (_hasc : xs.Pairwise (fun a b => WEP_GETPOS a ≤ WEP_GETPOS b)) :
    count_pos (compress_pos xs) = xs.length :=
  count_pos_compress_loop xs 0 (fun x hx => lt_of_getweight_le (hrange x hx).2)

/-- C2 at the positions (offset 1, level A), (offset 5, level D), (offset 300, level B). -/
theorem count_pos_compress_pos_witness : count_pos (compress_pos [49153, 5, 33068]) = 3 :=
  count_pos_compress_pos [49153, 5, 33068] (by decide) (by decide)

/-! ## The lexeme comparison -/

theorem ts_nil_nil (m : Bool) : tsCompareString [] [] m = 0 := by
  cases m <;> simp [tsCompareString]

theorem ts_nil_cons (b : Nat) (bs : List Nat) : tsCompareString [] (b :: bs) false = -1 := by
  simp [tsCompareString]

theorem ts_nil_pfx (b : List Nat) : tsCompareString [] b true = 0 := by
  simp [tsCompareString]

theorem ts_cons_nil (a : Nat) (as : List Nat) (m : Bool) : tsCompareString (a :: as) [] m = 1 := by
  simp [tsCompareString]

/-- The comparison proceeds byte by byte. -/
theorem ts_cons_cons (a b : Nat) (as bs : List Nat) (m : Bool) :
    tsCompareString (a :: as) (b :: bs) m =
      if a < b then -1 else if b < a then 1 else tsCompareString as bs m := by
  have hmin : min (as.length + 1) (bs.length + 1) = min as.length bs.length + 1 := by
    omega
  by_cases h1 : a < b
  · cases m <;> simp [tsCompareString, hmin, memcmp, h1]
  · by_cases h2 : b < a
    · cases m <;> simp [tsCompareString, hmin, memcmp, h1, h2]
    · have hab : a = b := by omega
      subst hab
      have hm : ∀ k, memcmp (a :: as) (a :: bs) (k + 1) = memcmp as bs k := by
        intro k; simp [memcmp]
      cases as with
      | nil =>
        cases bs with
        | nil => cases m <;> simp [tsCompareString, memcmp]
        | cons b2 bs2 => cases m <;> simp [tsCompareString, memcmp]
      | cons a2 as2 =>
        cases bs with
        | nil => cases m <;> simp [tsCompareString, memcmp]
        | cons b2 bs2 =>
          have hmin2 : min (as2.length + 1 + 1) (bs2.length + 1 + 1) =
              min (as2.length + 1) (bs2.length + 1) + 1 := by omega
          cases m <;> simp only [tsCompareString, List.length_cons, hmin2, hm] <;> simp

theorem ts_eq_zero_iff (a : List Nat) : ∀ b : List Nat, tsCompareString a b false = 0 ↔ a = b := by
  induction a with
  | nil =>
    intro b
    cases b with
    | nil => simp [ts_nil_nil]
    | cons b bs => simp [ts_nil_cons]
  | cons a as ih =>
    intro b
    cases b with
    | nil => simp [ts_cons_nil]
    | cons b bs =>
      rw [ts_cons_cons]
      split_ifs with h1 h2
      · simp; omega
      · simp; omega
      · have : a = b := by omega
        simp [ih bs, this]

theorem ts_refl (a : List Nat) : tsCompareString a a false = 0 := (ts_eq_zero_iff a a).2 rfl

/-- Swapping the arguments swaps the sign. -/
theorem ts_swap (a : List Nat) : ∀ b : List Nat,
    tsCompareString b a false = - tsCompareString a b false := by
  induction a with
  | nil =>
    intro b
    cases b with
    | nil => simp [ts_nil_nil]
    | cons b bs => simp [ts_nil_cons, ts_cons_nil]
  | cons a as ih =>
    intro b
    cases b with
    | nil => simp [ts_nil_cons, ts_cons_nil]
    | cons b bs =>
      rw [ts_cons_cons, ts_cons_cons, ih bs]
      split_ifs <;> first | rfl | omega

theorem ts_pos_iff (a b : List Nat) :
    0 < tsCompareString a b false ↔ tsCompareString b a false < 0 := by
  rw [ts_swap a b]; omega

/-- The comparison is transitive, in the strict and in the weak form. -/
theorem ts_trans (a : List Nat) : ∀ b c : List Nat,
    (tsCompareString a b false < 0 → tsCompareString b c false ≤ 0 →
      tsCompareString a c false < 0) ∧
    (tsCompareString a b false ≤ 0 → tsCompareString b c false < 0 →
      tsCompareString a c false < 0) := by
  induction a with
  | nil =>
    intro b c
    cases b with
    | nil => cases c <;> simp [ts_nil_nil, ts_nil_cons]
    | cons b bs => cases c <;> simp [ts_nil_nil, ts_nil_cons, ts_cons_nil]
  | cons a as ih =>
    intro b c
    cases b with
    | nil => simp [ts_cons_nil]
    | cons b bs =>
      cases c with
      | nil => simp [ts_cons_nil]
      | cons c cs =>
        rw [ts_cons_cons a b, ts_cons_cons b c, ts_cons_cons a c]
        have := ih bs cs
        split_ifs <;> omega

theorem ts_lt_of_lt_of_le {a b c : List Nat} (h1 : tsCompareString a b false < 0)
    (h2 : tsCompareString b c false ≤ 0) : tsCompareString a c false < 0 :=
  (ts_trans a b c).1 h1 h2

theorem ts_lt_of_le_of_lt {a b c : List Nat} (h1 : tsCompareString a b false ≤ 0)
    (h2 : tsCompareString b c false < 0) : tsCompareString a c false < 0 :=
  (ts_trans a b c).2 h1 h2

theorem ts_le_trans {a b c : List Nat} (h1 : tsCompareString a b false ≤ 0)
    (h2 : tsCompareString b c false ≤ 0) : tsCompareString a c false ≤ 0 := by
  rcases lt_or_eq_of_le h1 with h | h
  · exact le_of_lt (ts_lt_of_lt_of_le h h2)
  · rw [(ts_eq_zero_iff a b).1 h]; exact h2

/-- With the prefix flag the comparison is zero exactly on the strings the operand is a
prefix of. -/
theorem ts_prefix_zero_iff (a : List Nat) : ∀ b : List Nat,
    tsCompareString a b true = 0 ↔ a <+: b := by
  induction a with
  | nil => intro b; simp [ts_nil_pfx]
  | cons a as ih =>
    intro b
    cases b with
    | nil => simp [ts_cons_nil]
    | cons b bs =>
      rw [ts_cons_cons, List.cons_prefix_cons]
      split_ifs with h1 h2
      · simp; omega
      · simp; omega
      · have : a = b := by omega
        simp [ih bs, this]

/-- A string is not below any of its prefixes. -/
theorem ts_le_of_isPrefix (a : List Nat) : ∀ b : List Nat, a <+: b →
    tsCompareString a b false ≤ 0 := by
  induction a with
  | nil => intro b _; cases b <;> simp [ts_nil_nil, ts_nil_cons]
  | cons a as ih =>
    intro b h
    cases b with
    | nil => simp at h
    | cons b bs =>
      rw [List.cons_prefix_cons] at h
      rw [ts_cons_cons, h.1]
      simp [ih bs h.2]

/-- The strings with a given prefix form an interval of the order that begins at the
prefix. -/
theorem prefix_convex (q : List Nat) : ∀ e1 e2 : List Nat, tsCompareString q e1 false ≤ 0 →
    tsCompareString e1 e2 false ≤ 0 → q <+: e2 → q <+: e1 := by
  induction q with
  | nil => intro e1 e2 _ _ _; simp
  | cons a qs ih =>
    intro e1 e2 h1 h2 h3
    cases e2 with
    | nil => simp at h3
    | cons c cs =>
      rw [List.cons_prefix_cons] at h3
      cases e1 with
      | nil => simp [ts_cons_nil] at h1
      | cons b bs =>
        rw [ts_cons_cons] at h1 h2
        rw [← h3.1] at h2
        rw [List.cons_prefix_cons]
        split_ifs at h1 h2 <;> first | omega | skip
        exact ⟨by omega, ih bs cs h1 h2 h3.2⟩

/-! ## Lookup of an operand in a document -/

theorem sorted_getElem? {t : TSVector} (hs : lexeme_sorted t) {i j : Nat} {a b : WordEntry}
    (ha : t[i]? = some a) (hb : t[j]? = some b) (hij : i < j) :
    tsCompareString a.lexeme b.lexeme false < 0 := by
  obtain ⟨hi, rfl⟩ := List.getElem?_eq_some.1 ha
  obtain ⟨hj, rfl⟩ := List.getElem?_eq_some.1 hb
  exact List.pairwise_iff_getElem.1 hs i j hi hj hij

/-- The binary search of `find_wordentry` ends, within `StopHigh - StopLow` iterations,
with `StopHigh` at the first entry that is not below the operand; it reports a match
exactly when that entry carries the operand's lexeme. -/
theorem find_wordentry_search_spec (t : TSVector) (item : QueryOperand)
    (hs : lexeme_sorted t) (n : Nat) :
    ∀ (fuel low high mid : Nat), high - low ≤ fuel → high ≤ t.length →
      (∀ i e, t[i]? = some e → i < low → tsCompareString e.lexeme item.lexeme false < 0) →
      (∀ i e, t[i]? = some e → high ≤ i → tsCompareString item.lexeme e.lexeme false < 0) →
      ∃ low1 high1 mid1 n1,
        find_wordentry_search t item fuel low high mid n = some (low1, high1, mid1, n1) ∧
        high1 ≤ t.length ∧ (low1 < high1 → mid1 = high1) ∧
        (∀ i e, t[i]? = some e → i < high1 →
          tsCompareString e.lexeme item.lexeme false < 0) ∧
        (∀ i e, t[i]? = some e → high1 ≤ i →
          tsCompareString item.lexeme e.lexeme false ≤ 0) ∧
        ((n1 = 1 ∧ ∃ e, t[high1]? = some e ∧ e.lexeme = item.lexeme) ∨
          (n1 = n ∧ ∀ e ∈ t, e.lexeme ≠ item.lexeme)) := by
  intro fuel
  induction fuel with
  | zero =>
    intro low high mid hf hlen hlo hhi
    have hle : high ≤ low := by omega
    refine ⟨low, high, mid, n, ?_, hlen, fun h => by omega, ?_, ?_, Or.inr ⟨rfl, ?_⟩⟩
    · unfold find_wordentry_search; simp [Nat.not_lt.2 hle]
    · intro i e he hi; exact hlo i e he (by omega)
    · intro i e he hi; exact le_of_lt (hhi i e he hi)
    · intro e he heq
      obtain ⟨i, hi, rfl⟩ := List.getElem_of_mem he
      have hget : t[i]? = some t[i] := List.getElem?_eq_getElem hi
      by_cases hc : i < low
      · have := hlo i _ hget hc
        rw [heq, ts_refl] at this; omega
      · have := hhi i _ hget (by omega)
        rw [heq, ts_refl] at this; omega
  | succ fuel ih =>
    intro low high mid hf hlen hlo hhi
    by_cases hlt : low < high
    · have hm : low + (high - low) / 2 < t.length := by omega
      have hget : t[low + (high - low) / 2]? = some t[low + (high - low) / 2] :=
        List.getElem?_eq_getElem hm
      unfold find_wordentry_search
      simp only [if_pos hlt, hget, WordECompareQueryItem]
      by_cases h0 : tsCompareString item.lexeme t[low + (high - low) / 2].lexeme false = 0
      · simp only [if_pos h0]
        have heq := (ts_eq_zero_iff _ _).1 h0
        refine ⟨low, _, _, 1, rfl, le_of_lt hm, fun _ => rfl, ?_, ?_,
          Or.inl ⟨rfl, _, hget, heq.symm⟩⟩
        · intro i e he hi
          have := sorted_getElem? hs he hget hi
          rwa [← heq] at this
        · intro i e he hi
          rcases Nat.eq_or_lt_of_le hi with h | h
          · rw [← h, hget] at he
            cases he
            rw [heq]; exact le_of_eq (ts_refl _)
          · have := sorted_getElem? hs hget he h
            rw [← heq] at this; exact le_of_lt this
      · simp only [if_neg h0]
        by_cases hpos : 0 < tsCompareString item.lexeme t[low + (high - low) / 2].lexeme false
        · simp only [if_pos hpos]
          have hbelow : tsCompareString t[low + (high - low) / 2].lexeme item.lexeme false < 0 :=
            (ts_pos_iff _ _).1 hpos
          apply ih (low + (high - low) / 2 + 1) high (low + (high - low) / 2) (by omega) hlen
            _ hhi
          intro i e he hi
          rcases Nat.eq_or_lt_of_le (Nat.lt_succ_iff.1 hi) with h | h
          · rw [h, hget] at he; cases he; exact hbelow
          · exact ts_lt_of_lt_of_le (sorted_getElem? hs he hget h) (le_of_lt hbelow)
        · simp only [if_neg hpos]
          have hneg : tsCompareString item.lexeme t[low + (high - low) / 2].lexeme false < 0 := by
            omega
          apply ih low (low + (high - low) / 2) (low + (high - low) / 2) (by omega)
            (le_of_lt hm) hlo _
          intro i e he hi
          rcases Nat.eq_or_lt_of_le hi with h | h
          · rw [← h, hget] at he; cases he; exact hneg
          · exact ts_lt_of_lt_of_le hneg (le_of_lt (sorted_getElem? hs hget he h))
    · have hle : high ≤ low := by omega
      refine ⟨low, high, mid, n, ?_, hlen, fun h => by omega, ?_, ?_, Or.inr ⟨rfl, ?_⟩⟩
      · unfold find_wordentry_search; simp [hlt]
      · intro i e he hi; exact hlo i e he (by omega)
      · intro i e he hi; exact le_of_lt (hhi i e he hi)
      · intro e he heq
        obtain ⟨i, hi, rfl⟩ := List.getElem_of_mem he
        have hget : t[i]? = some t[i] := List.getElem?_eq_getElem hi
        by_cases hc : i < low
        · have := hlo i _ hget hc
          rw [heq, ts_refl] at this; omega
        · have := hhi i _ hget (by omega)
          rw [heq, ts_refl] at this; omega

/-- The forward scan counts a run of entries the operand is a prefix of, and the entry
after the run, if any, is not one. -/
theorem find_wordentry_scan_spec (item : QueryOperand) (l : List WordEntry) :
    find_wordentry_scan item l ≤ l.length ∧
    (∀ k e, l[k]? = some e → k < find_wordentry_scan item l → item.lexeme <+: e.lexeme) ∧
    (∀ e, l[find_wordentry_scan item l]? = some e → ¬ item.lexeme <+: e.lexeme) := by
  induction l with
  | nil => simp [find_wordentry_scan]
  | cons x xs ih =>
    by_cases h : tsCompareString item.lexeme x.lexeme true = 0
    · have hp := (ts_prefix_zero_iff _ _).1 h
      simp only [find_wordentry_scan, WordECompareQueryItem, if_pos h, List.length_cons]
      refine ⟨by omega, ?_, ?_⟩
      · intro k e he hk
        cases k with
        | zero => simp at he; rw [← he]; exact hp
        | succ k => exact ih.2.1 k e (by simpa using he) (by omega)
      · intro e he
        exact ih.2.2 e (by simpa using he)
    · have hp : ¬ item.lexeme <+: x.lexeme := fun hc => h ((ts_prefix_zero_iff _ _).2 hc)
      simp only [find_wordentry_scan, WordECompareQueryItem, if_neg h]
      refine ⟨by omega, ?_, ?_⟩
      · intro k e _ hk; omega
      · intro e he
        simp at he; rw [← he]; exact hp

/-- What `find_wordentry` returns on a sorted document: the binary search always ends,
the range starts at the first entry not below the operand, and the count is that of the
exact match or of the scanned run. -/
theorem find_wordentry_eq (t : TSVector) (item : QueryOperand) (hs : lexeme_sorted t) :
    ∃ s n1, s ≤ t.length ∧
      (∀ i e, t[i]? = some e → i < s → tsCompareString e.lexeme item.lexeme false < 0) ∧
      (∀ i e, t[i]? = some e → s ≤ i → tsCompareString item.lexeme e.lexeme false ≤ 0) ∧
      ((n1 = 1 ∧ ∃ e, t[s]? = some e ∧ e.lexeme = item.lexeme) ∨
        (n1 = 0 ∧ ∀ e ∈ t, e.lexeme ≠ item.lexeme)) ∧
      find_wordentry t item =
        some ⟨(if 0 < (if item.prefix_flag then find_wordentry_scan item (t.drop s) else n1)
                then some s else none),
              (if item.prefix_flag then find_wordentry_scan item (t.drop s) else n1)⟩ := by
  obtain ⟨low1, high1, mid1, n1, hrun, hlen1, hmid1, hbelow, habove, hfound⟩ :=
    find_wordentry_search_spec t item hs 0 t.length 0 t.length t.length (by omega) le_rfl
      (fun i e _ hi => by omega)
      (fun i e he hi => by
        have := (List.getElem?_eq_some.1 he).1
        omega)
  refine ⟨high1, n1, hlen1, hbelow, habove, hfound, ?_⟩
  unfold find_wordentry
  rw [hrun]
  have hstart : (if high1 ≤ low1 then high1 else mid1) = high1 := by
    split_ifs with h
    · rfl
    · exact hmid1 (by omega)
  simp only [hstart]

/-- The entries a ranking kernel walks for an operand without the prefix flag whose
lexeme stands at index `i` of a sorted document: that one entry. -/
theorem find_wordentry_entries_exact (t : TSVector) (item : QueryOperand)
    (hs : lexeme_sorted t) (hp : item.prefix_flag = false) (i : Nat) (e : WordEntry)
    (he : t[i]? = some e) (heq : e.lexeme = item.lexeme) :
    ∃ r, find_wordentry t item = some r ∧ r.entries t = [e] := by
  obtain ⟨s, n1, _, _, _, hfound, hres⟩ := find_wordentry_eq t item hs
  simp only [hp] at hres
  rcases hfound with ⟨h1, e1, he1, heq1⟩ | ⟨_, habs⟩
  · have hi : i = s := by
      rcases Nat.lt_trichotomy i s with h | h | h
      · have := sorted_getElem? hs he he1 h
        rw [heq, heq1, ts_refl] at this; omega
      · exact h
      · have := sorted_getElem? hs he1 he h
        rw [heq, heq1, ts_refl] at this; omega
    subst hi
    refine ⟨_, hres, ?_⟩
    obtain ⟨hlt, rfl⟩ := List.getElem?_eq_some.1 he
    have htake : List.take 1 (List.drop i t) = [t[i]] := by
      rw [List.drop_eq_getElem_cons hlt]; rfl
    simp [h1, FoundEntries.entries, htake]
  · exact absurd heq (habs e (List.getElem?_mem he))

/-- C4. Exact lookup: for every document whose lexemes are deduplicated and sorted
ascending in the comparison order and every operand without the prefix flag,
`find_wordentry` returns exactly one entry (`*nitem = 1`), the entry whose lexeme equals
the operand's, when the document holds that lexeme, and the empty range (`NULL`,
`*nitem = 0`) when it does not. -/
theorem find_wordentry_exact (t : TSVector) (item : QueryOperand) (hs : lexeme_sorted t)
    (hp : item.prefix_flag = false) :
    (∀ i e, t[i]? = some e → e.lexeme = item.lexeme →
      find_wordentry t item = some ⟨some i, 1⟩) ∧
    ((∀ e ∈ t, e.lexeme ≠ item.lexeme) → find_wordentry t item = some ⟨none, 0⟩) := by
  obtain ⟨s, n1, _, _, _, hfound, hres⟩ := find_wordentry_eq t item hs
  simp only [hp] at hres
  constructor
  · intro i e he heq
    rcases hfound with ⟨h1, e1, he1, heq1⟩ | ⟨_, habs⟩
    · have hi : i = s := by
        rcases Nat.lt_trichotomy i s with h | h | h
        · have := sorted_getElem? hs he he1 h
          rw [heq, heq1, ts_refl] at this; omega
        · exact h
        · have := sorted_getElem? hs he1 he h
          rw [heq, heq1, ts_refl] at this; omega
      rw [hres, h1, hi]; rfl
    · exact absurd heq (habs e (List.getElem?_mem he))
  · intro habs
    rcases hfound with ⟨_, e1, he1, heq1⟩ | ⟨h0, _⟩
    · exact absurd heq1 (habs e1 (List.getElem?_mem he1))
    · rw [hres, h0]; rfl

/-- C4 on the document `dog`, `dot`, `fig` and the operand `dot`: the second entry. -/
theorem find_wordentry_exact_witness :
    (∀ i e, doc_dog_dot_fig[i]? = some e →
        e.lexeme = (QueryOperand.mk 0 false [100, 111, 116]).lexeme →
      find_wordentry doc_dog_dot_fig (QueryOperand.mk 0 false [100, 111, 116]) =
        some ⟨some i, 1⟩) ∧
    ((∀ e ∈ doc_dog_dot_fig, e.lexeme ≠ (QueryOperand.mk 0 false [100, 111, 116]).lexeme) →
      find_wordentry doc_dog_dot_fig (QueryOperand.mk 0 false [100, 111, 116]) =
        some ⟨none, 0⟩) :=
  find_wordentry_exact doc_dog_dot_fig _ (by decide) rfl

/-- C3, as amended. Prefix lookup: for every document whose lexemes are deduplicated and
sorted ascending in the order of `tsCompareString` (bytewise, a string before its
extensions) and every operand with the prefix flag, `find_wordentry` returns one
contiguous range `[s, s + nitem)` inside the document that holds exactly the entries
whose lexeme begins with the operand's bytes, and the empty range (`NULL`, `*nitem = 0`)
when no lexeme has that prefix. -/
theorem find_wordentry_prefix_range (t : TSVector) (item : QueryOperand) (hs : lexeme_sorted t)
    (hp : item.prefix_flag = true) :
    ∃ r, find_wordentry t item = some r ∧
      (∀ i e, t[i]? = some e →
        (item.lexeme <+: e.lexeme ↔ ∃ s, r.entry = some s ∧ s ≤ i ∧ i < s + r.nitem)) ∧
      (∀ s, r.entry = some s → 0 < r.nitem ∧ s + r.nitem ≤ t.length) ∧
      ((∀ e ∈ t, ¬ item.lexeme <+: e.lexeme) → r = ⟨none, 0⟩) := by
  obtain ⟨s, n1, hlen, hbelow, habove, _, hres⟩ := find_wordentry_eq t item hs
  simp only [hp, if_true] at hres
  obtain ⟨hn, hrun, hstop⟩ := find_wordentry_scan_spec item (t.drop s)
  rw [List.length_drop] at hn
  have hexact : ∀ i e, t[i]? = some e →
      (item.lexeme <+: e.lexeme ↔
        0 < find_wordentry_scan item (t.drop s) ∧ s ≤ i ∧
          i < s + find_wordentry_scan item (t.drop s)) := by
    intro i e he
    constructor
    · intro hpre
      have hsi : s ≤ i := by
        by_contra hc
        have h1 := hbelow i e he (by omega)
        have h2 := ts_le_of_isPrefix _ _ hpre
        rw [ts_swap] at h2
        omega
      have hin : i < s + find_wordentry_scan item (t.drop s) := by
        by_contra hc
        have hi := (List.getElem?_eq_some.1 he).1
        have hlt : s + find_wordentry_scan item (t.drop s) < t.length := by omega
        have hget := List.getElem?_eq_getElem hlt
        have hnot := hstop _ (by rw [List.getElem?_drop]; exact hget)
        apply hnot
        refine prefix_convex _ _ _ (habove _ _ hget (by omega)) ?_ hpre
        rcases Nat.eq_or_lt_of_le (Nat.le_of_not_lt hc) with h | h
        · rw [← h, hget] at he; cases he; exact le_of_eq (ts_refl _)
        · exact le_of_lt (sorted_getElem? hs hget he h)
      exact ⟨by omega, hsi, hin⟩
    · rintro ⟨_, hsi, hin⟩
      refine hrun (i - s) e ?_ (by omega)
      rw [List.getElem?_drop]
      have : s + (i - s) = i := by omega
      rw [this]; exact he
  refine ⟨_, hres, ?_, ?_, ?_⟩
  · intro i e he
    rw [hexact i e he]
    by_cases h0 : 0 < find_wordentry_scan item (t.drop s)
    · simp [h0]
    · simp [h0]
  · intro s1 hs1
    by_cases h0 : 0 < find_wordentry_scan item (t.drop s)
    · simp only [h0, if_true, Option.some.injEq] at hs1
      subst hs1
      dsimp only
      exact ⟨h0, by omega⟩
    · simp [h0] at hs1
  · intro hnone
    by_cases h0 : 0 < find_wordentry_scan item (t.drop s)
    · have hlt : s < t.length := by omega
      have hget := List.getElem?_eq_getElem hlt
      exact absurd ((hexact s _ hget).2 ⟨h0, le_rfl, by omega⟩)
        (hnone _ (List.getElem?_mem hget))
    · have : find_wordentry_scan item (t.drop s) = 0 := by omega
      simp [this]

/-- C3, as amended, on the document `dog`, `dot`, `fig` and the prefix operand `do`. -/
theorem find_wordentry_prefix_range_witness :
    ∃ r, find_wordentry doc_dog_dot_fig (QueryOperand.mk 0 true [100, 111]) = some r ∧
      (∀ i e, doc_dog_dot_fig[i]? = some e →
        ((QueryOperand.mk 0 true [100, 111]).lexeme <+: e.lexeme ↔
          ∃ s, r.entry = some s ∧ s ≤ i ∧ i < s + r.nitem)) ∧
      (∀ s, r.entry = some s → 0 < r.nitem ∧ s + r.nitem ≤ doc_dog_dot_fig.length) ∧
      ((∀ e ∈ doc_dog_dot_fig, ¬ (QueryOperand.mk 0 true [100, 111]).lexeme <+: e.lexeme) →
        r = ⟨none, 0⟩) :=
  find_wordentry_prefix_range doc_dog_dot_fig (QueryOperand.mk 0 true [100, 111]) (by decide) rfl

/-- The example of the prefix lookup: `do` against `dog`, `dot`, `fig` yields the range
of the two entries `dog`, `dot`. -/
theorem find_wordentry_prefix_example :
    find_wordentry doc_dog_dot_fig (QueryOperand.mk 0 true [100, 111]) = some ⟨some 0, 2⟩ ∧
    (FoundEntries.mk (some 0) 2).entries doc_dog_dot_fig =
      [⟨[100, 111, 103], true, [1]⟩, ⟨[100, 111, 116], true, [2]⟩] := by
  decide

/-- C3 fails as stated: the entries `b`, `ab` are deduplicated and ascend by length then
bytes, `ab` begins with the bytes of the prefix operand `a`, and `find_wordentry` returns
the empty range. -/
theorem find_wordentry_prefix_length_order_counterexample :
    doc_b_ab.Pairwise (fun x y => length_then_bytes_lt x.lexeme y.lexeme) ∧
    (∃ e ∈ doc_b_ab, (QueryOperand.mk 0 true [97]).lexeme <+: e.lexeme) ∧
    find_wordentry doc_b_ab (QueryOperand.mk 0 true [97]) = some ⟨none, 0⟩ := by
  refine ⟨by decide, ⟨⟨[97, 98], true, [2]⟩, by decide, by decide⟩, by decide⟩

/-! ## Sorting and deduplication of operands -/

theorem compare_total (a b : QueryOperand) :
    compareQueryOperand a b ≤ 0 ∨ compareQueryOperand b a ≤ 0 := by
  unfold compareQueryOperand
  rw [ts_swap a.lexeme b.lexeme]
  omega

theorem insert_operand_perm (x : QueryOperand) (l : List QueryOperand) :
    List.Perm (insert_operand x l) (x :: l) := by
  induction l with
  | nil => exact List.Perm.refl _
  | cons y ys ih =>
    unfold insert_operand
    split_ifs
    · exact List.Perm.refl _
    · exact (List.Perm.cons y ih).trans (List.Perm.swap x y ys)

theorem insert_operand_sorted (x : QueryOperand) (l : List QueryOperand)
    (h : l.Pairwise (fun a b => compareQueryOperand a b ≤ 0)) :
    (insert_operand x l).Pairwise (fun a b => compareQueryOperand a b ≤ 0) := by
  induction l with
  | nil => simp [insert_operand]
  | cons y ys ih =>
    rw [List.pairwise_cons] at h
    unfold insert_operand
    split_ifs with hxy
    · refine List.pairwise_cons.2 ⟨?_, List.pairwise_cons.2 h⟩
      intro z hz
      rcases List.mem_cons.1 hz with rfl | hz
      · exact hxy
      · exact ts_le_trans hxy (h.1 z hz)
    · refine List.pairwise_cons.2 ⟨?_, ih h.2⟩
      intro z hz
      rcases List.mem_cons.1 ((insert_operand_perm x ys).mem_iff.1 hz) with rfl | hz
      · rcases compare_total z y with hc | hc
        · exact absurd hc hxy
        · exact hc
      · exact h.1 z hz

/-- Insertion sort meets the contract of `qsort_arg`. -/
theorem insertion_sort_contract : QsortContract insertion_sort := by
  intro l
  induction l with
  | nil => exact ⟨List.Perm.refl _, List.Pairwise.nil⟩
  | cons x xs ih =>
    exact ⟨(insert_operand_perm x _).trans (List.Perm.cons x ih.1),
      insert_operand_sorted x _ ih.2⟩

theorem uniq_loop_subset (xs : List QueryOperand) :
    ∀ prev, ∀ y ∈ uniq_loop prev xs, y ∈ prev :: xs := by
  induction xs with
  | nil => intro prev y hy; simpa [uniq_loop] using hy
  | cons x xs ih =>
    intro prev y hy
    unfold uniq_loop at hy
    split_ifs at hy
    · rcases List.mem_cons.1 hy with rfl | hy
      · exact List.mem_cons_self _ _
      · exact List.mem_cons_of_mem _ (ih x y hy)
    · rcases List.mem_cons.1 (ih prev y hy) with rfl | h
      · exact List.mem_cons_self _ _
      · exact List.mem_cons_of_mem _ (List.mem_cons_of_mem _ h)

theorem uniq_loop_head_mem (xs : List QueryOperand) : ∀ prev, prev ∈ uniq_loop prev xs := by
  induction xs with
  | nil => intro prev; simp [uniq_loop]
  | cons x xs ih =>
    intro prev
    unfold uniq_loop
    split_ifs
    · exact List.mem_cons_self _ _
    · exact ih prev

/-- Every operand of the array survives deduplication through an operand of the same
lexeme. -/
theorem uniq_loop_covers (xs : List QueryOperand) :
    ∀ prev, ∀ y ∈ prev :: xs, ∃ z ∈ uniq_loop prev xs, z.lexeme = y.lexeme := by
  induction xs with
  | nil => intro prev y hy; exact ⟨y, by simpa [uniq_loop] using hy, rfl⟩
  | cons x xs ih =>
    intro prev y hy
    unfold uniq_loop
    split_ifs with hc
    · rcases List.mem_cons.1 hy with rfl | hy
      · exact ⟨y, List.mem_cons_self _ _, rfl⟩
      · obtain ⟨z, hz, hzy⟩ := ih x y hy
        exact ⟨z, List.mem_cons_of_mem _ hz, hzy⟩
    · have hxp : x.lexeme = prev.lexeme := by
        have : compareQueryOperand x prev = 0 := by simpa using hc
        exact (ts_eq_zero_iff _ _).1 this
      rcases List.mem_cons.1 hy with rfl | hy
      · exact ih y y (List.mem_cons_self _ _)
      · rcases List.mem_cons.1 hy with rfl | hy
        · exact ⟨prev, uniq_loop_head_mem xs prev, hxp.symm⟩
        · exact ih prev y (List.mem_cons_of_mem _ hy)

/-- On a sorted array the deduplication loop leaves a strictly ascending one. -/
theorem uniq_loop_strict (xs : List QueryOperand) :
    ∀ prev, (prev :: xs).Pairwise (fun a b => compareQueryOperand a b ≤ 0) →
      (uniq_loop prev xs).Pairwise (fun a b => compareQueryOperand a b < 0) := by
  induction xs with
  | nil => intro prev _; simp [uniq_loop]
  | cons x xs ih =>
    intro prev h
    rw [List.pairwise_cons] at h
    have hx := List.pairwise_cons.1 h.2
    unfold uniq_loop
    split_ifs with hc
    · refine List.pairwise_cons.2 ⟨?_, ih x h.2⟩
      intro z hz
      have hpx : compareQueryOperand prev x < 0 := by
        have h1 := h.1 x (List.mem_cons_self _ _)
        have h2 : compareQueryOperand x prev = - compareQueryOperand prev x :=
          ts_swap prev.lexeme x.lexeme
        omega
      rcases List.mem_cons.1 (uniq_loop_subset xs x z hz) with rfl | hz
      · exact hpx
      · exact ts_lt_of_lt_of_le hpx (hx.1 z hz)
    · exact ih prev (List.pairwise_cons.2 ⟨fun z hz => h.1 z (List.mem_cons_of_mem _ hz), hx.2⟩)

theorem strict_keys_nodup {l : List QueryOperand}
    (h : l.Pairwise (fun a b => tsCompareString a.lexeme b.lexeme false < 0)) :
    (l.map QueryOperand.lexeme).Nodup := by
  rw [List.Nodup, List.pairwise_map]
  refine h.imp ?_
  intro a b hab heq
  rw [heq, ts_refl] at hab
  omega

/-- What the two loops and the sort of `SortAndUniqItems` establish: the result strictly
ascends, holds operands of the query only, and holds the lexeme of every operand. -/
theorem SortAndUniqItems_core (qsort_arg : List QueryOperand → List QueryOperand)
    (hq : QsortContract qsort_arg) (q : TSQuery) :
    (SortAndUniqItems qsort_arg q).Pairwise
        (fun a b => tsCompareString a.lexeme b.lexeme false < 0) ∧
      (∀ x ∈ SortAndUniqItems qsort_arg q, x ∈ collect_operands q) ∧
      (∀ y ∈ collect_operands q, ∃ z ∈ SortAndUniqItems qsort_arg q, z.lexeme = y.lexeme) := by
  unfold SortAndUniqItems
  by_cases hlen : (collect_operands q).length < 2
  · simp only [if_pos hlen]
    refine ⟨?_, fun x hx => hx, fun y hy => ⟨y, hy, rfl⟩⟩
    match hres : collect_operands q with
    | [] => exact List.Pairwise.nil
    | [x] => exact List.pairwise_singleton _ _
    | x :: y :: rest =>
      rw [hres] at hlen
      simp only [List.length_cons] at hlen
      omega
  · simp only [if_neg hlen]
    obtain ⟨hperm, hsorted⟩ := hq (collect_operands q)
    match hs : qsort_arg (collect_operands q) with
    | [] =>
      have := hperm.length_eq
      rw [hs] at this
      simp at this
      omega
    | first :: rest =>
      rw [hs] at hperm hsorted
      refine ⟨uniq_loop_strict rest first hsorted, ?_, ?_⟩
      · intro x hx
        exact hperm.mem_iff.1 (uniq_loop_subset rest first x hx)
      · intro y hy
        exact uniq_loop_covers rest first y (hperm.mem_iff.2 hy)

/-- What `SortAndUniqItems` does for every query, given a `qsort_arg` that sorts: it
returns leaf operands of the query whose lexemes strictly ascend in the order of
`tsCompareString` (bytewise, a string before its extensions; so sorted, no two equal),
whose set of lexemes is exactly that of the query's leaf operands, and whose number
`*size` is the number of distinct lexemes. -/
theorem SortAndUniqItems_sorted_uniq (qsort_arg : List QueryOperand → List QueryOperand)
    (hq : QsortContract qsort_arg) (q : TSQuery) :
    (SortAndUniqItems qsort_arg q).Pairwise
      (fun a b => tsCompareString a.lexeme b.lexeme false < 0) ∧
    (∀ x ∈ SortAndUniqItems qsort_arg q, x ∈ collect_operands q) ∧
    (∀ k, k ∈ (SortAndUniqItems qsort_arg q).map QueryOperand.lexeme ↔
      k ∈ (collect_operands q).map QueryOperand.lexeme) ∧
    (SortAndUniqItems qsort_arg q).length =
      ((collect_operands q).map QueryOperand.lexeme).dedup.length := by
  obtain ⟨hstrict, hsub, hcov⟩ := SortAndUniqItems_core qsort_arg hq q
  have hmem : ∀ k, k ∈ (SortAndUniqItems qsort_arg q).map QueryOperand.lexeme ↔
      k ∈ (collect_operands q).map QueryOperand.lexeme := by
    intro k
    simp only [List.mem_map]
    constructor
    · rintro ⟨x, hx, rfl⟩; exact ⟨x, hsub x hx, rfl⟩
    · rintro ⟨y, hy, rfl⟩
      obtain ⟨z, hz, hzy⟩ := hcov y hy
      exact ⟨z, hz, hzy⟩
  refine ⟨hstrict, hsub, hmem, ?_⟩
  have hperm : List.Perm ((SortAndUniqItems qsort_arg q).map QueryOperand.lexeme)
      ((collect_operands q).map QueryOperand.lexeme).dedup :=
    (List.perm_ext_iff_of_nodup (strict_keys_nodup hstrict) (List.nodup_dedup _)).2
      (fun k => by rw [hmem k, List.mem_dedup])
  have := hperm.length_eq
  rwa [List.length_map] at this

/-- The same with insertion sort for `qsort_arg` on the query `cat & dog & cat`. -/
theorem SortAndUniqItems_sorted_uniq_witness :
    (SortAndUniqItems insertion_sort query_cat_dog_cat).Pairwise
      (fun a b => tsCompareString a.lexeme b.lexeme false < 0) ∧
    (∀ x ∈ SortAndUniqItems insertion_sort query_cat_dog_cat,
      x ∈ collect_operands query_cat_dog_cat) ∧
    (∀ k, k ∈ (SortAndUniqItems insertion_sort query_cat_dog_cat).map QueryOperand.lexeme ↔
      k ∈ (collect_operands query_cat_dog_cat).map QueryOperand.lexeme) ∧
    (SortAndUniqItems insertion_sort query_cat_dog_cat).length =
      ((collect_operands query_cat_dog_cat).map QueryOperand.lexeme).dedup.length :=
  SortAndUniqItems_sorted_uniq insertion_sort insertion_sort_contract query_cat_dog_cat

/-- The example of deduplication: the operands `cat`, `dog`, `cat` give `cat`, `dog`,
size 2. -/
theorem SortAndUniqItems_example :
    (SortAndUniqItems insertion_sort query_cat_dog_cat).map QueryOperand.lexeme =
      [[99, 97, 116], [100, 111, 103]] ∧
    (SortAndUniqItems insertion_sort query_cat_dog_cat).length = 2 := by
  decide

/-- C5 fails on the code: the comment above `compareQueryOperand` says "sort
QueryOperands by (length, word)", but the function calls `tsCompareString`, which
compares the bytes first and the lengths last. For the operands `b`, `aa` of the query
`b | aa` `SortAndUniqItems` returns `aa`, `b`: the shorter `b` comes last, so the result
does not ascend by length then bytes. -/
theorem SortAndUniqItems_bytes_before_length :
    collect_operands query_b_aa = [⟨0, false, [98]⟩, ⟨0, false, [97, 97]⟩] ∧
    compareQueryOperand ⟨0, false, [97, 97]⟩ ⟨0, false, [98]⟩ < 0 ∧
    (SortAndUniqItems insertion_sort query_b_aa).map QueryOperand.lexeme = [[97, 97], [98]] ∧
    length_then_bytes_lt [98] [97, 97] ∧
    ¬ ((SortAndUniqItems insertion_sort query_b_aa).map QueryOperand.lexeme).Pairwise
      length_then_bytes_lt := by
  refine ⟨by decide, by decide, by decide, by decide, by decide⟩

/-! ## The leaf-to-index map of query extraction -/

theorem rescan_find_spec (val : QueryOperand) (ops : List QueryOperand) :
    ∀ k, (∃ z ∈ ops, z.lexeme = val.lexeme) →
      ∃ (i : Nat) (o : QueryOperand), rescan_find val ops k = some (k + i) ∧ ops[i]? = some o ∧
        o.lexeme = val.lexeme := by
  induction ops with
  | nil => intro k h; obtain ⟨z, hz, _⟩ := h; simp at hz
  | cons o os ih =>
    intro k h
    by_cases hc : tsCompareString o.lexeme val.lexeme false = 0
    · exact ⟨0, o, by simp [rescan_find, hc], by simp, (ts_eq_zero_iff _ _).1 hc⟩
    · have hne : o.lexeme ≠ val.lexeme := fun he => hc ((ts_eq_zero_iff _ _).2 he)
      obtain ⟨z, hz, hzl⟩ := h
      have hz2 : z ∈ os := by
        rcases List.mem_cons.1 hz with rfl | hz
        · exact absurd hzl hne
        · exact hz
      obtain ⟨i, o2, hf, hg, hl⟩ := ih (k + 1) ⟨z, hz2, hzl⟩
      refine ⟨i + 1, o2, ?_, by simpa using hg, hl⟩
      simp only [rescan_find, if_neg hc, hf]
      congr 1
      omega

theorem rescan_items_spec (ops : List QueryOperand) (items : List QueryItem) :
    (∀ v ∈ collect_operands items, ∃ z ∈ ops, z.lexeme = v.lexeme) →
      ∃ m, rescan_items ops items = Except.ok m ∧ m.length = items.length ∧
        ∀ (j : Nat) (v : QueryOperand), items[j]? = some (QueryItem.QI_VAL v) →
          ∃ (i : Nat) (o : QueryOperand), m[j]? = some i ∧ ops[i]? = some o ∧
            o.lexeme = v.lexeme := by
  induction items with
  | nil => intro _; exact ⟨[], rfl, rfl, by simp⟩
  | cons it rest ih =>
    intro hcov
    cases it with
    | QI_VAL val =>
      have hrest : ∀ v ∈ collect_operands rest, ∃ z ∈ ops, z.lexeme = v.lexeme :=
        fun v hv => hcov v (by simp [collect_operands, hv])
      obtain ⟨m, hm, hlen, hmap⟩ := ih hrest
      obtain ⟨i, o, hf, hg, hl⟩ :=
        rescan_find_spec val ops 0 (hcov val (by simp [collect_operands]))
      refine ⟨(0 + i) :: m, by simp [rescan_items, hf, hm], by simp [hlen], ?_⟩
      intro j v hj
      cases j with
      | zero =>
        simp only [List.getElem?_cons_zero, Option.some.injEq, QueryItem.QI_VAL.injEq] at hj
        subst hj
        exact ⟨i, o, by simp, hg, hl⟩
      | succ j =>
        obtain ⟨i2, o2, h1, h2, h3⟩ := hmap j v (by simpa using hj)
        exact ⟨i2, o2, by simpa using h1, h2, h3⟩
    | QI_OPR oper left =>
      have hrest : ∀ v ∈ collect_operands rest, ∃ z ∈ ops, z.lexeme = v.lexeme :=
        fun v hv => hcov v (by simpa [collect_operands] using hv)
      obtain ⟨m, hm, hlen, hmap⟩ := ih hrest
      refine ⟨0 :: m, by simp [rescan_items, hm], by simp [hlen], ?_⟩
      intro j v hj
      cases j with
      | zero => simp at hj
      | succ j =>
        obtain ⟨i2, o2, h1, h2, h3⟩ := hmap j v (by simpa using hj)
        exact ⟨i2, o2, by simpa using h1, h2, h3⟩

/-- C6. Leaf-to-index map: given a `qsort_arg` that sorts, for every non-empty query
`rum_extract_tsquery` succeeds (the branch `Operand not found!` is not reached), and for
every leaf operand at item position `j` the map holds an index `map[j]` with
`0 <= map[j] < nentries` such that the entry at `map[j]` has the bytes of leaf `j`. -/
theorem rum_extract_tsquery_map (qsort_arg : List QueryOperand → List QueryOperand)
    (tsquery_requires_match : TSQuery → Bool) (hq : QsortContract qsort_arg)
    (query : TSQuery) (hne : 0 < query.length) :
    ∃ r, rum_extract_tsquery qsort_arg tsquery_requires_match query = Except.ok r ∧
      r.map_item_operand.length = query.length ∧
      r.entries.length = r.nentries ∧
      ∀ (j : Nat) (v : QueryOperand), query[j]? = some (QueryItem.QI_VAL v) →
        ∃ i : Nat, r.map_item_operand[j]? = some i ∧ i < r.nentries ∧
          r.entries[i]? = some v.lexeme := by
  obtain ⟨_, _, hcov⟩ := SortAndUniqItems_core qsort_arg hq query
  obtain ⟨m, hm, hlen, hmap⟩ := rescan_items_spec (SortAndUniqItems qsort_arg query) query hcov
  refine ⟨⟨(SortAndUniqItems qsort_arg query).length,
      (SortAndUniqItems qsort_arg query).map QueryOperand.lexeme,
      (SortAndUniqItems qsort_arg query).map QueryOperand.prefix_flag, m,
      some (if tsquery_requires_match query then SearchMode.GIN_SEARCH_MODE_DEFAULT
        else SearchMode.GIN_SEARCH_MODE_ALL)⟩,
    by simp only [rum_extract_tsquery, if_pos hne, hm], hlen, by simp, ?_⟩
  intro j v hj
  obtain ⟨i, o, h1, h2, h3⟩ := hmap j v hj
  refine ⟨i, h1, (List.getElem?_eq_some.1 h2).1, ?_⟩
  simp [h2, h3]

/-- C6 with insertion sort for `qsort_arg` on the query `cat & dog & cat`. -/
theorem rum_extract_tsquery_map_witness :
    ∃ r, rum_extract_tsquery insertion_sort (fun _ => true) query_cat_dog_cat = Except.ok r ∧
      r.map_item_operand.length = query_cat_dog_cat.length ∧
      r.entries.length = r.nentries ∧
      ∀ (j : Nat) (v : QueryOperand), query_cat_dog_cat[j]? = some (QueryItem.QI_VAL v) →
        ∃ i : Nat, r.map_item_operand[j]? = some i ∧ i < r.nentries ∧
          r.entries[i]? = some v.lexeme :=
  rum_extract_tsquery_map insertion_sort (fun _ => true) insertion_sort_contract
    query_cat_dog_cat (by decide)

/-- The extraction of `cat & dog & cat`: two entries, and the map sends the three leaves
to 0, 1, 0. -/
theorem rum_extract_tsquery_example :
    rum_extract_tsquery insertion_sort (fun _ => true) query_cat_dog_cat =
      Except.ok ⟨2, [[99, 97, 116], [100, 111, 103]], [false, false], [0, 0, 0, 1, 0],
        some SearchMode.GIN_SEARCH_MODE_DEFAULT⟩ := by
  rfl

/-! ## Weight configuration -/

section Weights

variable {F : Type} [LinearOrderedField F]

theorem one_lit : (1.0 : F) = 1 := by norm_num

theorem weights_range : ∀ d ∈ (weights : List F), 0 ≤ d ∧ d ≤ 1 := by
  intro d hd
  simp only [weights, List.mem_cons, List.mem_singleton, List.not_mem_nil, or_false] at hd
  rcases hd with rfl | rfl | rfl | rfl <;> norm_num

/-- The loop of `getWeights` over default weights within `[0, 1]`: it reads inside the
data area, fails exactly when an element it reads exceeds 1, and otherwise fills `ws`
with each element, or the default in place of a negative one. -/
theorem getWeights_loop_spec (arrdata : List F) :
    ∀ (defaults : List F) (i : Nat), (∀ d ∈ defaults, 0 ≤ d ∧ d ≤ 1) →
      i + defaults.length ≤ arrdata.length →
      (∃ r, getWeights_loop arrdata i defaults = some r) ∧
      ((∃ e, getWeights_loop arrdata i defaults = some (Except.error e)) ↔
        ∃ (j : Nat) (a : F), j < defaults.length ∧ arrdata[i + j]? = some a ∧ 1 < a) ∧
      (∀ ws, getWeights_loop arrdata i defaults = some (Except.ok ws) →
        ws.length = defaults.length ∧
        ∀ j, j < defaults.length → ∃ (a d x : F), arrdata[i + j]? = some a ∧
          defaults[j]? = some d ∧ ws[j]? = some x ∧ x = (if 0 ≤ a then a else d) ∧
          0 ≤ x ∧ x ≤ 1) := by
  intro defaults
  induction defaults with
  | nil =>
    intro i _ _
    refine ⟨⟨_, rfl⟩, ?_, ?_⟩
    · simp [getWeights_loop]
    · intro ws h
      simp only [getWeights_loop, Option.some.injEq, Except.ok.injEq] at h
      subst h
      simp
  | cons d ds ih =>
    intro i hd hlen
    simp only [List.length_cons] at hlen
    have hi : i < arrdata.length := by omega
    have hget : arrdata[i]? = some arrdata[i] := List.getElem?_eq_getElem hi
    have hds : ∀ x ∈ ds, 0 ≤ x ∧ x ≤ 1 := fun x hx => hd x (List.mem_cons_of_mem _ hx)
    have hdr := hd d (List.mem_cons_self _ _)
    obtain ⟨⟨r, hr⟩, herr, hok⟩ := ih (i + 1) hds (by omega)
    have hshift : ∀ j, arrdata[i + 1 + j]? = arrdata[i + (j + 1)]? := by
      intro j; congr 1; omega
    by_cases hbig : (1 : F) < (if 0 ≤ arrdata[i] then arrdata[i] else d)
    · have hbig2 : (1 : F) < arrdata[i] := by
        split_ifs at hbig with h0
        · exact hbig
        · exact absurd hbig (not_lt.2 hdr.2)
      have hrun : getWeights_loop arrdata i (d :: ds) =
          some (Except.error "weight out of range") := by
        simp only [getWeights_loop, hget, one_lit, if_pos hbig]
      refine ⟨⟨_, hrun⟩, ?_, ?_⟩
      · constructor
        · intro _; exact ⟨0, arrdata[i], by simp, by simp, hbig2⟩
        · intro _; exact ⟨_, hrun⟩
      · intro ws h
        rw [hrun] at h
        simp at h
    · have hsmall : (if 0 ≤ arrdata[i] then arrdata[i] else d) ≤ 1 := not_lt.1 hbig
      have hnot : ¬ (1 : F) < arrdata[i] := by
        intro hc
        have h0 : (0 : F) ≤ arrdata[i] := le_trans zero_le_one (le_of_lt hc)
        rw [if_pos h0] at hsmall
        exact absurd hc (not_lt.2 hsmall)
      have hnn : (0 : F) ≤ (if 0 ≤ arrdata[i] then arrdata[i] else d) := by
        split_ifs with h0
        · exact h0
        · exact hdr.1
      have hrun : getWeights_loop arrdata i (d :: ds) =
          match getWeights_loop arrdata (i + 1) ds with
          | none => none
          | some (Except.error e) => some (Except.error e)
          | some (Except.ok ws) =>
            some (Except.ok ((if 0 ≤ arrdata[i] then arrdata[i] else d) :: ws)) := by
        simp only [getWeights_loop, hget, one_lit, if_neg hbig]
      rw [hrun, hr]
      cases r with
      | error e =>
        refine ⟨⟨_, rfl⟩, ?_, ?_⟩
        · constructor
          · intro _
            obtain ⟨j, a, hj, ha, h1⟩ := herr.1 ⟨e, hr⟩
            exact ⟨j + 1, a, by simp; omega, by rw [← hshift]; exact ha, h1⟩
          · intro _; exact ⟨e, rfl⟩
        · intro ws h; simp at h
      | ok ws1 =>
        obtain ⟨hwlen, hwel⟩ := hok ws1 hr
        refine ⟨⟨_, rfl⟩, ?_, ?_⟩
        · constructor
          · rintro ⟨e, he⟩; simp at he
          · rintro ⟨j, a, hj, ha, h1⟩
            exfalso
            cases j with
            | zero =>
              simp only [Nat.add_zero, hget, Option.some.injEq] at ha
              rw [← ha] at h1
              exact hnot h1
            | succ j =>
              have : ∃ e, getWeights_loop arrdata (i + 1) ds = some (Except.error e) :=
                herr.2 ⟨j, a, by simpa using hj, by rw [hshift]; exact ha, h1⟩
              obtain ⟨e, he⟩ := this
              rw [hr] at he
              simp at he
        · intro ws h
          simp only [Option.some.injEq, Except.ok.injEq] at h
          subst h
          refine ⟨by simp [hwlen], ?_⟩
          intro j hj
          cases j with
          | zero =>
            exact ⟨arrdata[i], d, _, by simp, by simp, by simp, rfl, hnn, hsmall⟩
          | succ j =>
            obtain ⟨a, d2, x, h1, h2, h3, h4⟩ := hwel j (by simpa using hj)
            exact ⟨a, d2, x, by rw [← hshift]; exact h1, by simpa using h2, by simpa using h3, h4⟩

omit [LinearOrderedField F] in
theorem elems_of_no_nulls (l : List (Option F)) (h : l.any Option.isNone = false) :
    l = (l.filterMap id).map some := by
  induction l with
  | nil => rfl
  | cons x xs ih =>
    simp only [List.any_cons, Bool.or_eq_false_iff] at h
    cases x with
    | none => simp at h
    | some a =>
      simp only [List.filterMap_cons, id, List.map_cons]
      rw [← ih h.2]

/-- C7, as amended. Weight configuration: `getWeights` with no array returns the defaults
`{0.1, 0.2, 0.4, 1.0}`; with a (well-formed) array it fails with a configuration error
if and only if the array is not one-dimensional, or has fewer than 4 elements, or
contains a null, or one of its first four elements (elements 0 to 3, the only ones
read) is greater than 1; otherwise it returns 4 weights, each in `[0, 1]`, weight `i`
being the supplied element `i` when that is non-negative and the default weight `i`
when it is negative. -/
theorem getWeights_spec (win : ArrayType F) (hwf : win.wellFormed) :
    getWeights (none : Option (ArrayType F)) = some (Except.ok [0.1, 0.2, 0.4, 1.0]) ∧
    (∃ r, getWeights (some win) = some r) ∧
    ((∃ e, getWeights (some win) = some (Except.error e)) ↔
      (win.ndim ≠ 1 ∨ win.elems.length < 4 ∨ none ∈ win.elems ∨
        ∃ (i : Nat) (a : F), i < 4 ∧ win.elems[i]? = some (some a) ∧ 1 < a)) ∧
    (∀ ws, getWeights (some win) = some (Except.ok ws) →
      ws.length = 4 ∧
      ∀ i, i < 4 → ∃ (a d x : F), win.elems[i]? = some (some a) ∧
        (weights : List F)[i]? = some d ∧ ws[i]? = some x ∧
        x = (if 0 ≤ a then a else d) ∧ 0 ≤ x ∧ x ≤ 1) := by
  refine ⟨rfl, ?_⟩
  obtain ⟨hdims, hlen⟩ := hwf
  by_cases hnd : win.ndim ≠ 1
  · have hrun : getWeights (some win) =
        some (Except.error "array of weight must be one-dimensional") := by
      simp only [getWeights, if_pos hnd]
    refine ⟨⟨_, hrun⟩, ⟨fun _ => Or.inl hnd, fun _ => ⟨_, hrun⟩⟩, ?_⟩
    intro ws h; rw [hrun] at h; simp at h
  · have hnd1 : win.ndim = 1 := not_not.1 hnd
    by_cases hshort : ArrayGetNItems win.ndim win.dims < (weights : List F).length
    · have hrun : getWeights (some win) = some (Except.error "array of weight is too short") := by
        simp only [getWeights, if_neg hnd, if_pos hshort]
      have h4 : win.elems.length < 4 := by rw [hlen]; simpa [weights] using hshort
      refine ⟨⟨_, hrun⟩, ⟨fun _ => Or.inr (Or.inl h4), fun _ => ⟨_, hrun⟩⟩, ?_⟩
      intro ws h; rw [hrun] at h; simp at h
    · have h4 : ¬ win.elems.length < 4 := by rw [hlen]; simpa [weights] using hshort
      by_cases hnull : array_contains_nulls win = true
      · have hrun : getWeights (some win) =
            some (Except.error "array of weight must not contain nulls") := by
          simp only [getWeights, if_neg hnd, if_neg hshort, if_pos hnull]
        have hmem : none ∈ win.elems := by
          unfold array_contains_nulls at hnull
          obtain ⟨x, hx, hx2⟩ := List.any_eq_true.1 hnull
          cases x with
          | none => exact hx
          | some a => simp at hx2
        refine ⟨⟨_, hrun⟩, ⟨fun _ => Or.inr (Or.inr (Or.inl hmem)), fun _ => ⟨_, hrun⟩⟩, ?_⟩
        intro ws h; rw [hrun] at h; simp at h
      · have hnull2 : win.elems.any Option.isNone = false := by
          unfold array_contains_nulls at hnull
          exact Bool.eq_false_iff.2 hnull
        have hel := elems_of_no_nulls win.elems hnull2
        have hnomem : none ∉ win.elems := by
          rw [hel]; simp
        have hrun : getWeights (some win) = getWeights_loop (ARR_DATA_PTR win) 0 weights := by
          simp only [getWeights, if_neg hnd, if_neg hshort, if_neg hnull]
        have hdlen : (ARR_DATA_PTR win).length = win.elems.length := by
          unfold ARR_DATA_PTR
          conv_rhs => rw [hel]
          simp
        have hget : ∀ (i : Nat) (a : F), win.elems[i]? = some (some a) ↔
            (ARR_DATA_PTR win)[i]? = some a := by
          intro i a
          unfold ARR_DATA_PTR
          conv_lhs => rw [hel]
          simp
        obtain ⟨hsome, herr, hok⟩ := getWeights_loop_spec (ARR_DATA_PTR win) weights 0
          weights_range (by rw [hdlen]; simp only [weights, List.length_cons, List.length_nil]; omega)
        rw [hrun]
        refine ⟨hsome, ?_, ?_⟩
        · rw [herr]
          constructor
          · rintro ⟨j, a, hj, ha, h1⟩
            refine Or.inr (Or.inr (Or.inr ⟨j, a, by simpa [weights] using hj, ?_, h1⟩))
            rw [hget]; simpa using ha
          · rintro (h | h | h | ⟨i, a, hi, ha, h1⟩)
            · exact absurd h hnd
            · exact absurd h h4
            · exact absurd h hnomem
            · exact ⟨i, a, by simpa [weights] using hi, by simpa using (hget i a).1 ha, h1⟩
        · intro ws h
          obtain ⟨hwlen, hwel⟩ := hok ws h
          refine ⟨by simpa [weights] using hwlen, ?_⟩
          intro i hi
          obtain ⟨a, d, x, h1, h2, h3, h4⟩ := hwel i (by simpa [weights] using hi)
          exact ⟨a, d, x, (hget i a).2 (by simpa using h1), h2, h3, h4⟩

end Weights

/-- C7, as amended, on the array `{0.5, -1, 0.5, 0.5}`. -/
theorem getWeights_spec_witness :
    getWeights (none : Option (ArrayType ℚ)) = some (Except.ok [0.1, 0.2, 0.4, 1.0]) ∧
    (∃ r, getWeights (some weights_array_example) = some r) ∧
    ((∃ e, getWeights (some weights_array_example) = some (Except.error e)) ↔
      (weights_array_example.ndim ≠ 1 ∨ weights_array_example.elems.length < 4 ∨
        none ∈ weights_array_example.elems ∨
        ∃ (i : Nat) (a : ℚ), i < 4 ∧ weights_array_example.elems[i]? = some (some a) ∧ 1 < a)) ∧
    (∀ ws, getWeights (some weights_array_example) = some (Except.ok ws) →
      ws.length = 4 ∧
      ∀ i, i < 4 → ∃ (a d x : ℚ), weights_array_example.elems[i]? = some (some a) ∧
        (weights : List ℚ)[i]? = some d ∧ ws[i]? = some x ∧
        x = (if 0 ≤ a then a else d) ∧ 0 ≤ x ∧ x ≤ 1) :=
  getWeights_spec weights_array_example ⟨rfl, rfl⟩

/-- The weights resolved from `{0.5, -1, 0.5, 0.5}`: the second is the default `0.2`. -/
theorem getWeights_example :
    getWeights (some weights_array_example) = some (Except.ok [0.5, 0.2, 0.5, 0.5]) := by
  simp [getWeights, weights_array_example, ArrayGetNItems, array_contains_nulls, weights,
    ARR_DATA_PTR, getWeights_loop]
  norm_num

/-- C7 fails as stated: the one-dimensional array `{0.1, 0.2, 0.3, 0.4, 7}` has five
elements, no null, and holds the out-of-range value 7, yet `getWeights` raises no error
and returns the first four elements: the loop reads the elements 0 to 3 only. -/
theorem getWeights_fifth_element_counterexample :
    weights_array_long.ndim = 1 ∧ weights_array_long.dims = [5] ∧
    weights_array_long.elems.length = 5 ∧ none ∉ weights_array_long.elems ∧
    some (7 : ℚ) ∈ weights_array_long.elems ∧ (1 : ℚ) < 7 ∧
    getWeights (some weights_array_long) = some (Except.ok [0.1, 0.2, 0.3, 0.4]) := by
  refine ⟨rfl, rfl, rfl, by simp [weights_array_long], by simp [weights_array_long],
    by norm_num, ?_⟩
  simp [getWeights, weights_array_long, ArrayGetNItems, array_contains_nulls, weights,
    ARR_DATA_PTR, getWeights_loop]
  norm_num

/-! ## Selection of the scoring mode -/

section Mode

variable {F : Type} [LinearOrderedField F]

/-- On a non-empty document and a non-empty query `calc_rank` normalises the result of
the pairwise kernel exactly when the first query item is an `OP_AND` or `OP_PHRASE`
operator, and the result of the per-term kernel for every other first item. -/
theorem calc_rank_mode (m : MathFns F) (qsort_arg : List QueryOperand → List QueryOperand)
    (w : List F) (t : TSVector) (q : TSQuery) (method : Nat) (ht : t ≠ []) (hq : q ≠ []) :
    (root_is_and_or_phrase q = true ↔ ∃ left rest,
      q = QueryItem.QI_OPR Oper.OP_AND left :: rest ∨
      q = QueryItem.QI_OPR Oper.OP_PHRASE left :: rest) ∧
    (root_is_and_or_phrase q = true →
      calc_rank m qsort_arg w t q method =
        (calc_rank_and m qsort_arg w t q).map (calc_rank_normalize m t method)) ∧
    (root_is_and_or_phrase q = false →
      calc_rank m qsort_arg w t q method =
        (calc_rank_or qsort_arg w t q).map (calc_rank_normalize m t method)) := by
  have ht2 : ¬ t.length = 0 := by simpa using ht
  have hq2 : ¬ q.length = 0 := by simpa using hq
  refine ⟨?_, ?_, ?_⟩
  · match q with
    | [] => exact absurd rfl hq
    | QueryItem.QI_VAL v :: rest => simp [root_is_and_or_phrase]
    | QueryItem.QI_OPR Oper.OP_AND left :: rest => simp [root_is_and_or_phrase]
    | QueryItem.QI_OPR Oper.OP_PHRASE left :: rest => simp [root_is_and_or_phrase]
    | QueryItem.QI_OPR Oper.OP_OR left :: rest => simp [root_is_and_or_phrase]
    | QueryItem.QI_OPR Oper.OP_NOT left :: rest => simp [root_is_and_or_phrase]
  · intro h
    simp only [calc_rank, ht2, hq2, or_self, if_false, h, if_true]
    cases calc_rank_and m qsort_arg w t q <;> rfl
  · intro h
    simp only [calc_rank, ht2, hq2, or_self, if_false, h]
    cases calc_rank_or qsort_arg w t q <;> simp

/-- On non-empty payloads and a non-empty query `calc_rank_pos` clamps the result of the
pairwise kernel exactly when the first query item is an `OP_AND` operator; for every
other first item, `OP_PHRASE` included, it clamps the result of the per-term kernel. -/
theorem calc_rank_pos_mode (m : MathFns F) (w : List F) (q : TSQuery)
    (addInfo : List (Option (List Nat))) (posnull0 : Nat) (ha : addInfo ≠ []) (hq : q ≠ []) :
    (root_is_and q = true ↔ ∃ left rest, q = QueryItem.QI_OPR Oper.OP_AND left :: rest) ∧
    (root_is_and q = true →
      calc_rank_pos m w q addInfo posnull0 =
        (calc_rank_pos_and m w addInfo posnull0).map
          (fun res => if res < 0 then 1 / 10 ^ 20 else res)) ∧
    (root_is_and q = false →
      calc_rank_pos m w q addInfo posnull0 =
        (calc_rank_pos_or w addInfo posnull0).map
          (fun res => if res < 0 then 1 / 10 ^ 20 else res)) := by
  have ha2 : ¬ addInfo.length = 0 := by simpa using ha
  have hq2 : ¬ q.length = 0 := by simpa using hq
  refine ⟨?_, ?_, ?_⟩
  · match q with
    | [] => exact absurd rfl hq
    | QueryItem.QI_VAL v :: rest => simp [root_is_and]
    | QueryItem.QI_OPR Oper.OP_AND left :: rest => simp [root_is_and]
    | QueryItem.QI_OPR Oper.OP_PHRASE left :: rest => simp [root_is_and]
    | QueryItem.QI_OPR Oper.OP_OR left :: rest => simp [root_is_and]
    | QueryItem.QI_OPR Oper.OP_NOT left :: rest => simp [root_is_and]
  · intro h
    simp only [calc_rank_pos, ha2, hq2, or_self, if_false, h, if_true]
    cases calc_rank_pos_and m w addInfo posnull0 <;> rfl
  · intro h
    simp only [calc_rank_pos, ha2, hq2, or_self, if_false, h]
    cases calc_rank_pos_or w addInfo posnull0 <;> simp

theorem decompress_pos_one (pos : Nat) (h : pos = 0) :
    decompress_pos [1] pos = some ([], 1) := by
  subst h; decide

/-- C8 fails for `calc_rank_pos` at an `OP_PHRASE` root: on two payloads that each hold
the one position (offset 1, level D) the query `a <-> b` gets the per-term score
`0.1 / 1.64493406685`, while the pairwise kernel, which `a & b` selects on the same
payloads, finds no pair and gives `-1`, clamped to `1e-20`. -/
theorem calc_rank_pos_phrase_root_per_term (m : MathFns F) :
    calc_rank_pos m weights query_phrase_a_b [some [1], some [1]] 0 =
      some (0.1 / 1.64493406685) ∧
    calc_rank_pos_or (weights : List F) [some [1], some [1]] 0 = some (0.1 / 1.64493406685) ∧
    calc_rank_pos_and m (weights : List F) [some [1], some [1]] 0 = some (-1) ∧
    calc_rank_pos m weights query_and_a_b [some [1], some [1]] 0 = some (1 / 10 ^ 20) := by
  have hd := decompress_pos_one 0 rfl
  have hw : wpos (weights : List F) 1 = 0.1 := by
    simp [wpos, weights, WEP_GETWEIGHT]
  have hor : calc_rank_pos_or (weights : List F) [some [1], some [1]] 0 =
      some (0.1 / 1.64493406685) := by
    simp [calc_rank_pos_or, calc_rank_pos_or_items, calc_rank_pos_or_positions, payload_count,
      payload_ptr, count_pos, HIGHBIT, CharPtr.decompress, hd, hw]
    norm_num
  have hand : calc_rank_pos_and m (weights : List F) [some [1], some [1]] 0 = some (-1) := by
    simp [calc_rank_pos_and, calc_rank_pos_and_i, calc_rank_pos_and_k, calc_rank_pos_and_l,
      calc_rank_pos_and_p, payload_count, payload_ptr, count_pos, HIGHBIT, CharPtr.decompress,
      hd, rank_and_pair, CharPtr.is_posnull, WEP_GETPOS, one_lit]
  refine ⟨?_, hor, hand, ?_⟩
  · simp only [calc_rank_pos, query_phrase_a_b, root_is_and, hor]
    norm_num
  · simp only [calc_rank_pos, query_and_a_b, root_is_and, hand]
    norm_num

end Mode

/-! ## The pairwise score of two terms -/

section TwoTerms

variable {F : Type} [LinearOrderedField F]

/-- Two operands of different lexemes come back from `SortAndUniqItems` in the order of
the comparison. -/
theorem SortAndUniqItems_two (qsort_arg : List QueryOperand → List QueryOperand)
    (hq : QsortContract qsort_arg) (oper : Oper) (left : Nat) (a b : QueryOperand)
    (hab : a.lexeme ≠ b.lexeme) :
    SortAndUniqItems qsort_arg [QueryItem.QI_OPR oper left, QueryItem.QI_VAL a,
        QueryItem.QI_VAL b] =
      if tsCompareString a.lexeme b.lexeme false < 0 then [a, b] else [b, a] := by
  have hne : a ≠ b := fun h => hab (by rw [h])
  obtain ⟨hperm, hsorted⟩ := hq [a, b]
  have hcol : collect_operands [QueryItem.QI_OPR oper left, QueryItem.QI_VAL a,
      QueryItem.QI_VAL b] = [a, b] := rfl
  have hlen := hperm.length_eq
  have hcases : qsort_arg [a, b] = [a, b] ∨ qsort_arg [a, b] = [b, a] := by
    match hs : qsort_arg [a, b] with
    | [] => rw [hs] at hlen; simp at hlen
    | [x] => rw [hs] at hlen; simp at hlen
    | x :: y :: z :: rest => rw [hs] at hlen; simp at hlen
    | [x, y] =>
      rw [hs] at hperm
      have hx : x = a ∨ x = b := by simpa using hperm.mem_iff.1 (List.mem_cons_self _ _)
      have hy : y = a ∨ y = b := by
        simpa using hperm.mem_iff.1 (List.mem_cons_of_mem _ (List.mem_cons_self _ _))
      have ha : a = x ∨ a = y := by simpa using hperm.mem_iff.2 (List.mem_cons_self _ _)
      have hb : b = x ∨ b = y := by
        simpa using hperm.mem_iff.2 (List.mem_cons_of_mem _ (List.mem_cons_self _ _))
      rcases hx with rfl | rfl
      · rcases hy with rfl | rfl
        · rcases hb with h | h <;> exact absurd h.symm hne
        · exact Or.inl rfl
      · rcases hy with rfl | rfl
        · exact Or.inr rfl
        · rcases ha with h | h <;> exact absurd h hne
  have hswap := ts_swap a.lexeme b.lexeme
  have hz : tsCompareString a.lexeme b.lexeme false ≠ 0 :=
    fun h => hab ((ts_eq_zero_iff _ _).1 h)
  unfold SortAndUniqItems
  simp only [hcol, List.length_cons, List.length_nil, Nat.lt_irrefl, if_false]
  rcases hcases with hc | hc
  · rw [hc] at hsorted
    have h1 : tsCompareString a.lexeme b.lexeme false ≤ 0 := by
      simpa [compareQueryOperand] using (List.pairwise_cons.1 hsorted).1 b
    have h2 : tsCompareString a.lexeme b.lexeme false < 0 := lt_of_le_of_ne h1 hz
    have h3 : compareQueryOperand b a ≠ 0 := by unfold compareQueryOperand; omega
    simp [hc, uniq_loop, h3, h2]
  · rw [hc] at hsorted
    have h1 : tsCompareString b.lexeme a.lexeme false ≤ 0 := by
      simpa [compareQueryOperand] using (List.pairwise_cons.1 hsorted).1 a
    have h2 : ¬ tsCompareString a.lexeme b.lexeme false < 0 := by omega
    have h3 : compareQueryOperand a b ≠ 0 := by unfold compareQueryOperand; omega
    simp [hc, uniq_loop, h3, h2]

/-- The pairwise kernel on two operands that each match one entry with one position, at
different offsets: the contribution of the one pair. -/
theorem calc_rank_and_items_two (m : MathFns F) (w : List F) (t : TSVector)
    (x y : QueryOperand) (lx ly : List Nat) (px py : Nat)
    (hx : ∃ r, find_wordentry t x = some r ∧ r.entries t = [⟨lx, true, [px]⟩])
    (hy : ∃ r, find_wordentry t y = some r ∧ r.entries t = [⟨ly, true, [py]⟩])
    (hp : WEP_GETPOS px ≠ WEP_GETPOS py) :
    calc_rank_and_items m w t [x, y] [] (-1.0) =
      some (m.sqrt (wpos w px * wpos w py *
        word_distance m (Int.natAbs ((WEP_GETPOS px : Int) - (WEP_GETPOS py : Int)) : Nat))) := by
  obtain ⟨rx, hrx, hex⟩ := hx
  obtain ⟨ry, hry, hey⟩ := hy
  have hd : Int.natAbs ((WEP_GETPOS py : Int) - (WEP_GETPOS px : Int)) ≠ 0 := by omega
  have hsym : Int.natAbs ((WEP_GETPOS py : Int) - (WEP_GETPOS px : Int)) =
      Int.natAbs ((WEP_GETPOS px : Int) - (WEP_GETPOS py : Int)) := by omega
  simp only [calc_rank_and_items, hrx, hex, hry, hey, calc_rank_and_entries,
    calc_rank_and_entry, calc_rank_and_pairs, List.foldl_cons, List.foldl_nil, List.nil_append,
    if_true, rank_and_pair, Bool.or_self, hd, ne_eq, not_false_eq_true, true_or, if_false]
  rw [hsym, mul_comm (wpos w py) (wpos w px)]
  norm_num

/-- C9. Two-term AND score: given a `qsort_arg` that sorts and a `sqrt` without negative
values, for every sorted document that holds two different lexemes `a` and `b`, each
with exactly one position, at different offsets, with level weights `w1` and `w2`, and
the query `a & b`, `calc_rank` with no normalisation flag returns
`sqrt(w1 * w2 * word_distance(|p1 - p2|))`. -/
theorem calc_rank_and_two_terms (m : MathFns F) (hsqrt : ∀ x, 0 ≤ m.sqrt x)
    (qsort_arg : List QueryOperand → List QueryOperand) (hq : QsortContract qsort_arg)
    (w : List F) (t : TSVector) (hs : lexeme_sorted t) (a b : QueryOperand)
    (ha : a.prefix_flag = false) (hb : b.prefix_flag = false) (hab : a.lexeme ≠ b.lexeme)
    (i j p1 p2 : Nat) (hi : t[i]? = some ⟨a.lexeme, true, [p1]⟩)
    (hj : t[j]? = some ⟨b.lexeme, true, [p2]⟩) (hp : WEP_GETPOS p1 ≠ WEP_GETPOS p2)
    (left : Nat) :
    calc_rank m qsort_arg w t
        [QueryItem.QI_OPR Oper.OP_AND left, QueryItem.QI_VAL a, QueryItem.QI_VAL b] 0 =
      some (m.sqrt (wpos w p1 * wpos w p2 *
        word_distance m (Int.natAbs ((WEP_GETPOS p1 : Int) - (WEP_GETPOS p2 : Int)) : Nat))) := by
  have hfa := find_wordentry_entries_exact t a hs ha i _ hi rfl
  have hfb := find_wordentry_entries_exact t b hs hb j _ hj rfl
  have ht : ¬ t.length = 0 := by
    have := (List.getElem?_eq_some.1 hi).1
    omega
  have hsorted := SortAndUniqItems_two qsort_arg hq Oper.OP_AND left a b hab
  have hkernel : calc_rank_and m qsort_arg w t
      [QueryItem.QI_OPR Oper.OP_AND left, QueryItem.QI_VAL a, QueryItem.QI_VAL b] =
      some (m.sqrt (wpos w p1 * wpos w p2 *
        word_distance m (Int.natAbs ((WEP_GETPOS p1 : Int) - (WEP_GETPOS p2 : Int)) : Nat))) := by
    have h2 : ∀ x y : QueryOperand, ¬ ([x, y].length < 2) := by
      intro x y; simp
    unfold calc_rank_and
    rw [hsorted]
    by_cases hlt : tsCompareString a.lexeme b.lexeme false < 0
    · simp only [if_pos hlt, if_neg (h2 a b)]
      exact calc_rank_and_items_two m w t a b _ _ p1 p2 hfa hfb hp
    · simp only [if_neg hlt, if_neg (h2 b a)]
      rw [calc_rank_and_items_two m w t b a _ _ p2 p1 hfb hfa (Ne.symm hp)]
      have hsym : Int.natAbs ((WEP_GETPOS p2 : Int) - (WEP_GETPOS p1 : Int)) =
          Int.natAbs ((WEP_GETPOS p1 : Int) - (WEP_GETPOS p2 : Int)) := by omega
      rw [hsym, mul_comm (wpos w p2) (wpos w p1)]
  simp only [calc_rank, ht, List.length_cons, Nat.succ_ne_zero, or_self, if_false,
    root_is_and_or_phrase, if_true, hkernel, calc_rank_normalize, Nat.zero_and, ne_eq,
    not_true_eq_false, false_and]
  rw [if_neg (not_lt.2 (hsqrt _))]

end TwoTerms

/-! ## The worked example of the pairwise score, over the real numbers -/

theorem exp_two_thirds_bounds : (1.94 : ℝ) < Real.exp (2 / 3) ∧ Real.exp (2 / 3) < 1.95 := by
  have hcube : Real.exp (2 / 3) ^ 3 = Real.exp 1 ^ 2 := by
    rw [← Real.exp_nat_mul, ← Real.exp_nat_mul]
    norm_num
  have hlo := Real.exp_one_gt_d9
  have hhi := Real.exp_one_lt_d9
  have hpos : (0 : ℝ) < Real.exp (2 / 3) := Real.exp_pos _
  have he2lo : (7.38 : ℝ) < Real.exp 1 ^ 2 := by nlinarith
  have he2hi : Real.exp 1 ^ 2 < (7.39 : ℝ) := by nlinarith
  constructor
  · by_contra hc
    have hle : Real.exp (2 / 3) ≤ 1.94 := not_lt.1 hc
    have : Real.exp (2 / 3) ^ 3 ≤ (1.94 : ℝ) ^ 3 := pow_le_pow_left₀ hpos.le hle 3
    norm_num at this
    linarith
  · by_contra hc
    have hle : (1.95 : ℝ) ≤ Real.exp (2 / 3) := not_lt.1 hc
    have : (1.95 : ℝ) ^ 3 ≤ Real.exp (2 / 3) ^ 3 := pow_le_pow_left₀ (by norm_num) hle 3
    norm_num at this
    linarith

/-- The score `sqrt(1.0 * 0.1 * word_distance(4))` is `0.3012` to four decimals. -/
theorem cat_dog_score_bounds :
    |Real.sqrt (1.0 * 0.1 * (1.0 / (1.005 + 0.05 * Real.exp ((4 : ℝ) / 1.5 - 2)))) - 0.3012|
      < 0.00005 := by
  have harg : ((4 : ℝ) / 1.5 - 2) = 2 / 3 := by norm_num
  rw [harg]
  obtain ⟨hlo, hhi⟩ := exp_two_thirds_bounds
  have hden : (0 : ℝ) < 1.005 + 0.05 * Real.exp (2 / 3) := by positivity
  rw [abs_lt]
  constructor
  · have : (0.30115 : ℝ) < Real.sqrt (1.0 * 0.1 * (1.0 / (1.005 + 0.05 * Real.exp (2 / 3)))) := by
      rw [Real.lt_sqrt (by norm_num)]
      rw [show (1.0 : ℝ) * 0.1 * (1.0 / (1.005 + 0.05 * Real.exp (2 / 3))) =
        0.1 / (1.005 + 0.05 * Real.exp (2 / 3)) by ring]
      rw [lt_div_iff₀ hden]
      nlinarith
    linarith
  · have : Real.sqrt (1.0 * 0.1 * (1.0 / (1.005 + 0.05 * Real.exp (2 / 3)))) < (0.30125 : ℝ) := by
      rw [Real.sqrt_lt' (by norm_num)]
      rw [show (1.0 : ℝ) * 0.1 * (1.0 / (1.005 + 0.05 * Real.exp (2 / 3))) =
        0.1 / (1.005 + 0.05 * Real.exp (2 / 3)) by ring]
      rw [div_lt_iff₀ hden]
      nlinarith
    linarith

/-- C9 on the document with `cat` at offset 1, level A (1.0), and `dog` at offset 5,
level D (0.1), and the query `cat & dog`, over the real numbers with the default weights:
the rank is `sqrt(1.0 * 0.1 * word_distance(4))`, which is `0.3012` to four decimals. -/
theorem calc_rank_and_two_terms_witness :
    calc_rank (⟨Real.sqrt, Real.exp, Real.log⟩ : MathFns ℝ) insertion_sort weights doc_cat_dog
        [QueryItem.QI_OPR Oper.OP_AND 2, QueryItem.QI_VAL operand_cat,
          QueryItem.QI_VAL operand_dog] 0 =
      some (Real.sqrt (1.0 * 0.1 * (1.0 / (1.005 + 0.05 * Real.exp ((4 : ℝ) / 1.5 - 2))))) ∧
    |Real.sqrt (1.0 * 0.1 * (1.0 / (1.005 + 0.05 * Real.exp ((4 : ℝ) / 1.5 - 2)))) - 0.3012|
      < 0.00005 := by
  refine ⟨?_, cat_dog_score_bounds⟩
  have h := calc_rank_and_two_terms (⟨Real.sqrt, Real.exp, Real.log⟩ : MathFns ℝ)
    Real.sqrt_nonneg insertion_sort insertion_sort_contract weights doc_cat_dog (by decide)
    operand_cat operand_dog rfl rfl (by decide) 0 1 49153 5 rfl rfl (by decide) 2
  rw [h]
  have h1 : wpos (weights : List ℝ) 49153 = 1.0 := by
    simp [wpos, weights, WEP_GETWEIGHT]
  have h2 : wpos (weights : List ℝ) 5 = 0.1 := by
    simp [wpos, weights, WEP_GETWEIGHT]
  have h3 : Int.natAbs ((WEP_GETPOS 49153 : Int) - (WEP_GETPOS 5 : Int)) = 4 := by decide
  rw [h1, h2, h3]
  simp only [word_distance]
  norm_num

/-! ## The per-term score -/

/-- The binary search of `find_wordentry` ends within `StopHigh - StopLow` iterations on
any array of entries. -/
theorem find_wordentry_search_isSome (t : TSVector) (item : QueryOperand) (n : Nat) :
    ∀ (fuel low high mid : Nat), high - low ≤ fuel → high ≤ t.length →
      ∃ r, find_wordentry_search t item fuel low high mid n = some r := by
  intro fuel
  induction fuel with
  | zero =>
    intro low high mid hf _
    have : ¬ low < high := by omega
    exact ⟨(low, high, mid, n), by unfold find_wordentry_search; simp [this]⟩
  | succ fuel ih =>
    intro low high mid hf hlen
    by_cases hlt : low < high
    · have hm : low + (high - low) / 2 < t.length := by omega
      have hget : t[low + (high - low) / 2]? = some t[low + (high - low) / 2] :=
        List.getElem?_eq_getElem hm
      unfold find_wordentry_search
      simp only [if_pos hlt, hget]
      split_ifs
      · exact ⟨_, rfl⟩
      · exact ih _ _ _ (by omega) hlen
      · exact ih _ _ _ (by omega) (le_of_lt hm)
    · exact ⟨(low, high, mid, n), by unfold find_wordentry_search; simp [hlt]⟩

theorem find_wordentry_isSome (t : TSVector) (item : QueryOperand) :
    ∃ r, find_wordentry t item = some r := by
  obtain ⟨r, hr⟩ := find_wordentry_search_isSome t item 0 t.length 0 t.length t.length
    (by omega) le_rfl
  exact ⟨_, by unfold find_wordentry; rw [hr]⟩

section PerTerm

variable {F : Type} [LinearOrderedField F]

theorem calc_rank_or_entries_eq (w : List F) (es : List WordEntry) :
    ∀ res : F, calc_rank_or_entries w es res =
      res + (es.map (fun e => calc_rank_or_term w (calc_rank_or_post e))).sum := by
  induction es with
  | nil => intro res; simp [calc_rank_or_entries]
  | cons e es ih =>
    intro res
    simp only [calc_rank_or_entries, ih, List.map_cons, List.sum_cons]
    ring

theorem calc_rank_or_items_eq (w : List F) (t : TSVector) (items : List QueryOperand) :
    ∀ res : F, calc_rank_or_items w t items res =
      some (res + (items.map (fun item =>
        ((matched_entries t item).map
          (fun e => calc_rank_or_term w (calc_rank_or_post e))).sum)).sum) := by
  induction items with
  | nil => intro res; simp [calc_rank_or_items]
  | cons item rest ih =>
    intro res
    obtain ⟨r, hr⟩ := find_wordentry_isSome t item
    simp only [calc_rank_or_items, hr, ih, calc_rank_or_entries_eq, matched_entries,
      List.map_cons, List.sum_cons]
    congr 1
    ring

end PerTerm

section PerTermScore

variable {F : Type} [LinearOrderedField F]

theorem wpos_nonneg (w : List F) (hw : ∀ x ∈ w, 0 ≤ x) (p : Nat) : 0 ≤ wpos w p := by
  unfold wpos
  by_cases h : WEP_GETWEIGHT p < w.length
  · rw [List.getD_eq_getElem _ _ h]
    exact hw _ (List.getElem_mem h)
  · rw [List.getD_eq_default _ _ (not_lt.1 h)]

end PerTermScore

/-! ## The worked example of the per-term score, over the real numbers -/

section Averaging

variable {F : Type} [LinearOrderedField F]

theorem operand_term_score_unmatched (w : List F) (t : TSVector) (item : QueryOperand)
    (h : operand_matched t item = false) : operand_term_score w t item = 0 := by
  unfold operand_matched at h
  have hnil : matched_entries t item = [] := by
    cases hm : matched_entries t item with
    | nil => rfl
    | cons e es => rw [hm] at h; simp at h
  simp [operand_term_score, hnil]

theorem sum_matched_eq (w : List F) (t : TSVector) (items : List QueryOperand) :
    ((items.filter (operand_matched t)).map (operand_term_score w t)).sum =
      (items.map (operand_term_score w t)).sum := by
  induction items with
  | nil => rfl
  | cons item rest ih =>
    by_cases h : operand_matched t item = true
    · simp only [List.filter_cons, h, if_true, List.map_cons, List.sum_cons, ih]
    · have h2 : operand_matched t item = false := by simpa using h
      simp only [List.filter_cons, h2, List.map_cons, List.sum_cons,
        operand_term_score_unmatched w t item h2, zero_add]
      simpa using ih

/-- C11, as amended. Per-term averaging: for every document and query, the score
returned by `calc_rank_or` is the sum of the term scores of the matched operands (the
distinct operands found in the document) divided by the number of distinct operands of
the query, matched or not; and it is 0 when no operand is matched. -/
theorem calc_rank_or_average (qsort_arg : List QueryOperand → List QueryOperand)
    (w : List F) (t : TSVector) (q : TSQuery) :
    (0 < (SortAndUniqItems qsort_arg q).length →
      calc_rank_or qsort_arg w t q =
        some ((((SortAndUniqItems qsort_arg q).filter (operand_matched t)).map
            (operand_term_score w t)).sum / ((SortAndUniqItems qsort_arg q).length : F))) ∧
    ((∀ item ∈ SortAndUniqItems qsort_arg q, operand_matched t item = false) →
      calc_rank_or qsort_arg w t q = some 0) := by
  have hrun : calc_rank_or qsort_arg w t q =
      some (if 0 < (SortAndUniqItems qsort_arg q).length then
        ((SortAndUniqItems qsort_arg q).map (operand_term_score w t)).sum /
          ((SortAndUniqItems qsort_arg q).length : F)
        else ((SortAndUniqItems qsort_arg q).map (operand_term_score w t)).sum) := by
    unfold calc_rank_or
    simp only [calc_rank_or_items_eq]
    norm_num
    rfl
  constructor
  · intro hpos
    rw [hrun, if_pos hpos, sum_matched_eq]
  · intro hnone
    have hzero : ((SortAndUniqItems qsort_arg q).map (operand_term_score w t)).sum = 0 := by
      apply List.sum_eq_zero
      intro x hx
      obtain ⟨item, hitem, rfl⟩ := List.mem_map.1 hx
      exact operand_term_score_unmatched w t item (hnone item hitem)
    rw [hrun, hzero]
    simp

end Averaging

/-- C11 fails as stated: on the document with the one lexeme `cat` (one position, level
A) the query `cat | dog` has one matched operand, whose term score is
`1 / 1.64493406685`, and `calc_rank_or` returns half of it, the query having two
distinct operands. -/
theorem calc_rank_or_matched_count_counterexample :
    ((SortAndUniqItems insertion_sort query_cat_or_dog).filter
      (operand_matched doc_cat)).length = 1 ∧
    (((SortAndUniqItems insertion_sort query_cat_or_dog).filter (operand_matched doc_cat)).map
      (operand_term_score (weights : List ℚ) doc_cat)).sum = 1 / 1.64493406685 ∧
    calc_rank_or insertion_sort (weights : List ℚ) doc_cat query_cat_or_dog =
      some (1 / 1.64493406685 / 2) ∧
    (1 / 1.64493406685 / 2 : ℚ) ≠ 1 / 1.64493406685 / 1 := by
  have hitems : SortAndUniqItems insertion_sort query_cat_or_dog = [operand_cat, operand_dog] := by
    decide
  have hcat : matched_entries doc_cat operand_cat = [⟨[99, 97, 116], true, [49153]⟩] := by
    decide
  have hdog : matched_entries doc_cat operand_dog = [] := by decide
  have hmc : operand_matched doc_cat operand_cat = true := by decide
  have hmd : operand_matched doc_cat operand_dog = false := by decide
  have h1 : wpos (weights : List ℚ) 49153 = 1.0 := by simp [wpos, weights, WEP_GETWEIGHT]
  have hterm : calc_rank_or_term (weights : List ℚ) [49153] = 1 / 1.64493406685 := by
    simp only [calc_rank_or_term, calc_rank_or_positions, h1]
    norm_num
  have hscore : operand_term_score (weights : List ℚ) doc_cat operand_cat =
      1 / 1.64493406685 := by
    simp only [operand_term_score, hcat, List.map_cons, List.map_nil, List.sum_cons,
      List.sum_nil, calc_rank_or_post, if_true, hterm]
    norm_num
  have hscored : operand_term_score (weights : List ℚ) doc_cat operand_dog = 0 := by
    simp [operand_term_score, hdog]
  refine ⟨by rw [hitems]; decide, ?_, ?_, by norm_num⟩
  · rw [hitems]
    simp only [List.filter_cons, hmc, hmd, if_true, List.filter_nil, List.map_cons,
      List.map_nil, List.sum_cons, List.sum_nil, hscore]
    norm_num
  · unfold calc_rank_or
    simp only [calc_rank_or_items_eq, hitems, List.map_cons, List.map_nil, List.sum_cons,
      List.sum_nil, hcat, hdog, calc_rank_or_post, if_true, hterm, List.length_cons,
      List.length_nil]
    norm_num

/-- C11, as amended, on the document with the one lexeme `cat` and the query `cat | dog`
over the rationals. -/
theorem calc_rank_or_average_witness :
    calc_rank_or insertion_sort (weights : List ℚ) doc_cat query_cat_or_dog =
      some ((((SortAndUniqItems insertion_sort query_cat_or_dog).filter
          (operand_matched doc_cat)).map (operand_term_score (weights : List ℚ) doc_cat)).sum /
        ((SortAndUniqItems insertion_sort query_cat_or_dog).length : ℚ)) :=
  (calc_rank_or_average insertion_sort (weights : List ℚ) doc_cat query_cat_or_dog).1
    (by decide)

/-! ## Whole-document normalisation -/

section Normalisation

variable {F : Type} [LinearOrderedField F]

theorem cnt_length_eq (t : TSVector) : cnt_length t = total_position_count t := by
  induction t with
  | nil => rfl
  | cons e es ih => simp only [cnt_length, total_position_count, List.map_cons, List.sum_cons, ih]

theorem cnt_length_pos (t : TSVector) (ht : t ≠ []) : 0 < cnt_length t := by
  cases t with
  | nil => exact absurd rfl ht
  | cons e es =>
    simp only [cnt_length]
    split_ifs with h
    · omega
    · omega

/-- C12. Normalisation: for every non-empty document and non-empty query whose kernel
returns `res`, with `r` the value of `res` after the negative clamp, and every `method`,
`calc_rank` returns `r` divided by each divisor whose flag is set (the base-2 logarithm
of the total position count plus one, the total position count, the distinct-term count
`t->size`, the base-2 logarithm of that count plus one, the logarithms taken as
`log(x) / log(2.0)`) and then mapped through `x / (x + 1)` exactly when that flag is set;
the total position count counts a lexeme without positions as one. -/
theorem calc_rank_normalization (m : MathFns F)
    (qsort_arg : List QueryOperand → List QueryOperand) (w : List F) (t : TSVector)
    (q : TSQuery) (method : Nat) (ht : t ≠ []) (hq : q ≠ []) :
    calc_rank m qsort_arg w t q method =
      ((if root_is_and_or_phrase q then calc_rank_and m qsort_arg w t q
        else calc_rank_or qsort_arg w t q).map
        (fun res => rank_normalized_spec (fun x => m.log x / m.log 2.0) method
          (total_position_count t) t.length (if res < 0 then 1 / 10 ^ 20 else res))) := by
  have ht2 : ¬ t.length = 0 := by simpa using ht
  have hq2 : ¬ q.length = 0 := by simpa using hq
  have htpos : 0 < t.length := by omega
  have hcpos : 0 < cnt_length t := cnt_length_pos t ht
  have hstep : ∀ (c : Prop) [Decidable c] (x d : F),
      (if c then x / d else x) = x / (if c then d else 1) := by
    intro c _ x d
    split_ifs <;> simp
  have hnorm : ∀ res : F, calc_rank_normalize m t method res =
      rank_normalized_spec (fun x => m.log x / m.log 2.0) method (total_position_count t)
        t.length (if res < 0 then 1 / 10 ^ 20 else res) := by
    have h1 : ∀ r : F, (if method &&& RANK_NORM_LOGLENGTH ≠ 0 ∧ 0 < t.length then
        r / (m.log ((cnt_length t + 1 : Nat) : F) / m.log 2.0) else r) =
        r / (if method &&& 0x01 ≠ 0 then m.log ((total_position_count t : F) + 1) /
          m.log 2.0 else 1) := by
      intro r
      simp only [RANK_NORM_LOGLENGTH, htpos, and_true, hstep, cnt_length_eq, Nat.cast_add,
        Nat.cast_one]
    have h2 : ∀ r : F, (if method &&& RANK_NORM_LENGTH ≠ 0 then
        (if 0 < cnt_length t then r / (cnt_length t : F) else r) else r) =
        r / (if method &&& 0x02 ≠ 0 then (total_position_count t : F) else 1) := by
      intro r
      simp only [RANK_NORM_LENGTH, if_pos hcpos, hstep]
      rw [cnt_length_eq]
    have h3 : ∀ r : F, (if method &&& RANK_NORM_UNIQ ≠ 0 ∧ 0 < t.length then
        r / (t.length : F) else r) =
        r / (if method &&& 0x08 ≠ 0 then (t.length : F) else 1) := by
      intro r
      simp only [RANK_NORM_UNIQ, htpos, and_true, hstep]
    have h4 : ∀ r : F, (if method &&& RANK_NORM_LOGUNIQ ≠ 0 ∧ 0 < t.length then
        r / (m.log ((t.length + 1 : Nat) : F) / m.log 2.0) else r) =
        r / (if method &&& 0x10 ≠ 0 then m.log ((t.length : F) + 1) / m.log 2.0 else 1) := by
      intro r
      simp only [RANK_NORM_LOGUNIQ, htpos, and_true, hstep, Nat.cast_add, Nat.cast_one]
    have hG : ∀ r0 : F,
        (fun r5 : F => if method &&& RANK_NORM_RDIVRPLUS1 ≠ 0 then r5 / (r5 + 1) else r5)
        ((fun r4 : F => if method &&& RANK_NORM_LOGUNIQ ≠ 0 ∧ 0 < t.length then
            r4 / (m.log ((t.length + 1 : Nat) : F) / m.log 2.0) else r4)
          ((fun r3 : F => if method &&& RANK_NORM_UNIQ ≠ 0 ∧ 0 < t.length then
              r3 / (t.length : F) else r3)
            ((fun r2 : F => if method &&& RANK_NORM_LENGTH ≠ 0 then
                (if 0 < cnt_length t then r2 / (cnt_length t : F) else r2) else r2)
              ((fun r1 : F => if method &&& RANK_NORM_LOGLENGTH ≠ 0 ∧ 0 < t.length then
                  r1 / (m.log ((cnt_length t + 1 : Nat) : F) / m.log 2.0) else r1) r0)))) =
        rank_normalized_spec (fun x => m.log x / m.log 2.0) method (total_position_count t)
          t.length r0 := by
      intro r0
      simp only [h1, h2, h3, h4]
      rfl
    intro res
    exact hG (if res < 0 then 1 / 10 ^ 20 else res)
  simp only [calc_rank, ht2, hq2, or_self, if_false]
  cases (if root_is_and_or_phrase q then calc_rank_and m qsort_arg w t q
      else calc_rank_or qsort_arg w t q) with
  | none => rfl
  | some res => simp only [Option.map_some', hnorm]

end Normalisation

/-- C12 on the document of four lexemes and the query `cat | dog`, over the real
numbers; and the example of the normalisation: with only the distinct-term-count flag
(`0x08`) and four distinct terms, the raw score `1.0` becomes `0.25`. -/
theorem calc_rank_normalization_witness :
    calc_rank (⟨Real.sqrt, Real.exp, Real.log⟩ : MathFns ℝ) insertion_sort (weights : List ℝ)
        doc_four_terms query_cat_or_dog 0x08 =
      ((if root_is_and_or_phrase query_cat_or_dog then
          calc_rank_and (⟨Real.sqrt, Real.exp, Real.log⟩ : MathFns ℝ) insertion_sort
            (weights : List ℝ) doc_four_terms query_cat_or_dog
        else calc_rank_or insertion_sort (weights : List ℝ) doc_four_terms
          query_cat_or_dog).map
        (fun res => rank_normalized_spec (fun x => Real.log x / Real.log 2.0) 0x08
          (total_position_count doc_four_terms) doc_four_terms.length
          (if res < 0 then 1 / 10 ^ 20 else res))) ∧
    calc_rank_normalize (⟨Real.sqrt, Real.exp, Real.log⟩ : MathFns ℝ) doc_four_terms 0x08
      (1.0 : ℝ) = 0.25 ∧
    rank_normalized_spec (fun x => Real.log x / Real.log 2.0) 0x08
      (total_position_count doc_four_terms) doc_four_terms.length (1.0 : ℝ) = 0.25 := by
  refine ⟨calc_rank_normalization _ insertion_sort _ doc_four_terms query_cat_or_dog 0x08
    (by decide) (by decide), ?_, ?_⟩
  · have e1 : (0x08 : Nat) &&& 0x01 = 0 := by decide
    have e2 : (0x08 : Nat) &&& 0x02 = 0 := by decide
    have e3 : (0x08 : Nat) &&& 0x08 ≠ 0 := by decide
    have e4 : (0x08 : Nat) &&& 0x10 = 0 := by decide
    have e5 : (0x08 : Nat) &&& 0x20 = 0 := by decide
    simp only [calc_rank_normalize, RANK_NORM_LOGLENGTH, RANK_NORM_LENGTH, RANK_NORM_UNIQ,
      RANK_NORM_LOGUNIQ, RANK_NORM_RDIVRPLUS1, doc_four_terms, e1, e2, e3, e4, e5]
    norm_num
  · have e1 : (0x08 : Nat) &&& 0x01 = 0 := by decide
    have e2 : (0x08 : Nat) &&& 0x02 = 0 := by decide
    have e3 : (0x08 : Nat) &&& 0x08 ≠ 0 := by decide
    have e4 : (0x08 : Nat) &&& 0x10 = 0 := by decide
    have e5 : (0x08 : Nat) &&& 0x20 = 0 := by decide
    simp only [rank_normalized_spec, doc_four_terms, e1, e2, e3, e4, e5]
    norm_num

/-! ## The proximity kernel -/

section Proximity

variable {F : Type} [LinearOrderedField F]

/-- C13. Proximity kernel: given an `exp` that is positive and strictly increasing,
`word_distance(d)` equals `1e-30` for every integer `d > 100`, and on the integers
`1 <= d <= 100` it equals `1 / (1.005 + 0.05 * exp(d / 1.5 - 2))` and is strictly
decreasing. -/
theorem word_distance_kernel (m : MathFns F) (hmono : StrictMono m.exp)
    (hpos : ∀ x, 0 < m.exp x) :
    (∀ d : Int, 100 < d → word_distance m d = 1 / 10 ^ 30) ∧
    (∀ d : Int, 1 ≤ d → d ≤ 100 →
      word_distance m d = 1 / (1.005 + 0.05 * m.exp ((d : F) / 1.5 - 2))) ∧
    (∀ d1 d2 : Int, 1 ≤ d1 → d1 < d2 → d2 ≤ 100 →
      word_distance m d2 < word_distance m d1) := by
  have hform : ∀ d : Int, d ≤ 100 →
      word_distance m d = 1 / (1.005 + 0.05 * m.exp ((d : F) / 1.5 - 2)) := by
    intro d hd
    unfold word_distance
    rw [if_neg (not_lt.2 hd)]
    norm_num
  refine ⟨?_, fun d _ hd => hform d hd, ?_⟩
  · intro d hd
    unfold word_distance
    rw [if_pos hd]
  · intro d1 d2 _ hlt h2
    rw [hform d1 (by omega), hform d2 h2]
    have hcast : (d1 : F) < (d2 : F) := by exact_mod_cast hlt
    have harg : (d1 : F) / 1.5 - 2 < (d2 : F) / 1.5 - 2 := by
      have h15 : (0 : F) < 1.5 := by norm_num
      have := div_lt_div_of_pos_right hcast h15
      linarith
    have hexp := hmono harg
    have hden1 : (0 : F) < 1.005 + 0.05 * m.exp ((d1 : F) / 1.5 - 2) := by
      have := hpos ((d1 : F) / 1.5 - 2)
      have h2 : (0 : F) < 1.005 := by norm_num
      have h3 : (0 : F) < 0.05 := by norm_num
      positivity
    have hden : 1.005 + 0.05 * m.exp ((d1 : F) / 1.5 - 2) <
        1.005 + 0.05 * m.exp ((d2 : F) / 1.5 - 2) := by
      have h3 : (0 : F) < 0.05 := by norm_num
      have := mul_lt_mul_of_pos_left hexp h3
      linarith
    exact one_div_lt_one_div_of_lt hden1 hden

end Proximity

/-- C13 over the real numbers with the exponential function, at the distances 101, and
1 and 2. -/
theorem word_distance_kernel_witness :
    word_distance (⟨Real.sqrt, Real.exp, Real.log⟩ : MathFns ℝ) 101 = 1 / 10 ^ 30 ∧
    word_distance (⟨Real.sqrt, Real.exp, Real.log⟩ : MathFns ℝ) 2 <
      word_distance (⟨Real.sqrt, Real.exp, Real.log⟩ : MathFns ℝ) 1 :=
  ⟨(word_distance_kernel (⟨Real.sqrt, Real.exp, Real.log⟩ : MathFns ℝ) Real.exp_strictMono
      Real.exp_pos).1 101 (by norm_num),
    (word_distance_kernel (⟨Real.sqrt, Real.exp, Real.log⟩ : MathFns ℝ) Real.exp_strictMono
      Real.exp_pos).2.2 1 2 (by norm_num) (by norm_num) (by norm_num)⟩

/-! ## Delegation of the pairwise kernel -/

section Delegation

variable {F : Type} [LinearOrderedField F]

/-- The per-term score of a query whose distinct operands are `cat` and `dog` on the
document with the one lexeme `cat` (one position, level A). -/
theorem calc_rank_or_doc_cat (q : TSQuery)
    (hq : SortAndUniqItems insertion_sort q = [operand_cat, operand_dog]) :
    calc_rank_or insertion_sort (weights : List F) doc_cat q =
      some (1 / 1.64493406685 / 2) := by
  have hcat : matched_entries doc_cat operand_cat = [⟨[99, 97, 116], true, [49153]⟩] := by
    decide
  have hdog : matched_entries doc_cat operand_dog = [] := by decide
  have h1 : wpos (weights : List F) 49153 = 1.0 := by simp [wpos, weights, WEP_GETWEIGHT]
  have hterm : calc_rank_or_term (weights : List F) [49153] = 1 / 1.64493406685 := by
    simp only [calc_rank_or_term, calc_rank_or_positions, h1]
    norm_num
  unfold calc_rank_or
  simp only [calc_rank_or_items_eq, hq, List.map_cons, List.map_nil, List.sum_cons,
    List.sum_nil, hcat, hdog, calc_rank_or_post, if_true, hterm, List.length_cons,
    List.length_nil]
  norm_num

/-- The pairwise kernel on the same document and operands finds no pair. -/
theorem calc_rank_and_doc_cat (m : MathFns F) (q : TSQuery)
    (hq : SortAndUniqItems insertion_sort q = [operand_cat, operand_dog]) :
    calc_rank_and m insertion_sort (weights : List F) doc_cat q = some (-1) := by
  have hcat : find_wordentry doc_cat operand_cat = some ⟨some 0, 1⟩ := by decide
  have hdog : find_wordentry doc_cat operand_dog = some ⟨none, 0⟩ := by decide
  have hec : (FoundEntries.mk (some 0) 1).entries doc_cat =
      [⟨[99, 97, 116], true, [49153]⟩] := by decide
  have hed : (FoundEntries.mk none 0).entries doc_cat = [] := by decide
  unfold calc_rank_and
  simp only [hq, List.length_cons, List.length_nil, calc_rank_and_items, hcat, hdog, hec, hed,
    calc_rank_and_entries, calc_rank_and_entry, List.foldl_nil, List.nil_append]
  norm_num

/-- C15, as amended. Fewer than two terms: for every document and every query whose
number of distinct operands (the size `SortAndUniqItems` reports) is less than 2,
`calc_rank_and` returns exactly the value `calc_rank_or` returns for the same weights,
document and query. -/
theorem calc_rank_and_delegates (m : MathFns F)
    (qsort_arg : List QueryOperand → List QueryOperand) (w : List F) (t : TSVector)
    (q : TSQuery) (hsize : (SortAndUniqItems qsort_arg q).length < 2) :
    calc_rank_and m qsort_arg w t q = calc_rank_or qsort_arg w t q := by
  unfold calc_rank_and
  simp only [if_pos hsize]

end Delegation

/-- C15, as amended, on the document with the one lexeme `cat` and the query
`cat & cat`, over the real numbers. -/
theorem calc_rank_and_delegates_witness :
    calc_rank_and (⟨Real.sqrt, Real.exp, Real.log⟩ : MathFns ℝ) insertion_sort
        (weights : List ℝ) doc_cat query_cat_and_cat =
      calc_rank_or insertion_sort (weights : List ℝ) doc_cat query_cat_and_cat :=
  calc_rank_and_delegates _ insertion_sort _ doc_cat query_cat_and_cat (by decide)

/-- C15 fails as stated: on the document with the one lexeme `cat` the query `cat & dog`
has one matched operand, fewer than 2, and `calc_rank_and` returns the sentinel `-1`
where `calc_rank_or` returns `1 / 1.64493406685 / 2`. -/
theorem calc_rank_and_matched_count_counterexample :
    root_is_and_or_phrase query_cat_and_dog = true ∧
    ((SortAndUniqItems insertion_sort query_cat_and_dog).filter
      (operand_matched doc_cat)).length = 1 ∧
    calc_rank_and (⟨Real.sqrt, Real.exp, Real.log⟩ : MathFns ℝ) insertion_sort
      (weights : List ℝ) doc_cat query_cat_and_dog = some (-1) ∧
    calc_rank_or insertion_sort (weights : List ℝ) doc_cat query_cat_and_dog =
      some (1 / 1.64493406685 / 2) ∧
    (-1 : ℝ) ≠ 1 / 1.64493406685 / 2 := by
  have hq : SortAndUniqItems insertion_sort query_cat_and_dog = [operand_cat, operand_dog] := by
    decide
  refine ⟨by decide, by rw [hq]; decide, calc_rank_and_doc_cat _ _ hq,
    calc_rank_or_doc_cat _ hq, by norm_num⟩

/-! ## The pairs of the pairwise kernel -/

section Pairs

variable {F : Type} [LinearOrderedField F]

/-- The body of the innermost loop, by cases: offsets that differ contribute at their
distance, equal offsets contribute at the distance `MAXENTRYPOS` when one of the vectors
is `POSNULL`, and not at all otherwise. -/
theorem rank_and_pair_cases (m : MathFns F) (w : List F) (posnull : Bool) (post ct : Nat)
    (res : F) :
    rank_and_pair m w posnull post ct res =
      if WEP_GETPOS post ≠ WEP_GETPOS ct then
        noisy_or res (m.sqrt (wpos w post * wpos w ct * word_distance m
          (Int.natAbs ((WEP_GETPOS post : Int) - (WEP_GETPOS ct : Int)) : Nat)))
      else if posnull = true then
        noisy_or res (m.sqrt (wpos w post * wpos w ct * word_distance m (MAXENTRYPOS : Nat)))
      else res := by
  unfold rank_and_pair noisy_or
  by_cases h : WEP_GETPOS post = WEP_GETPOS ct
  · have hd : Int.natAbs ((WEP_GETPOS post : Int) - (WEP_GETPOS ct : Int)) = 0 := by
      rw [h]; simp
    by_cases hp : posnull = true
    · simp [h, hp]
    · simp [h, hp]
  · have hd : Int.natAbs ((WEP_GETPOS post : Int) - (WEP_GETPOS ct : Int)) ≠ 0 := by omega
    simp [h, hd]

theorem foldl_flatMap_eq {α β γ : Type} (f : α → List β) (g : γ → β → γ) (l : List α) :
    ∀ init : γ, (l.flatMap f).foldl g init = l.foldl (fun r a => (f a).foldl g r) init := by
  induction l with
  | nil => intro init; rfl
  | cons a l ih =>
    intro init
    simp only [List.flatMap_cons, List.foldl_append, List.foldl_cons, ih]

theorem calc_rank_and_pairs_eq (m : MathFns F) (w : List F) (posi posk : PosVector) (res : F) :
    calc_rank_and_pairs m w posi posk res =
      (posvector_pairs posi posk).foldl
        (fun r p => rank_and_pair m w p.1 p.2.1 p.2.2 r) res := by
  unfold calc_rank_and_pairs posvector_pairs
  rw [foldl_flatMap_eq]
  congr 1
  funext r post
  rw [List.foldl_map]

theorem calc_rank_and_entry_eq (m : MathFns F) (w : List F) (posi : PosVector)
    (pos : List (Option PosVector)) (res : F) :
    calc_rank_and_entry m w posi pos res =
      (entry_pairs posi pos).foldl (fun r p => rank_and_pair m w p.1 p.2.1 p.2.2 r) res := by
  unfold calc_rank_and_entry entry_pairs
  rw [foldl_flatMap_eq]
  congr 1
  funext r posk
  cases posk with
  | none => rfl
  | some posk => exact calc_rank_and_pairs_eq m w posi posk r

theorem calc_rank_and_entries_eq (m : MathFns F) (w : List F) (pos : List (Option PosVector))
    (es : List WordEntry) :
    ∀ st : Option PosVector × F, es ≠ [] →
      calc_rank_and_entries m w pos es st =
        (last_posvector es,
          (es.flatMap (fun e => entry_pairs (entry_posvector e) pos)).foldl
            (fun r p => rank_and_pair m w p.1 p.2.1 p.2.2 r) st.2) := by
  induction es with
  | nil => intro st h; exact absurd rfl h
  | cons e es ih =>
    intro st _
    cases es with
    | nil =>
      simp only [calc_rank_and_entries, last_posvector, List.flatMap_cons, List.flatMap_nil,
        List.append_nil, calc_rank_and_entry_eq, entry_posvector]
    | cons e2 es2 =>
      simp only [calc_rank_and_entries] at ih ⊢
      rw [ih (none, calc_rank_and_entry m w
        (if e.haspos = true then { isPOSNULL := false, pos := e.pos } else POSNULL) pos st.2)
        (by simp)]
      simp only [last_posvector, List.flatMap_cons, List.foldl_append, calc_rank_and_entry_eq,
        entry_posvector]

/-- The pairwise kernel is the accumulation of the loop body over the pairs it examines. -/
theorem calc_rank_and_items_eq (m : MathFns F) (w : List F) (t : TSVector)
    (items : List QueryOperand) :
    ∀ (pos : List (Option PosVector)) (res : F),
      calc_rank_and_items m w t items pos res =
        some ((items_pairs t items pos).foldl
          (fun r p => rank_and_pair m w p.1 p.2.1 p.2.2 r) res) := by
  induction items with
  | nil => intro pos res; rfl
  | cons item rest ih =>
    intro pos res
    obtain ⟨r, hr⟩ := find_wordentry_isSome t item
    have hm : matched_entries t item = r.entries t := by
      simp only [matched_entries, hr]
    simp only [calc_rank_and_items, hr, items_pairs, hm, List.foldl_append]
    by_cases hnil : r.entries t = []
    · simp only [hnil, calc_rank_and_entries, last_posvector, List.flatMap_nil, List.foldl_nil, ih]
    · rw [calc_rank_and_entries_eq m w pos _ _ hnil, ih]

/-- A pair that does not contribute leaves the score as it is. -/
theorem rank_and_pair_skip (m : MathFns F) (w : List F) (p : Bool × Nat × Nat) (res : F)
    (h : pair_contributes p = false) : rank_and_pair m w p.1 p.2.1 p.2.2 res = res := by
  unfold pair_contributes at h
  simp only [Bool.or_eq_false_iff, decide_eq_false_iff_not, not_not] at h
  rw [rank_and_pair_cases, if_neg (by simp [h.1]), if_neg (by simp [h.2])]

theorem foldl_skip (m : MathFns F) (w : List F) (ps : List (Bool × Nat × Nat)) :
    ∀ res : F, (∀ p ∈ ps, pair_contributes p = false) →
      ps.foldl (fun r p => rank_and_pair m w p.1 p.2.1 p.2.2 r) res = res := by
  induction ps with
  | nil => intro res _; rfl
  | cons p ps ih =>
    intro res h
    simp only [List.foldl_cons, rank_and_pair_skip m w p res (h p (List.mem_cons_self _ _))]
    exact ih res (fun q hq => h q (List.mem_cons_of_mem _ hq))

end Pairs

section Coincident

variable {F : Type} [LinearOrderedField F]

theorem entry_posvector_pos (e : WordEntry) :
    (entry_posvector e).pos = scored_positions e ∧ (entry_posvector e).isPOSNULL = !e.haspos := by
  have hnull : POSNULL = ⟨true, [MAXENTRYPOS - 1]⟩ := by decide
  unfold entry_posvector scored_positions
  by_cases h : e.haspos = true
  · rw [if_pos h, if_pos h, h]
    exact ⟨rfl, rfl⟩
  · have h2 : e.haspos = false := by simpa using h
    rw [if_neg h, if_neg h, h2, hnull]
    exact ⟨rfl, rfl⟩

theorem last_posvector_eq (es : List WordEntry) :
    last_posvector es = es.getLast?.map entry_posvector := by
  induction es with
  | nil => rfl
  | cons e es ih =>
    cases es with
    | nil => rfl
    | cons e2 es2 => simpa [last_posvector] using ih

/-- The pairs of vectors the kernel examines are the pairs of entries, each with its
scored positions and the test that one of the two has no positions. -/
theorem items_pairs_eq_document_pairs (t : TSVector) (items : List QueryOperand) :
    ∀ prev : List (Option WordEntry),
      items_pairs t items (prev.map (Option.map entry_posvector)) =
        (document_pairs t items prev).map (fun p => (p.synthetic, p.post, p.ct)) := by
  induction items with
  | nil => intro prev; rfl
  | cons item rest ih =>
    intro prev
    have hprev : prev.map (Option.map entry_posvector) ++
        [last_posvector (matched_entries t item)] =
        (prev ++ [(matched_entries t item).getLast?]).map (Option.map entry_posvector) := by
      rw [List.map_append, last_posvector_eq]
      rfl
    simp only [items_pairs, document_pairs]
    rw [hprev, ih, List.map_append]
    congr 1
    rw [List.map_flatMap]
    congr 1
    funext ei
    unfold entry_pairs
    rw [List.map_flatMap, List.flatMap_map]
    congr 1
    funext ok
    cases ok with
    | none => rfl
    | some ek =>
      simp only [Option.map_some', posvector_pairs, (entry_posvector_pos ei).1,
        (entry_posvector_pos ei).2, (entry_posvector_pos ek).1, (entry_posvector_pos ek).2,
        List.map_flatMap, List.map_map]
      rfl

theorem matched_entries_subset (t : TSVector) (item : QueryOperand) (e : WordEntry)
    (h : e ∈ matched_entries t item) : e ∈ t := by
  unfold matched_entries at h
  cases hf : find_wordentry t item with
  | none => rw [hf] at h; simp at h
  | some r =>
    rw [hf] at h
    simp only [FoundEntries.entries] at h
    cases hr : r.entry with
    | none => rw [hr] at h; simp at h
    | some first =>
      rw [hr] at h
      exact List.mem_of_mem_drop (List.mem_of_mem_take h)

/-- Every examined pair joins an entry found for one operand with an entry found for
another, at positions each entry is scored with. -/
theorem document_pairs_mem (t : TSVector) (all : List QueryOperand)
    (items : List QueryOperand) :
    ∀ prev : List (Option WordEntry),
      (∀ x ∈ items, x ∈ all) →
      (∀ e, some e ∈ prev → ∃ item ∈ all, e ∈ matched_entries t item) →
      ∀ p ∈ document_pairs t items prev,
        (∃ item ∈ all, p.entry_i ∈ matched_entries t item) ∧
        (∃ item ∈ all, p.entry_k ∈ matched_entries t item) ∧
        p.post ∈ scored_positions p.entry_i ∧ p.ct ∈ scored_positions p.entry_k := by
  induction items with
  | nil => intro prev _ _ p hp; simp [document_pairs] at hp
  | cons item rest ih =>
    intro prev hitems hprev p hp
    simp only [document_pairs, List.mem_append] at hp
    rcases hp with hp | hp
    · obtain ⟨ei, hei, hp⟩ := List.mem_flatMap.1 hp
      obtain ⟨ok, hok, hp⟩ := List.mem_flatMap.1 hp
      cases ok with
      | none => simp at hp
      | some ek =>
        obtain ⟨post, hpost, hp⟩ := List.mem_flatMap.1 hp
        obtain ⟨ct, hct, rfl⟩ := List.mem_map.1 hp
        exact ⟨⟨item, hitems item (List.mem_cons_self _ _), hei⟩, hprev ek hok, hpost, hct⟩
    · refine ih _ (fun x hx => hitems x (List.mem_cons_of_mem _ hx)) ?_ p hp
      intro e he
      rcases List.mem_append.1 he with he | he
      · exact hprev e he
      · have hlast : (matched_entries t item).getLast? = some e :=
          (List.mem_singleton.1 he).symm
        exact ⟨item, hitems item (List.mem_cons_self _ _),
          List.mem_of_getLast?_eq_some hlast⟩

/-- C17. Coincident positions: for every document and every query with at least two
distinct operands, `calc_rank_and` accumulates, from the sentinel `-1`, the position
pairs of the entries found for its operands (each entry scored with its own positions,
or with the one synthetic position at `MAXENTRYPOS - 1` when it has none) by this rule:
a pair with different offsets contributes
`sqrt(weight(post) * weight(ct) * word_distance(|offset difference|))`; a pair with equal
offsets contributes `sqrt(weight(post) * weight(ct) * word_distance(MAXENTRYPOS))` when
at least one of the two entries is scored through the synthetic marker, and nothing when
both have real position lists. -/
theorem calc_rank_and_coincident (m : MathFns F)
    (qsort_arg : List QueryOperand → List QueryOperand) (w : List F) (t : TSVector)
    (q : TSQuery) (h2 : 2 ≤ (SortAndUniqItems qsort_arg q).length) :
    calc_rank_and m qsort_arg w t q =
      some ((document_pairs t (SortAndUniqItems qsort_arg q) []).foldl
        (fun r p =>
          if WEP_GETPOS p.post ≠ WEP_GETPOS p.ct then
            noisy_or r (m.sqrt (wpos w p.post * wpos w p.ct * word_distance m
              (Int.natAbs ((WEP_GETPOS p.post : Int) - (WEP_GETPOS p.ct : Int)) : Nat)))
          else if !p.entry_i.haspos || !p.entry_k.haspos then
            noisy_or r (m.sqrt (wpos w p.post * wpos w p.ct *
              word_distance m (MAXENTRYPOS : Nat)))
          else r) (-1)) ∧
    (∀ p ∈ document_pairs t (SortAndUniqItems qsort_arg q) [],
      (∃ item ∈ SortAndUniqItems qsort_arg q, p.entry_i ∈ matched_entries t item) ∧
      (∃ item ∈ SortAndUniqItems qsort_arg q, p.entry_k ∈ matched_entries t item) ∧
      p.entry_i ∈ t ∧ p.entry_k ∈ t ∧
      p.post ∈ (if p.entry_i.haspos then p.entry_i.pos else [MAXENTRYPOS - 1]) ∧
      p.ct ∈ (if p.entry_k.haspos then p.entry_k.pos else [MAXENTRYPOS - 1])) := by
  constructor
  · have hsim := items_pairs_eq_document_pairs t (SortAndUniqItems qsort_arg q) []
    simp only [List.map_nil] at hsim
    unfold calc_rank_and
    simp only []
    rw [if_neg (by omega), calc_rank_and_items_eq, hsim, List.foldl_map]
    have hneg : (-1.0 : F) = -1 := by norm_num
    rw [hneg]
    congr 2
    funext r p
    rw [rank_and_pair_cases]
    rfl
  · intro p hp
    obtain ⟨hi, hk, hpost, hct⟩ := document_pairs_mem t (SortAndUniqItems qsort_arg q)
      (SortAndUniqItems qsort_arg q) [] (fun x hx => hx) (by simp) p hp
    obtain ⟨ii, hii, hei⟩ := hi
    obtain ⟨ik, hik, hek⟩ := hk
    exact ⟨⟨ii, hii, hei⟩, ⟨ik, hik, hek⟩, matched_entries_subset t ii _ hei,
      matched_entries_subset t ik _ hek, hpost, hct⟩

end Coincident

/-- C17 over the real numbers with the default weights and the query `cat & dog`: `dog` at
offset 16383 against `cat` without positions (equal offsets, one side synthetic) is
scored at the distance `MAXENTRYPOS`; `cat` and `dog` both at offset 5 contribute
nothing, the score staying `-1`; `cat` at offset 1 (level A) and `dog` at offset 5 are
scored at the distance 4. -/
theorem calc_rank_and_coincident_witness :
    calc_rank_and (⟨Real.sqrt, Real.exp, Real.log⟩ : MathFns ℝ) insertion_sort
        (weights : List ℝ) doc_cat_nopos_dog query_cat_and_dog =
      some (Real.sqrt (0.1 * 0.1 * (1 / 10 ^ 30))) ∧
    calc_rank_and (⟨Real.sqrt, Real.exp, Real.log⟩ : MathFns ℝ) insertion_sort
        (weights : List ℝ) doc_cat_dog_same query_cat_and_dog = some (-1) ∧
    calc_rank_and (⟨Real.sqrt, Real.exp, Real.log⟩ : MathFns ℝ) insertion_sort
        (weights : List ℝ) doc_cat_dog query_cat_and_dog =
      some (Real.sqrt (0.1 * 1.0 * word_distance
        (⟨Real.sqrt, Real.exp, Real.log⟩ : MathFns ℝ) 4)) := by
  have hD : wpos (weights : List ℝ) 16383 = 0.1 := by
    have : WEP_GETWEIGHT 16383 = 0 := by decide
    simp [wpos, weights, this]
  have h5 : wpos (weights : List ℝ) 5 = 0.1 := by
    have : WEP_GETWEIGHT 5 = 0 := by decide
    simp [wpos, weights, this]
  have hA : wpos (weights : List ℝ) 49153 = 1.0 := by
    have : WEP_GETWEIGHT 49153 = 3 := by decide
    simp [wpos, weights, this]
  have g1 : WEP_GETPOS 16383 = 16383 := by decide
  have g5 : WEP_GETPOS 5 = 5 := by decide
  have gA : WEP_GETPOS 49153 = 1 := by decide
  have hM : MAXENTRYPOS = 16384 := by decide
  have p1 : document_pairs doc_cat_nopos_dog
      (SortAndUniqItems insertion_sort query_cat_and_dog) [] =
      [⟨⟨[100, 111, 103], true, [16383]⟩, ⟨[99, 97, 116], false, []⟩, 16383, 16383⟩] := by
    decide
  have p2 : document_pairs doc_cat_dog_same
      (SortAndUniqItems insertion_sort query_cat_and_dog) [] =
      [⟨⟨[100, 111, 103], true, [5]⟩, ⟨[99, 97, 116], true, [5]⟩, 5, 5⟩] := by
    decide
  have p3 : document_pairs doc_cat_dog
      (SortAndUniqItems insertion_sort query_cat_and_dog) [] =
      [⟨⟨[100, 111, 103], true, [5]⟩, ⟨[99, 97, 116], true, [49153]⟩, 5, 49153⟩] := by
    decide
  refine ⟨?_, ?_, ?_⟩
  · rw [(calc_rank_and_coincident (⟨Real.sqrt, Real.exp, Real.log⟩ : MathFns ℝ) insertion_sort
      (weights : List ℝ) doc_cat_nopos_dog query_cat_and_dog (by decide)).1, p1]
    simp [g1, hD, hM, noisy_or, word_distance]
  · rw [(calc_rank_and_coincident (⟨Real.sqrt, Real.exp, Real.log⟩ : MathFns ℝ) insertion_sort
      (weights : List ℝ) doc_cat_dog_same query_cat_and_dog (by decide)).1, p2]
    simp [g5]
  · rw [(calc_rank_and_coincident (⟨Real.sqrt, Real.exp, Real.log⟩ : MathFns ℝ) insertion_sort
      (weights : List ℝ) doc_cat_dog query_cat_and_dog (by decide)).1, p3]
    simp [g5, gA, h5, hA, noisy_or]

/-! ## The negative clamp -/

section Clamp

variable {F : Type} [LinearOrderedField F]

/-- The clamp and the normalisations of `calc_rank` leave no negative value, when the
logarithm ratios they divide by are positive. -/
theorem calc_rank_normalize_nonneg (m : MathFns F)
    (hlog : ∀ n : Nat, 0 < n → 0 < m.log ((n + 1 : Nat) : F) / m.log 2.0) (t : TSVector)
    (method : Nat) (res : F) : 0 ≤ calc_rank_normalize m t method res := by
  have h0 : (0 : F) ≤ (if res < 0 then 1 / 10 ^ 20 else res) := by
    split_ifs with h
    · positivity
    · exact not_lt.1 h
  have hdiv : ∀ (c : Prop) [Decidable c] (x d : F), 0 ≤ x → (c → 0 < d) →
      0 ≤ (if c then x / d else x) := by
    intro c _ x d hx hd
    split_ifs with hc
    · exact div_nonneg hx (le_of_lt (hd hc))
    · exact hx
  have h1 := hdiv (method &&& RANK_NORM_LOGLENGTH ≠ 0 ∧ 0 < t.length) _
    (m.log ((cnt_length t + 1 : Nat) : F) / m.log 2.0) h0
    (fun hc => hlog _ (cnt_length_pos t (by
      intro hnil; rw [hnil] at hc; exact absurd hc.2 (by simp))))
  have h2 : ∀ x : F, 0 ≤ x → 0 ≤ (if method &&& RANK_NORM_LENGTH ≠ 0 then
      (if 0 < cnt_length t then x / (cnt_length t : F) else x) else x) := by
    intro x hx
    split_ifs with ha hb
    · exact div_nonneg hx (Nat.cast_nonneg _)
    · exact hx
    · exact hx
  have h3 := fun (x : F) (hx : 0 ≤ x) =>
    hdiv (method &&& RANK_NORM_UNIQ ≠ 0 ∧ 0 < t.length) x (t.length : F) hx
      (fun hc => by exact_mod_cast hc.2)
  have h4 := fun (x : F) (hx : 0 ≤ x) =>
    hdiv (method &&& RANK_NORM_LOGUNIQ ≠ 0 ∧ 0 < t.length) x
      (m.log ((t.length + 1 : Nat) : F) / m.log 2.0) hx (fun hc => hlog _ hc.2)
  have h5 : ∀ x : F, 0 ≤ x →
      0 ≤ (if method &&& RANK_NORM_RDIVRPLUS1 ≠ 0 then x / (x + 1) else x) := by
    intro x hx
    split_ifs
    · exact div_nonneg hx (by linarith)
    · exact hx
  exact h5 _ (h4 _ (h3 _ (h2 _ h1)))

/-- C19, as amended. Negative clamp: given logarithm ratios that are positive,
`calc_rank` never returns a negative value; and for every non-empty document and every
query with an `OP_AND` or `OP_PHRASE` root and at least two distinct operands for which
no position pair contributes, the pairwise score stays at its sentinel `-1` and
`calc_rank` with no normalisation flag returns exactly `1e-20`. -/
theorem calc_rank_negative_clamp (m : MathFns F)
    (hlog : ∀ n : Nat, 0 < n → 0 < m.log ((n + 1 : Nat) : F) / m.log 2.0)
    (qsort_arg : List QueryOperand → List QueryOperand) (w : List F) (t : TSVector)
    (q : TSQuery) :
    (∀ method r, calc_rank m qsort_arg w t q method = some r → 0 ≤ r) ∧
    (t ≠ [] → root_is_and_or_phrase q = true → 2 ≤ (SortAndUniqItems qsort_arg q).length →
      (∀ p ∈ items_pairs t (SortAndUniqItems qsort_arg q) [], pair_contributes p = false) →
      calc_rank_and m qsort_arg w t q = some (-1) ∧
      calc_rank m qsort_arg w t q 0 = some (1 / 10 ^ 20)) := by
  constructor
  · intro method r hr
    unfold calc_rank at hr
    by_cases h0 : t.length = 0 ∨ q.length = 0
    · rw [if_pos h0] at hr
      simp only [Option.some.injEq] at hr
      rw [← hr]; norm_num
    · rw [if_neg h0] at hr
      generalize (if root_is_and_or_phrase q then calc_rank_and m qsort_arg w t q
          else calc_rank_or qsort_arg w t q) = k at hr
      cases k with
      | none => simp at hr
      | some res =>
        simp only [Option.some.injEq] at hr
        rw [← hr]
        exact calc_rank_normalize_nonneg m hlog t method res
  · intro ht hroot hsize hnone
    have hq : q ≠ [] := by
      intro hnil; rw [hnil] at hroot; simp [root_is_and_or_phrase] at hroot
    have hkernel : calc_rank_and m qsort_arg w t q = some (-1) := by
      unfold calc_rank_and
      simp only [if_neg (not_lt.2 hsize), calc_rank_and_items_eq,
        foldl_skip m w _ _ hnone]
      norm_num
    refine ⟨hkernel, ?_⟩
    have ht2 : ¬ t.length = 0 := by simpa using ht
    have hq2 : ¬ q.length = 0 := by simpa using hq
    simp only [calc_rank, ht2, hq2, or_self, if_false, hroot, if_true, hkernel,
      calc_rank_normalize, Nat.zero_and, ne_eq, not_true_eq_false, false_and]
    norm_num

end Clamp

theorem real_log_ratio_pos :
    ∀ n : Nat, 0 < n → 0 < Real.log ((n + 1 : Nat) : ℝ) / Real.log 2.0 := by
  intro n hn
  have h1 : (1 : ℝ) < ((n + 1 : Nat) : ℝ) := by
    have : (1 : ℝ) ≤ (n : ℝ) := by exact_mod_cast hn
    push_cast; linarith
  have h2 : (0 : ℝ) < Real.log 2.0 := Real.log_pos (by norm_num)
  exact div_pos (Real.log_pos h1) h2

/-- C19, as amended, on the document with the one lexeme `cat` and the query `cat & dog`,
over the real numbers: the pairwise score is `-1` and the rank `1e-20`. -/
theorem calc_rank_negative_clamp_witness :
    (∀ method r, calc_rank (⟨Real.sqrt, Real.exp, Real.log⟩ : MathFns ℝ) insertion_sort
      (weights : List ℝ) doc_cat query_cat_and_dog method = some r → 0 ≤ r) ∧
    calc_rank_and (⟨Real.sqrt, Real.exp, Real.log⟩ : MathFns ℝ) insertion_sort
      (weights : List ℝ) doc_cat query_cat_and_dog = some (-1) ∧
    calc_rank (⟨Real.sqrt, Real.exp, Real.log⟩ : MathFns ℝ) insertion_sort
      (weights : List ℝ) doc_cat query_cat_and_dog 0 = some (1 / 10 ^ 20) :=
  ⟨(calc_rank_negative_clamp (⟨Real.sqrt, Real.exp, Real.log⟩ : MathFns ℝ)
      real_log_ratio_pos insertion_sort (weights : List ℝ) doc_cat query_cat_and_dog).1,
    (calc_rank_negative_clamp (⟨Real.sqrt, Real.exp, Real.log⟩ : MathFns ℝ)
      real_log_ratio_pos insertion_sort (weights : List ℝ) doc_cat query_cat_and_dog).2
      (by decide) (by decide) (by decide) (by decide)⟩

/-- C19 fails as stated: on the document with the one lexeme `cat` the query `cat & cat`
has an `OP_AND` root and no position pair at all, and `calc_rank` with no normalisation
flag returns the per-term score `1 / 1.64493406685`, not `1e-20`. -/
theorem calc_rank_single_operand_counterexample :
    doc_cat ≠ [] ∧ root_is_and_or_phrase query_cat_and_cat = true ∧
    items_pairs doc_cat (SortAndUniqItems insertion_sort query_cat_and_cat) [] = [] ∧
    calc_rank (⟨Real.sqrt, Real.exp, Real.log⟩ : MathFns ℝ) insertion_sort
      (weights : List ℝ) doc_cat query_cat_and_cat 0 = some (1 / 1.64493406685) ∧
    (1 / 1.64493406685 : ℝ) ≠ 1 / 10 ^ 20 := by
  have hq : SortAndUniqItems insertion_sort query_cat_and_cat = [operand_cat] := by decide
  have hcat : matched_entries doc_cat operand_cat = [⟨[99, 97, 116], true, [49153]⟩] := by
    decide
  have h1 : wpos (weights : List ℝ) 49153 = 1.0 := by simp [wpos, weights, WEP_GETWEIGHT]
  have hterm : calc_rank_or_term (weights : List ℝ) [49153] = 1 / 1.64493406685 := by
    simp only [calc_rank_or_term, calc_rank_or_positions, h1]
    norm_num
  have hor : calc_rank_or insertion_sort (weights : List ℝ) doc_cat query_cat_and_cat =
      some (1 / 1.64493406685) := by
    unfold calc_rank_or
    simp only [calc_rank_or_items_eq, hq, List.map_cons, List.map_nil, List.sum_cons,
      List.sum_nil, hcat, calc_rank_or_post, if_true, hterm, List.length_cons,
      List.length_nil]
    norm_num
  have hand : calc_rank_and (⟨Real.sqrt, Real.exp, Real.log⟩ : MathFns ℝ) insertion_sort
      (weights : List ℝ) doc_cat query_cat_and_cat = some (1 / 1.64493406685) := by
    unfold calc_rank_and
    simp only [hq, List.length_cons, List.length_nil, hor]
    norm_num
  refine ⟨by decide, by decide, by rw [hq]; decide, ?_, by norm_num⟩
  have hd : ¬ doc_cat.length = 0 := by decide
  have hql : ¬ query_cat_and_cat.length = 0 := by decide
  have hroot : root_is_and_or_phrase query_cat_and_cat = true := by decide
  simp only [calc_rank, hd, hql, or_self, if_false, hroot, if_true, hand,
    calc_rank_normalize, Nat.zero_and, ne_eq, not_true_eq_false, false_and]
  norm_num

/-! ## The size of an encoded payload -/

/-- The bytes written for one `uint16` delta number between 1 and 3. -/
theorem compress_delta_length (d p : Nat) (hd : d < 65536) :
    1 ≤ (compress_delta d p).length ∧ (compress_delta d p).length ≤ 3 := by
  rw [compress_delta]
  split
  · rename_i h1
    simp only [SIXTHBIT] at h1
    rw [compress_delta]
    split
    · rename_i h2
      simp only [SIXTHBIT] at h2
      rw [compress_delta]
      split
      · rename_i h3
        simp only [SIXTHBIT] at h3
        simp only [Nat.shiftRight_eq_div_pow] at h2 h3
        omega
      · simp
    · simp
  · simp

theorem compress_loop_length (xs : List Nat) :
    ∀ prev : Nat, xs.length ≤ (compress_loop prev xs).length ∧
      (compress_loop prev xs).length ≤ 3 * xs.length := by
  induction xs with
  | nil => intro prev; simp [compress_loop]
  | cons p ps ih =>
    intro prev
    have hd := compress_delta_length ((WEP_GETPOS p + 65536 - WEP_GETPOS prev) % 65536) p
      (Nat.mod_lt _ (by norm_num))
    have := ih p
    simp only [compress_loop, List.length_append, List.length_cons]
    omega

/-- C20. Encoded size bound: for every array of `npos` 16-bit position words (any
offsets, any order, any weight level) `compress_pos` writes at least 1 and at most 3
bytes per position, so the length it returns lies between `npos` and `3 * npos` and
within the `2 * npos * sizeof(WordEntryPos) = 4 * npos` data bytes that
`rum_extract_tsvector` allocates for the payload it fills with `compress_pos`. -/
theorem compress_pos_size_bound (pos : List Nat) (_h16 : ∀ p ∈ pos, p < 65536) :
    (∀ (delta : Nat) (p : Nat), delta < 65536 →
      1 ≤ (compress_delta delta p).length ∧ (compress_delta delta p).length ≤ 3) ∧
    pos.length ≤ (compress_pos pos).length ∧
    (compress_pos pos).length ≤ 3 * pos.length ∧
    (compress_pos pos).length ≤ posData_capacity pos.length ∧
    posData_capacity pos.length = 4 * pos.length ∧
    (∀ (vector : TSVector) (i : Nat) (we : WordEntry) (data : List Nat),
      vector[i]? = some we → (rum_extract_tsvector vector).addInfo[i]? = some (some data) →
      data = compress_pos we.pos) := by
  have hlen := compress_loop_length pos 0
  refine ⟨fun d p hd => compress_delta_length d p hd, hlen.1, hlen.2, ?_, ?_, ?_⟩
  · unfold posData_capacity sizeof_WordEntryPos compress_pos
    omega
  · unfold posData_capacity sizeof_WordEntryPos
    omega
  · intro vector i we data hwe hdata
    simp only [rum_extract_tsvector, List.getElem?_map, hwe, Option.map_some',
      Option.some.injEq] at hdata
    split_ifs at hdata with h
    · simp only [Option.some.injEq] at hdata
      exact hdata.symm

/-- C20 on the positions (offset 1, level A), (offset 5, level D), (offset 300, level B). -/
theorem compress_pos_size_bound_witness :
    3 ≤ (compress_pos [49153, 5, 33068]).length ∧
    (compress_pos [49153, 5, 33068]).length ≤ 9 ∧
    (compress_pos [49153, 5, 33068]).length ≤ posData_capacity 3 :=
  ⟨(compress_pos_size_bound [49153, 5, 33068] (by decide)).2.1,
    (compress_pos_size_bound [49153, 5, 33068] (by decide)).2.2.1,
    (compress_pos_size_bound [49153, 5, 33068] (by decide)).2.2.2.1⟩

/-! ## The payload kernels on three operands and on null payloads -/

section PayloadDefects

variable {F : Type} [LinearOrderedField F]

theorem compress_pos_single (p : Nat) (hp : p < 32) : compress_pos [p] = [p] := by
  have h1 : WEP_GETPOS p = p := by
    rw [getpos_eq_mod]; omega
  have h2 : WEP_GETWEIGHT p = 0 := by
    unfold WEP_GETWEIGHT; rw [Nat.shiftRight_eq_div_pow]; omega
  have h3 : WEP_GETPOS 0 = 0 := by decide
  have h4 : ¬ SIXTHBIT ≤ p := by simp only [SIXTHBIT]; omega
  simp only [compress_pos, compress_loop, h1, h3, List.append_nil]
  have h5 : (p + 65536 - 0) % 65536 = p := by omega
  rw [h5, compress_delta]
  simp [h4, h2]
  omega

theorem decompress_pos_small (p : Nat) (hp : p < 32) (rest : List Nat) :
    decompress_pos (p :: rest) 0 = some (rest, p) := by
  have h := decompress_pos_compress_delta 0 p rest (by omega)
  have h1 : WEP_GETPOS p = p := by
    rw [getpos_eq_mod]; omega
  have h3 : WEP_GETPOS 0 = 0 := by decide
  have h5 : (p + 65536 - 0) % 65536 = p := by omega
  have h2 : WEP_GETWEIGHT p = 0 := by
    unfold WEP_GETWEIGHT; rw [Nat.shiftRight_eq_div_pow]; omega
  have h4 : ¬ SIXTHBIT ≤ p := by simp only [SIXTHBIT]; omega
  rw [h1, h3, h5, compress_delta] at h
  simp only [h4, h2, dite_false, Nat.zero_shiftLeft, Nat.or_zero, List.singleton_append] at h
  have h6 : p % 256 = p := by omega
  rwa [h6] at h

/-- C16 fails on three operands: with the payloads of the position lists `[1]`, `[5]`,
`[9]` (offsets, level D) `calc_rank_pos_and` reads past the end of the third payload
when it pairs the third operand with the second, `ptrt` not being set back to the start
of the payload for each `k`; the result is not defined by the payloads. On the first two
payloads alone it returns the score of their one pair. -/
theorem calc_rank_pos_and_three_payloads (m : MathFns F) :
    compress_pos [1] = [1] ∧ compress_pos [5] = [5] ∧ compress_pos [9] = [9] ∧
    calc_rank_pos_and m (weights : List F)
      [some (compress_pos [1]), some (compress_pos [5]), some (compress_pos [9])] 0 = none ∧
    calc_rank_pos_and m (weights : List F) [some (compress_pos [1]), some (compress_pos [5])] 0 =
      some (m.sqrt (0.1 * 0.1 * word_distance m 4)) := by
  have c1 := compress_pos_single 1 (by norm_num)
  have c5 := compress_pos_single 5 (by norm_num)
  have c9 := compress_pos_single 9 (by norm_num)
  have d1 : ∀ rest, decompress_pos (1 :: rest) 0 = some (rest, 1) :=
    decompress_pos_small 1 (by norm_num)
  have d5 : ∀ rest, decompress_pos (5 :: rest) 0 = some (rest, 5) :=
    decompress_pos_small 5 (by norm_num)
  have d9 : ∀ rest, decompress_pos (9 :: rest) 0 = some (rest, 9) :=
    decompress_pos_small 9 (by norm_num)
  have dnil : ∀ pos, decompress_pos [] pos = none := fun pos => rfl
  have w1 : wpos (weights : List F) 1 = 0.1 := by simp [wpos, weights, WEP_GETWEIGHT]
  have w5 : wpos (weights : List F) 5 = 0.1 := by simp [wpos, weights, WEP_GETWEIGHT]
  have g1 : WEP_GETPOS 1 = 1 := by decide
  have g5 : WEP_GETPOS 5 = 5 := by decide
  have g9 : WEP_GETPOS 9 = 9 := by decide
  refine ⟨c1, c5, c9, ?_, ?_⟩
  · rw [c1, c5, c9]
    simp [calc_rank_pos_and, calc_rank_pos_and_i, calc_rank_pos_and_k, calc_rank_pos_and_l,
      calc_rank_pos_and_p, payload_count, payload_ptr, count_pos, HIGHBIT,
      CharPtr.decompress, d1, d5, d9, dnil]
  · rw [c1, c5]
    simp [calc_rank_pos_and, calc_rank_pos_and_i, calc_rank_pos_and_k, calc_rank_pos_and_l,
      calc_rank_pos_and_p, payload_count, payload_ptr, count_pos, HIGHBIT,
      CharPtr.decompress, d1, d5, rank_and_pair, CharPtr.is_posnull, g1, g5, w1, w5]
    intro h
    exfalso
    norm_num at h

end PayloadDefects

section NullPayload

variable {F : Type} [LinearOrderedField F]

theorem decompress_pos_posnull_bytes :
    POSNULL_bytes 0 = [0, 0] ∧
    decompress_pos (POSNULL_bytes 0) 0 = some ([0], 0) ∧
    WEP_SETPOS 0 (MAXENTRYPOS - 1) = 16383 ∧
    POSNULL_bytes 16383 = [255, 63] ∧
    decompress_pos (POSNULL_bytes 16383) 0 = some ([], 20479) ∧
    WEP_GETPOS 20479 = 4095 ∧ WEP_GETWEIGHT 20479 = 1 ∧
    decompress_pos [63, 255] 0 = some ([255], 16415) ∧
    WEP_GETPOS 16415 = 31 ∧ WEP_GETWEIGHT 16415 = 1 := by
  decide

/-- C18 fails: a null payload is decoded with `decompress_pos` from the bytes of the
static word `POSNULL.pos[0]`. While that word is `0` (no earlier call of
`calc_rank_pos_and`) `calc_rank_pos_or` scores the operand as one position at offset 0,
level D, adding `0.1 / 1.64493406685`; once `calc_rank_pos_and` has set the offset of the
word to `MAXENTRYPOS - 1 = 16383`, its bytes `FF 3F` decode to offset 4095, level C (in
the other byte order, `3F FF`, to offset 31, level C), so `calc_rank_pos_or` adds
`0.2 / 1.64493406685`, and `calc_rank_pos_and` pairs the operand at offset 4095, level C:
never offset 16383 with level D, and not independent of earlier calls. -/
theorem calc_rank_pos_null_payload (m : MathFns F) :
    decompress_pos (POSNULL_bytes (WEP_SETPOS 0 (MAXENTRYPOS - 1))) 0 = some ([], 20479) ∧
    WEP_GETPOS 20479 = 4095 ∧ WEP_GETWEIGHT 20479 = 1 ∧
    decompress_pos [63, 255] 0 = some ([255], 16415) ∧
    WEP_GETPOS 16415 = 31 ∧ WEP_GETWEIGHT 16415 = 1 ∧
    calc_rank_pos_or (weights : List F) [none] 0 = some (0.1 / 1.64493406685) ∧
    calc_rank_pos_or (weights : List F) [none] (WEP_SETPOS 0 (MAXENTRYPOS - 1)) =
      some (0.2 / 1.64493406685) ∧
    calc_rank_pos_and m (weights : List F) [some [1], none] 0 =
      some (m.sqrt (0.2 * 0.1 * word_distance m 4094)) := by
  obtain ⟨b0, d0, hset, b1, d1, g1, gw1, d2, g2, gw2⟩ := decompress_pos_posnull_bytes
  have dp1 : ∀ rest, decompress_pos (1 :: rest) 0 = some (rest, 1) :=
    decompress_pos_small 1 (by norm_num)
  have w0 : wpos (weights : List F) 0 = 0.1 := by simp [wpos, weights, WEP_GETWEIGHT]
  have w1 : wpos (weights : List F) 1 = 0.1 := by simp [wpos, weights, WEP_GETWEIGHT]
  have wc : wpos (weights : List F) 20479 = 0.2 := by
    simp [wpos, weights, gw1]
  have gp1 : WEP_GETPOS 1 = 1 := by decide
  refine ⟨by rw [hset]; exact d1, g1, gw1, d2, g2, gw2, ?_, ?_, ?_⟩
  · simp [calc_rank_pos_or, calc_rank_pos_or_items, calc_rank_pos_or_positions, payload_count,
      payload_ptr, CharPtr.decompress, d0, w0]
    norm_num
  · rw [hset]
    simp [calc_rank_pos_or, calc_rank_pos_or_items, calc_rank_pos_or_positions, payload_count,
      payload_ptr, CharPtr.decompress, d1, wc]
    norm_num
  · simp [calc_rank_pos_and, calc_rank_pos_and_i, calc_rank_pos_and_k, calc_rank_pos_and_l,
      calc_rank_pos_and_p, payload_count, payload_ptr, count_pos, HIGHBIT,
      CharPtr.decompress, hset, d1, dp1, rank_and_pair, CharPtr.is_posnull, g1, gp1, w1, wc]
    intro h
    exfalso
    norm_num at h

end NullPayload

/-! ## The recheck flag of the pre-consistency check -/

/-- The callback returns the presence of the operand it is called on, leaves `check` and
`map_item_operand` alone, and raises the flag exactly when the operand carries a
non-zero weight mask. -/
theorem checkcondition_rum_spec (gcv : RumChkVal) (item : Nat) (val : QueryOperand) :
    checkcondition_rum gcv item val =
      (operand_presence gcv.check gcv.map_item_operand item).map
        (fun present => (present,
          { gcv with need_recheck := gcv.need_recheck || decide (val.weight ≠ 0) })) := by
  unfold checkcondition_rum operand_presence
  by_cases hw : val.weight ≠ 0
  · have hd : decide (val.weight ≠ 0) = true := decide_eq_true hw
    rw [hd, Bool.or_true]
    simp only [if_pos hw]
    cases gcv.map_item_operand[item]? with
    | none => rfl
    | some j =>
      simp only []
      cases gcv.check[j]? <;> rfl
  · have hd : decide (val.weight ≠ 0) = false := decide_eq_false hw
    rw [hd, Bool.or_false]
    simp only [if_neg hw]
    cases gcv.map_item_operand[item]? with
    | none => rfl
    | some j =>
      simp only []
      cases gcv.check[j]? <;> rfl

/-- The run of `TS_execute` with the callback `checkcondition_rum`, where it meets no
phrase operator: its result is that of the evaluation by presence, and the flag ends
raised exactly when it was raised before or the callback was called on an operand with
a non-zero weight mask. -/
theorem TS_execute_checkcondition_rum
    (phrase : TSQuery → Nat → RumChkVal → Option (Bool × RumChkVal)) (query : TSQuery) :
    ∀ (fuel cur : Nat) (st : RumChkVal) (res : Bool) (calls : List Nat),
      TS_execute_calls (operand_presence st.check st.map_item_operand) query fuel cur =
        some (res, calls) →
      TS_execute phrase checkcondition_rum query fuel cur st =
        some (res, { st with
          need_recheck := st.need_recheck || calls.any (item_weighted query) }) := by
  intro fuel
  induction fuel with
  | zero => intro cur st res calls h; simp [TS_execute_calls] at h
  | succ fuel ih =>
    intro cur st res calls h
    unfold TS_execute_calls at h
    unfold TS_execute
    cases hq : query[cur]? with
    | none => rw [hq] at h; simp at h
    | some it =>
      rw [hq] at h
      cases it with
      | QI_VAL val =>
        simp only at h ⊢
        rw [checkcondition_rum_spec]
        cases hp : operand_presence st.check st.map_item_operand cur with
        | none => rw [hp] at h; simp at h
        | some b =>
          rw [hp] at h
          simp only [Option.some.injEq, Prod.mk.injEq] at h
          obtain ⟨rfl, rfl⟩ := h
          simp [item_weighted, hq]
      | QI_OPR oper left =>
        cases oper with
        | OP_NOT =>
          simp only [Option.some.injEq, Prod.mk.injEq] at h
          obtain ⟨rfl, rfl⟩ := h
          simp
        | OP_AND =>
          simp only at h ⊢
          cases h1 : TS_execute_calls (operand_presence st.check st.map_item_operand) query
              fuel (cur + left) with
          | none => rw [h1] at h; simp at h
          | some r1 =>
            obtain ⟨b1, calls1⟩ := r1
            rw [h1] at h
            rw [ih _ _ _ _ h1]
            cases b1 with
            | false =>
              simp only [Option.some.injEq, Prod.mk.injEq] at h
              obtain ⟨rfl, rfl⟩ := h
              rfl
            | true =>
              simp only at h ⊢
              cases h2 : TS_execute_calls (operand_presence st.check st.map_item_operand)
                  query fuel (cur + 1) with
              | none => rw [h2] at h; simp at h
              | some r2 =>
                obtain ⟨b2, calls2⟩ := r2
                rw [h2] at h
                simp only [Option.some.injEq, Prod.mk.injEq] at h
                obtain ⟨rfl, rfl⟩ := h
                have h3 := ih (cur + 1) ⟨st.check, st.map_item_operand,
                  st.need_recheck || calls1.any (item_weighted query)⟩ b2 calls2 h2
                rw [h3]
                simp [List.any_append, Bool.or_assoc]
        | OP_OR =>
          simp only at h ⊢
          cases h1 : TS_execute_calls (operand_presence st.check st.map_item_operand) query
              fuel (cur + left) with
          | none => rw [h1] at h; simp at h
          | some r1 =>
            obtain ⟨b1, calls1⟩ := r1
            rw [h1] at h
            rw [ih _ _ _ _ h1]
            cases b1 with
            | true =>
              simp only [Option.some.injEq, Prod.mk.injEq] at h
              obtain ⟨rfl, rfl⟩ := h
              rfl
            | false =>
              simp only at h ⊢
              cases h2 : TS_execute_calls (operand_presence st.check st.map_item_operand)
                  query fuel (cur + 1) with
              | none => rw [h2] at h; simp at h
              | some r2 =>
                obtain ⟨b2, calls2⟩ := r2
                rw [h2] at h
                simp only [Option.some.injEq, Prod.mk.injEq] at h
                obtain ⟨rfl, rfl⟩ := h
                have h3 := ih (cur + 1) ⟨st.check, st.map_item_operand,
                  st.need_recheck || calls1.any (item_weighted query)⟩ b2 calls2 h2
                rw [h3]
                simp [List.any_append, Bool.or_assoc]
        | OP_PHRASE => simp at h

/-- The evaluation by presence does not look at the weight masks. -/
theorem TS_execute_calls_clear_weights (present : Nat → Option Bool) (query : TSQuery) :
    ∀ fuel cur : Nat,
      TS_execute_calls present (clear_weights query) fuel cur =
        TS_execute_calls present query fuel cur := by
  intro fuel
  induction fuel with
  | zero => intro cur; rfl
  | succ fuel ih =>
    intro cur
    unfold TS_execute_calls
    have hget : (clear_weights query)[cur]? = (query[cur]?).map (fun it =>
        match it with
        | QueryItem.QI_VAL val => QueryItem.QI_VAL { val with weight := 0 }
        | QueryItem.QI_OPR oper left => QueryItem.QI_OPR oper left) := by
      unfold clear_weights
      rw [List.getElem?_map]
    rw [hget]
    cases hq : query[cur]? with
    | none => rfl
    | some it =>
      cases it with
      | QI_VAL val => rfl
      | QI_OPR oper left =>
        cases oper with
        | OP_NOT => rfl
        | OP_AND => simp only [Option.map_some', ih]
        | OP_OR => simp only [Option.map_some', ih]
        | OP_PHRASE => rfl

/-- On a plain query whose operands all have a presence, the evaluation by presence from
an item of the query ends with a result, given as much fuel as items remain. -/
theorem TS_execute_calls_isSome (present : Nat → Option Bool) (query : TSQuery)
    (hplain : query_plain query = true)
    (hpres : ∀ i val, query[i]? = some (QueryItem.QI_VAL val) → ∃ b, present i = some b) :
    ∀ fuel cur : Nat, cur < query.length → query.length ≤ cur + fuel →
      ∃ r, TS_execute_calls present query fuel cur = some r := by
  intro fuel
  induction fuel with
  | zero => intro cur h1 h2; omega
  | succ fuel ih =>
    intro cur h1 h2
    have hp : item_plain query cur = true := by
      unfold query_plain at hplain
      exact List.all_eq_true.1 hplain cur (List.mem_range.2 h1)
    unfold item_plain at hp
    unfold TS_execute_calls
    cases hq : query[cur]? with
    | none =>
      have := List.getElem?_eq_some_iff.2 ⟨h1, rfl⟩
      rw [hq] at this
      simp at this
    | some it =>
      rw [hq] at hp
      cases it with
      | QI_VAL val =>
        obtain ⟨b, hb⟩ := hpres cur val hq
        simp only [hb]
        exact ⟨_, rfl⟩
      | QI_OPR oper left =>
        cases oper with
        | OP_NOT => exact ⟨_, rfl⟩
        | OP_AND =>
          simp only [decide_eq_true_eq] at hp ⊢
          obtain ⟨r1, hr1⟩ := ih (cur + left) hp.2 (by omega)
          obtain ⟨b1, c1⟩ := r1
          rw [hr1]
          cases b1 with
          | false => exact ⟨_, rfl⟩
          | true =>
            simp only
            obtain ⟨r2, hr2⟩ := ih (cur + 1) (by omega) (by omega)
            rw [hr2]
            exact ⟨_, rfl⟩
        | OP_OR =>
          simp only [decide_eq_true_eq] at hp ⊢
          obtain ⟨r1, hr1⟩ := ih (cur + left) hp.2 (by omega)
          obtain ⟨b1, c1⟩ := r1
          rw [hr1]
          cases b1 with
          | true => exact ⟨_, rfl⟩
          | false =>
            simp only
            obtain ⟨r2, hr2⟩ := ih (cur + 1) (by omega) (by omega)
            rw [hr2]
            exact ⟨_, rfl⟩
        | OP_PHRASE => simp at hp

/-- C14, as amended. Pre-consistency recheck: for every non-empty query, presence vector
and leaf-to-index map, `rum_tsquery_pre_consistent` hands back only its boolean result,
the value `TS_execute` computes with the callback `checkcondition_rum`, and no recheck
flag: the flag is a local variable, dropped at the return. The callback returns the
presence `check[map[item]]` of the operand it is called on and raises the local flag
exactly when that operand has a non-zero weight mask. Where the evaluation meets no
phrase operator, the local flag ends raised exactly when it was raised at entry or the
callback was called on an operand with a non-zero weight mask (it is called on no operand
under a negation, and not on the right argument once the left one decides an `OP_AND` or
`OP_OR`), and the returned boolean is the same whatever the weight masks of the operands
and the initial value of the local are; on a plain query whose operands all have a
presence that evaluation ends with a result. -/
theorem rum_tsquery_pre_consistent_recheck
    (ts_execute : (RumChkVal → Nat → QueryOperand → Option (Bool × RumChkVal)) → TSQuery →
      RumChkVal → Option (Bool × RumChkVal))
    (phrase : TSQuery → Nat → RumChkVal → Option (Bool × RumChkVal))
    (check : List Bool) (query : TSQuery) (extra_data0 : List Nat) (recheck0 : Bool)
    (hq : 0 < query.length) :
    rum_tsquery_pre_consistent ts_execute check query extra_data0 recheck0 =
      (ts_execute checkcondition_rum query ⟨check, extra_data0, recheck0⟩).map Prod.fst ∧
    (∀ (gcv : RumChkVal) (item : Nat) (val : QueryOperand),
      checkcondition_rum gcv item val =
        (operand_presence gcv.check gcv.map_item_operand item).map
          (fun present => (present, ⟨gcv.check, gcv.map_item_operand,
            gcv.need_recheck || decide (val.weight ≠ 0)⟩))) ∧
    (∀ (res : Bool) (calls : List Nat),
      TS_execute_calls (operand_presence check extra_data0) query query.length 0 =
        some (res, calls) →
      rum_tsquery_pre_consistent_body
          (fun chkcond q gcv => TS_execute phrase chkcond q q.length 0 gcv)
          check query extra_data0 recheck0 =
        some ⟨res, recheck0 || calls.any (item_weighted query)⟩ ∧
      rum_tsquery_pre_consistent
          (fun chkcond q gcv => TS_execute phrase chkcond q q.length 0 gcv)
          check query extra_data0 recheck0 = some res ∧
      ∀ r0 : Bool, rum_tsquery_pre_consistent
          (fun chkcond q gcv => TS_execute phrase chkcond q q.length 0 gcv)
          check (clear_weights query) extra_data0 r0 = some res) ∧
    (query_plain query = true →
      (∀ i val, query[i]? = some (QueryItem.QI_VAL val) →
        ∃ b, operand_presence check extra_data0 i = some b) →
      ∃ res calls, TS_execute_calls (operand_presence check extra_data0) query
        query.length 0 = some (res, calls)) := by
  refine ⟨?_, checkcondition_rum_spec, ?_, ?_⟩
  · unfold rum_tsquery_pre_consistent rum_tsquery_pre_consistent_body
    rw [if_pos hq]
    cases ts_execute checkcondition_rum query ⟨check, extra_data0, recheck0⟩ with
    | none => rfl
    | some r => rfl
  · intro res calls h
    have hbody : ∀ r0 : Bool, rum_tsquery_pre_consistent_body
        (fun chkcond q gcv => TS_execute phrase chkcond q q.length 0 gcv)
        check query extra_data0 r0 =
        some ⟨res, r0 || calls.any (item_weighted query)⟩ := by
      intro r0
      unfold rum_tsquery_pre_consistent_body
      rw [if_pos hq]
      simp only []
      rw [TS_execute_checkcondition_rum phrase query query.length 0
        ⟨check, extra_data0, r0⟩ res calls h]
    have hclear : ∀ r0 : Bool, rum_tsquery_pre_consistent_body
        (fun chkcond q gcv => TS_execute phrase chkcond q q.length 0 gcv)
        check (clear_weights query) extra_data0 r0 =
        some ⟨res, r0 || calls.any (item_weighted (clear_weights query))⟩ := by
      intro r0
      have hlen : (clear_weights query).length = query.length := by
        unfold clear_weights
        rw [List.length_map]
      have h2 : TS_execute_calls (operand_presence check extra_data0) (clear_weights query)
          (clear_weights query).length 0 = some (res, calls) := by
        rw [TS_execute_calls_clear_weights, hlen]
        exact h
      unfold rum_tsquery_pre_consistent_body
      rw [if_pos (by rw [hlen]; exact hq)]
      simp only []
      rw [TS_execute_checkcondition_rum phrase (clear_weights query)
        (clear_weights query).length 0 ⟨check, extra_data0, r0⟩ res calls h2]
    refine ⟨hbody recheck0, ?_, ?_⟩
    · unfold rum_tsquery_pre_consistent
      rw [hbody recheck0]
      rfl
    · intro r0
      unfold rum_tsquery_pre_consistent
      rw [hclear r0]
      rfl
  · intro hplain hpres
    obtain ⟨r, hr⟩ := TS_execute_calls_isSome (operand_presence check extra_data0) query
      hplain hpres query.length 0 hq (by omega)
    exact ⟨r.1, r.2, hr⟩

/-- C14, as amended, on the query `a | b:A` with `a` absent and `b` present: the
evaluation calls the callback on `a` (item 2), then on `b` (item 1); the local flag ends
raised, and the check hands back `true`, as it does with the weight masks cleared. -/
theorem rum_tsquery_pre_consistent_recheck_witness :
    query_plain query_a_or_bA = true ∧
    TS_execute_calls (operand_presence [false, true] [0, 1, 0]) query_a_or_bA
      query_a_or_bA.length 0 = some (true, [2, 1]) ∧
    ([2, 1].any (item_weighted query_a_or_bA)) = true ∧
    rum_tsquery_pre_consistent_body
        (fun chkcond q gcv => TS_execute (fun _ _ _ => none) chkcond q q.length 0 gcv)
        [false, true] query_a_or_bA [0, 1, 0] false =
      some ⟨true, false || [2, 1].any (item_weighted query_a_or_bA)⟩ ∧
    rum_tsquery_pre_consistent
        (fun chkcond q gcv => TS_execute (fun _ _ _ => none) chkcond q q.length 0 gcv)
        [false, true] query_a_or_bA [0, 1, 0] false = some true ∧
    (∀ r0 : Bool, rum_tsquery_pre_consistent
        (fun chkcond q gcv => TS_execute (fun _ _ _ => none) chkcond q q.length 0 gcv)
        [false, true] (clear_weights query_a_or_bA) [0, 1, 0] r0 = some true) :=
  ⟨by decide, by decide, by decide,
    (rum_tsquery_pre_consistent_recheck
      (fun chkcond q gcv => TS_execute (fun _ _ _ => none) chkcond q q.length 0 gcv)
      (fun _ _ _ => none) [false, true] query_a_or_bA [0, 1, 0] false (by decide)).2.2.1
      true [2, 1] (by decide)⟩

/-- C14 fails as stated. For the query `a | b:A` with both entries present, the operand
`b` (item 1) is matched and carries the weight mask 8, yet the evaluation stops at `a`:
the local flag, false before the call, is false at the return. For `b:A` with its entry
present, and for `!b:A`, the check hands back `true` and nothing else, the same value as
for the query `b` without weight mask: no recheck flag is part of the output. -/
theorem rum_tsquery_pre_consistent_recheck_counterexample :
    query_a_or_bA[1]? = some (QueryItem.QI_VAL ⟨8, false, [98]⟩) ∧
    operand_presence [true, true] [0, 1, 0] 1 = some true ∧
    rum_tsquery_pre_consistent_body
        (fun chkcond q gcv => TS_execute (fun _ _ _ => none) chkcond q q.length 0 gcv)
        [true, true] query_a_or_bA [0, 1, 0] false = some ⟨true, false⟩ ∧
    rum_tsquery_pre_consistent
        (fun chkcond q gcv => TS_execute (fun _ _ _ => none) chkcond q q.length 0 gcv)
        [true, true] query_a_or_bA [0, 1, 0] false = some true ∧
    rum_tsquery_pre_consistent
        (fun chkcond q gcv => TS_execute (fun _ _ _ => none) chkcond q q.length 0 gcv)
        [true] query_bA [0] false = some true ∧
    rum_tsquery_pre_consistent
        (fun chkcond q gcv => TS_execute (fun _ _ _ => none) chkcond q q.length 0 gcv)
        [true] query_b [0] false = some true ∧
    rum_tsquery_pre_consistent_body
        (fun chkcond q gcv => TS_execute (fun _ _ _ => none) chkcond q q.length 0 gcv)
        [true] query_not_bA [0, 0] false = some ⟨true, false⟩ := by
  refine ⟨rfl, rfl, by decide, by decide, by decide, by decide, by decide⟩

/-! ## The range of the pairwise score -/

section ScoreRangeProofs

variable {F : Type} [LinearOrderedField F]

theorem wpos_le_one (w : List F) (hw : ∀ x ∈ w, x ≤ 1) (p : Nat) : wpos w p ≤ 1 := by
  unfold wpos
  by_cases h : WEP_GETWEIGHT p < w.length
  · rw [List.getD_eq_getElem _ _ h]
    exact hw _ (List.getElem_mem h)
  · rw [List.getD_eq_default _ _ (not_lt.1 h)]
    exact zero_le_one

/-- With a positive `exp`, `word_distance` lies strictly between 0 and 1. -/
theorem word_distance_range (m : MathFns F) (hexp : ∀ x : F, 0 < m.exp x) (d : Int) :
    0 < word_distance m d ∧ word_distance m d < 1 := by
  unfold word_distance
  by_cases h : 100 < d
  · rw [if_pos h]
    have h10 : (1 : F) < 10 ^ 30 := one_lt_pow₀ (by norm_num) (by norm_num)
    have hpos : (0 : F) < 10 ^ 30 := lt_trans zero_lt_one h10
    exact ⟨div_pos zero_lt_one hpos, (div_lt_one hpos).2 h10⟩
  · rw [if_neg h]
    have he := hexp ((d : F) / 1.5 - 2)
    have hD : (1 : F) < 1.005 + 0.05 * m.exp ((d : F) / 1.5 - 2) := by
      have : (0 : F) < 0.05 * m.exp ((d : F) / 1.5 - 2) := mul_pos (by norm_num) he
      have h5 : (1 : F) < 1.005 := by norm_num
      linarith
    have hpos : (0 : F) < 1.005 + 0.05 * m.exp ((d : F) / 1.5 - 2) := lt_trans zero_lt_one hD
    rw [one_lit]
    exact ⟨div_pos zero_lt_one hpos, (div_lt_one hpos).2 hD⟩

/-- Every contribution `curw` lies in `[0, 1)`. -/
theorem pair_curw_range (m : MathFns F)
    (hsqrt : ∀ x : F, 0 ≤ x → x < 1 → 0 ≤ m.sqrt x ∧ m.sqrt x < 1)
    (hexp : ∀ x : F, 0 < m.exp x) (w : List F) (hw : ∀ x ∈ w, 0 ≤ x ∧ x ≤ 1)
    (p : Bool × Nat × Nat) : 0 ≤ pair_curw m w p ∧ pair_curw m w p < 1 := by
  unfold pair_curw
  have h1 := wpos_nonneg w (fun x hx => (hw x hx).1) p.2.1
  have h2 := wpos_nonneg w (fun x hx => (hw x hx).1) p.2.2
  have h3 := wpos_le_one w (fun x hx => (hw x hx).2) p.2.1
  have h4 := wpos_le_one w (fun x hx => (hw x hx).2) p.2.2
  obtain ⟨hd0, hd1⟩ := word_distance_range m hexp (pair_distance p : Nat)
  have h12 : 0 ≤ wpos w p.2.1 * wpos w p.2.2 := mul_nonneg h1 h2
  have h12le : wpos w p.2.1 * wpos w p.2.2 ≤ 1 := by
    calc wpos w p.2.1 * wpos w p.2.2 ≤ 1 * 1 := mul_le_mul h3 h4 h2 zero_le_one
      _ = 1 := one_mul 1
  apply hsqrt
  · exact mul_nonneg h12 (le_of_lt hd0)
  · calc wpos w p.2.1 * wpos w p.2.2 * word_distance m (pair_distance p : Nat)
        ≤ 1 * word_distance m (pair_distance p : Nat) :=
          mul_le_mul_of_nonneg_right h12le (le_of_lt hd0)
      _ = word_distance m (pair_distance p : Nat) := one_mul _
      _ < 1 := hd1

/-- The loop body on a contributing pair is the noisy-OR step with the pair's `curw`. -/
theorem rank_and_pair_contributing (m : MathFns F) (w : List F) (p : Bool × Nat × Nat)
    (res : F) (h : pair_contributes p = true) :
    rank_and_pair m w p.1 p.2.1 p.2.2 res = noisy_or res (pair_curw m w p) := by
  unfold pair_contributes at h
  rw [rank_and_pair_cases]
  unfold pair_curw pair_distance
  by_cases hne : WEP_GETPOS p.2.1 ≠ WEP_GETPOS p.2.2
  · rw [if_pos hne, if_pos hne]
  · have hp : p.1 = true := by simpa [hne] using h
    rw [if_neg hne, if_pos hp, if_neg hne]

/-- The noisy-OR step keeps an accumulator of `[0, 1)` in `[0, 1)`. -/
theorem noisy_or_range (res curw : F) (h0 : 0 ≤ res) (h1 : res < 1) (c0 : 0 ≤ curw)
    (c1 : curw < 1) :
    noisy_or res curw = 1 - (1 - res) * (1 - curw) ∧
      0 ≤ noisy_or res curw ∧ noisy_or res curw < 1 := by
  have hn : noisy_or res curw = 1 - (1 - res) * (1 - curw) := by
    unfold noisy_or
    rw [if_neg (not_lt.2 h0), one_lit]
  rw [hn]
  refine ⟨rfl, ?_, ?_⟩
  · have : (1 - res) * (1 - curw) ≤ 1 * 1 :=
      mul_le_mul (by linarith) (by linarith) (by linarith) zero_le_one
    linarith
  · have : 0 < (1 - res) * (1 - curw) := mul_pos (by linarith) (by linarith)
    linarith

/-- A product of factors `1 - curw` with every `curw` in `[0, 1)` lies in `(0, 1]`. -/
theorem prod_one_sub_range (cs : List F) (h : ∀ c ∈ cs, 0 ≤ c ∧ c < 1) :
    0 < (cs.map (fun c => 1 - c)).prod ∧ (cs.map (fun c => 1 - c)).prod ≤ 1 := by
  induction cs with
  | nil => simp
  | cons c cs ih =>
    obtain ⟨hc0, hc1⟩ := h c (List.mem_cons_self _ _)
    obtain ⟨i0, i1⟩ := ih (fun x hx => h x (List.mem_cons_of_mem _ hx))
    simp only [List.map_cons, List.prod_cons]
    refine ⟨mul_pos (by linarith) i0, ?_⟩
    calc (1 - c) * (cs.map (fun c => 1 - c)).prod ≤ 1 * 1 :=
          mul_le_mul (by linarith) i1 (le_of_lt i0) zero_le_one
      _ = 1 := one_mul 1

/-- From an accumulator in `[0, 1)` the loop over the pairs multiplies the complement of
the accumulator by the complements of the contributions. -/
theorem foldl_pairs_from_nonneg (m : MathFns F) (w : List F)
    (hc : ∀ p : Bool × Nat × Nat, 0 ≤ pair_curw m w p ∧ pair_curw m w p < 1)
    (ps : List (Bool × Nat × Nat)) :
    ∀ res : F, 0 ≤ res → res < 1 →
      ps.foldl (fun r p => rank_and_pair m w p.1 p.2.1 p.2.2 r) res =
        1 - (1 - res) *
          ((ps.filter pair_contributes).map (fun p => 1 - pair_curw m w p)).prod := by
  induction ps with
  | nil => intro res _ _; simp
  | cons p ps ih =>
    intro res h0 h1
    by_cases hp : pair_contributes p = true
    · obtain ⟨hn, n0, n1⟩ := noisy_or_range res (pair_curw m w p) h0 h1 (hc p).1 (hc p).2
      simp only [List.foldl_cons, List.filter_cons, hp, if_true, List.map_cons, List.prod_cons,
        rank_and_pair_contributing m w p res hp]
      rw [ih _ n0 n1, hn]
      ring
    · have hp2 : pair_contributes p = false := by simpa using hp
      simp only [List.foldl_cons, List.filter_cons, hp2, rank_and_pair_skip m w p res hp2]
      simpa using ih res h0 h1

/-- From a negative accumulator the loop over the pairs leaves it when no pair
contributes, and otherwise gives 1 minus the product of the complements. -/
theorem foldl_pairs_from_neg (m : MathFns F) (w : List F)
    (hc : ∀ p : Bool × Nat × Nat, 0 ≤ pair_curw m w p ∧ pair_curw m w p < 1)
    (ps : List (Bool × Nat × Nat)) (res : F) (hres : res < 0) :
    ps.foldl (fun r p => rank_and_pair m w p.1 p.2.1 p.2.2 r) res =
      if ps.filter pair_contributes = [] then res
      else 1 - ((ps.filter pair_contributes).map (fun p => 1 - pair_curw m w p)).prod := by
  induction ps with
  | nil => simp
  | cons p ps ih =>
    by_cases hp : pair_contributes p = true
    · have hstep : rank_and_pair m w p.1 p.2.1 p.2.2 res = pair_curw m w p := by
        rw [rank_and_pair_contributing m w p res hp]
        unfold noisy_or
        rw [if_pos hres]
      simp only [List.foldl_cons, List.filter_cons, hp, if_true, hstep, List.map_cons,
        List.prod_cons]
      rw [foldl_pairs_from_nonneg m w hc ps _ (hc p).1 (hc p).2, if_neg (by simp)]
    · have hp2 : pair_contributes p = false := by simpa using hp
      simp only [List.foldl_cons, List.filter_cons, hp2, rank_and_pair_skip m w p res hp2]
      simpa using ih

end ScoreRangeProofs

section ScoreRangeClaim

variable {F : Type} [LinearOrderedField F]

/-- The pairwise score in exact arithmetic (no rounding): given a `sqrt` that maps
`[0, 1)` into `[0, 1)` and a positive `exp`, for every weight table with all weights in
`[0, 1]`, every document and every query with at least two distinct operands: each
contribution `curw` lies in `[0, 1)`; the loop body on a contributing pair sets a
negative accumulator to `curw` and takes an accumulator `res` of `[0, 1)` to
`1 - (1 - res) * (1 - curw)`, again in `[0, 1)`; and `calc_rank_and` returns exactly `-1`
when no pair contributes, and otherwise 1 minus the product of `1 - curw` over the
contributing pairs, a value of `[0, 1)`. -/
theorem calc_rank_and_exact_score_range (m : MathFns F)
    (hsqrt : ∀ x : F, 0 ≤ x → x < 1 → 0 ≤ m.sqrt x ∧ m.sqrt x < 1)
    (hexp : ∀ x : F, 0 < m.exp x)
    (qsort_arg : List QueryOperand → List QueryOperand)
    (w : List F) (hw : ∀ x ∈ w, 0 ≤ x ∧ x ≤ 1) (t : TSVector) (q : TSQuery)
    (h2 : 2 ≤ (SortAndUniqItems qsort_arg q).length) :
    (∀ p ∈ contributing_pairs t (SortAndUniqItems qsort_arg q),
      (0 ≤ pair_curw m w p ∧ pair_curw m w p < 1) ∧
      (∀ res : F, res < 0 → rank_and_pair m w p.1 p.2.1 p.2.2 res = pair_curw m w p) ∧
      (∀ res : F, 0 ≤ res → res < 1 →
        rank_and_pair m w p.1 p.2.1 p.2.2 res = 1 - (1 - res) * (1 - pair_curw m w p) ∧
        0 ≤ rank_and_pair m w p.1 p.2.1 p.2.2 res ∧
        rank_and_pair m w p.1 p.2.1 p.2.2 res < 1)) ∧
    (contributing_pairs t (SortAndUniqItems qsort_arg q) = [] →
      calc_rank_and m qsort_arg w t q = some (-1)) ∧
    (contributing_pairs t (SortAndUniqItems qsort_arg q) ≠ [] →
      calc_rank_and m qsort_arg w t q =
        some (1 - ((contributing_pairs t (SortAndUniqItems qsort_arg q)).map
          (fun p => 1 - pair_curw m w p)).prod) ∧
      0 ≤ 1 - ((contributing_pairs t (SortAndUniqItems qsort_arg q)).map
          (fun p => 1 - pair_curw m w p)).prod ∧
      1 - ((contributing_pairs t (SortAndUniqItems qsort_arg q)).map
          (fun p => 1 - pair_curw m w p)).prod < 1) := by
  have hc : ∀ p : Bool × Nat × Nat, 0 ≤ pair_curw m w p ∧ pair_curw m w p < 1 :=
    pair_curw_range m hsqrt hexp w hw
  have hrun : calc_rank_and m qsort_arg w t q =
      some (if contributing_pairs t (SortAndUniqItems qsort_arg q) = [] then -1.0
        else 1 - ((contributing_pairs t (SortAndUniqItems qsort_arg q)).map
          (fun p => 1 - pair_curw m w p)).prod) := by
    unfold calc_rank_and
    simp only []
    rw [if_neg (by omega), calc_rank_and_items_eq,
      foldl_pairs_from_neg m w hc _ (-1.0) (by norm_num)]
    rfl
  refine ⟨?_, ?_, ?_⟩
  · intro p hp
    have hcontrib : pair_contributes p = true := by
      unfold contributing_pairs at hp
      exact (List.mem_filter.1 hp).2
    refine ⟨hc p, ?_, ?_⟩
    · intro res hres
      rw [rank_and_pair_contributing m w p res hcontrib]
      unfold noisy_or
      rw [if_pos hres]
    · intro res h0 h1
      rw [rank_and_pair_contributing m w p res hcontrib]
      exact noisy_or_range res (pair_curw m w p) h0 h1 (hc p).1 (hc p).2
  · intro hnil
    rw [hrun, if_pos hnil]
    norm_num
  · intro hne
    rw [hrun, if_neg hne]
    obtain ⟨p0, p1⟩ := prod_one_sub_range
      ((contributing_pairs t (SortAndUniqItems qsort_arg q)).map (pair_curw m w))
      (by
        intro c hcm
        obtain ⟨p, _, rfl⟩ := List.mem_map.1 hcm
        exact hc p)
    rw [List.map_map] at p0 p1
    have hfun : ((fun c => 1 - c) ∘ pair_curw m w) = (fun p => 1 - pair_curw m w p) := rfl
    rw [hfun] at p0 p1
    exact ⟨rfl, by linarith, by linarith⟩

end ScoreRangeClaim

/-! ## Rounding to a binary format -/

section Representable

variable {F : Type} [LinearOrderedField F]

/-- A number `n / 2 ^ k` with `n < 2 ^ p` that is at least `2 ^ e` is a whole multiple of
`2 ^ (e - p + 1)`. -/
theorem representable_multiple (p n k : Nat) (e : Int) (hn : n < 2 ^ p)
    (he : (2 : F) ^ e ≤ (n : F) / 2 ^ k) :
    ∃ M : Int, (n : F) / 2 ^ k = (M : F) * 2 ^ (e - (p : Int) + 1) := by
  have h2 : (0 : F) < 2 := by norm_num
  have hk : (0 : F) < 2 ^ k := pow_pos h2 k
  have h1 : (2 : F) ^ (e + k) ≤ (n : F) := by
    rw [zpow_add₀ (ne_of_gt h2), zpow_natCast]
    exact (le_div_iff₀ hk).1 he
  have hnp : (n : F) < (2 : F) ^ (p : Int) := by
    rw [zpow_natCast]
    exact_mod_cast hn
  have hlt : (2 : F) ^ (e + k) < (2 : F) ^ (p : Int) := lt_of_le_of_lt h1 hnp
  have hek : e + k < p := (zpow_lt_zpow_iff_right₀ (by norm_num : (1 : F) < 2)).1 hlt
  obtain ⟨j, hj⟩ : ∃ j : Nat, (j : Int) = p - 1 - e - k := ⟨(p - 1 - e - k).toNat, by omega⟩
  refine ⟨(n : Int) * 2 ^ j, ?_⟩
  push_cast
  have e1 : (2 : F) ^ (e - (p : Int) + 1) = 2 ^ (-(j : Int)) * 2 ^ (-(k : Int)) := by
    rw [← zpow_add₀ (ne_of_gt h2)]
    congr 1
    omega
  rw [e1, zpow_neg, zpow_neg, zpow_natCast, zpow_natCast]
  field_simp
  ring

end Representable

section Rounding

variable {F : Type} [LinearOrderedField F] [FloorRing F]

theorem floor_le_round_half_even (q : F) : ⌊q⌋ ≤ round_half_even q := by
  unfold round_half_even
  split_ifs <;> omega

theorem round_half_even_le_floor_succ (q : F) : round_half_even q ≤ ⌊q⌋ + 1 := by
  unfold round_half_even
  split_ifs <;> omega

theorem round_half_even_ge (q : F) (M : Int) (h : (M : F) ≤ q) : M ≤ round_half_even q :=
  le_trans (Int.le_floor.2 h) (floor_le_round_half_even q)

theorem round_half_even_le (q : F) (M : Int) (h : q ≤ (M : F)) : round_half_even q ≤ M := by
  rcases eq_or_lt_of_le h with h1 | h1
  · have hf : ⌊q⌋ = M := by rw [h1]; exact Int.floor_intCast M
    unfold round_half_even
    have : q - (⌊q⌋ : F) < 1 / 2 := by rw [hf, h1]; norm_num
    rw [if_pos this, hf]
  · have hf : ⌊q⌋ < M := Int.floor_lt.2 h1
    have := round_half_even_le_floor_succ q
    omega

theorem round_half_even_ge_of_gt_half (q : F) (M : Int) (h : (M : F) - 1 / 2 < q) :
    M ≤ round_half_even q := by
  have hf : M - 1 ≤ ⌊q⌋ := by
    apply Int.le_floor.2
    push_cast
    linarith
  by_cases h1 : M ≤ ⌊q⌋
  · exact le_trans h1 (floor_le_round_half_even q)
  · have hf2 : ⌊q⌋ = M - 1 := by omega
    unfold round_half_even
    have hfrac : (1 : F) / 2 < q - (⌊q⌋ : F) := by
      rw [hf2]; push_cast; linarith
    rw [if_neg (not_lt.2 (le_of_lt hfrac)), if_pos hfrac, hf2]
    omega

theorem log_two_bounds (x : F) (hx : 0 < x) :
    (2 : F) ^ Int.log 2 x ≤ x ∧ x < (2 : F) ^ (Int.log 2 x + 1) := by
  have h1 := Int.zpow_log_le_self (b := 2) (by norm_num) hx
  have h2 := Int.lt_zpow_succ_log_self (b := 2) (by norm_num) x
  simp only [Nat.cast_ofNat] at h1 h2
  exact ⟨h1, h2⟩

theorem float_round_of_pos (p : Nat) (x : F) (hx : 0 < x) :
    float_round p x =
      ((round_half_even (x / 2 ^ (Int.log 2 x - (p : Int) + 1)) : Int) : F) *
        2 ^ (Int.log 2 x - (p : Int) + 1) := by
  unfold float_round
  rw [if_neg (ne_of_gt hx), if_neg (not_lt.2 (le_of_lt hx)), abs_of_pos hx, one_mul]

theorem float_round_neg (p : Nat) (x : F) : float_round p (-x) = - float_round p x := by
  unfold float_round
  by_cases h0 : x = 0
  · simp [h0]
  · have h0n : -x ≠ 0 := neg_ne_zero.2 h0
    rw [if_neg h0, if_neg h0n, abs_neg]
    rcases lt_or_gt_of_ne h0 with h | h
    · have : ¬ (-x < 0) := by simp; exact le_of_lt h
      rw [if_pos h, if_neg this]; ring
    · have : -x < 0 := by simpa using h
      rw [if_pos this, if_neg (not_lt.2 (le_of_lt h))]; ring

theorem float_round_nonneg (p : Nat) (x : F) (hx : 0 ≤ x) : 0 ≤ float_round p x := by
  rcases eq_or_lt_of_le hx with h | h
  · rw [← h]; simp [float_round]
  · rw [float_round_of_pos p x h]
    have hu : (0 : F) < 2 ^ (Int.log 2 x - (p : Int) + 1) := zpow_pos (by norm_num) _
    have hq : (0 : F) ≤ x / 2 ^ (Int.log 2 x - (p : Int) + 1) := le_of_lt (div_pos h hu)
    have hr : (0 : Int) ≤ round_half_even (x / 2 ^ (Int.log 2 x - (p : Int) + 1)) :=
      round_half_even_ge _ 0 (by simpa using hq)
    exact mul_nonneg (by exact_mod_cast hr) (le_of_lt hu)

/-- Rounding does not cross a number of the format from below. -/
theorem float_round_le (p n k : Nat) (hn : n < 2 ^ p) (x : F) (hx : x ≤ (n : F) / 2 ^ k) :
    float_round p x ≤ (n : F) / 2 ^ k := by
  have hL : (0 : F) ≤ (n : F) / 2 ^ k := by positivity
  rcases lt_trichotomy x 0 with h | h | h
  · have h1 := float_round_nonneg p (-x) (by linarith)
    rw [float_round_neg] at h1
    linarith
  · rw [h]; simpa [float_round] using hL
  · obtain ⟨hlo, _⟩ := log_two_bounds x h
    obtain ⟨M, hM⟩ := representable_multiple p n k (Int.log 2 x) hn (le_trans hlo hx)
    have hu : (0 : F) < 2 ^ (Int.log 2 x - (p : Int) + 1) := zpow_pos (by norm_num) _
    rw [float_round_of_pos p x h, hM]
    have hq : x / 2 ^ (Int.log 2 x - (p : Int) + 1) ≤ (M : F) := by
      rw [div_le_iff₀ hu, ← hM]; exact hx
    have hr := round_half_even_le _ M hq
    exact mul_le_mul_of_nonneg_right (by exact_mod_cast hr) (le_of_lt hu)

/-- Rounding does not cross a number of the format from above. -/
theorem float_round_ge (p n k : Nat) (hp : 1 ≤ p) (hn : n < 2 ^ p) (x : F)
    (hx : (n : F) / 2 ^ k ≤ x) : (n : F) / 2 ^ k ≤ float_round p x := by
  have hL : (0 : F) ≤ (n : F) / 2 ^ k := by positivity
  rcases eq_or_lt_of_le (le_trans hL hx) with h | h
  · have hx0 : x = 0 := h.symm
    have : (n : F) / 2 ^ k = 0 := le_antisymm (by rw [hx0] at hx; exact hx) hL
    rw [this]
    exact float_round_nonneg p x (le_of_eq h)
  · obtain ⟨hlo, _⟩ := log_two_bounds x h
    have hu : (0 : F) < 2 ^ (Int.log 2 x - (p : Int) + 1) := zpow_pos (by norm_num) _
    rw [float_round_of_pos p x h]
    by_cases hcase : (2 : F) ^ Int.log 2 x ≤ (n : F) / 2 ^ k
    · obtain ⟨M, hM⟩ := representable_multiple p n k (Int.log 2 x) hn hcase
      rw [hM]
      have hq : (M : F) ≤ x / 2 ^ (Int.log 2 x - (p : Int) + 1) := by
        rw [le_div_iff₀ hu, ← hM]; exact hx
      have hr := round_half_even_ge _ M hq
      exact mul_le_mul_of_nonneg_right (by exact_mod_cast hr) (le_of_lt hu)
    · have hlt : (n : F) / 2 ^ k < (2 : F) ^ Int.log 2 x := not_le.1 hcase
      obtain ⟨j, hj⟩ : ∃ j : Nat, j + 1 = p := ⟨p - 1, by omega⟩
      have hsplit : (2 : F) ^ Int.log 2 x =
          (((2 : Int) ^ j : Int) : F) * 2 ^ (Int.log 2 x - (p : Int) + 1) := by
        push_cast
        rw [← zpow_natCast, ← zpow_add₀ (by norm_num : (2 : F) ≠ 0)]
        congr 1
        omega
      have hq : ((((2 : Int) ^ j : Int)) : F) ≤ x / 2 ^ (Int.log 2 x - (p : Int) + 1) := by
        rw [le_div_iff₀ hu, ← hsplit]; exact hlo
      have hr := round_half_even_ge _ _ hq
      calc (n : F) / 2 ^ k ≤ (2 : F) ^ Int.log 2 x := le_of_lt hlt
        _ = (((2 : Int) ^ j : Int) : F) * 2 ^ (Int.log 2 x - (p : Int) + 1) := hsplit
        _ ≤ _ := mul_le_mul_of_nonneg_right (by exact_mod_cast hr) (le_of_lt hu)

/-- A number of the format rounds to itself. -/
theorem float_round_exact (p n k : Nat) (hp : 1 ≤ p) (hn : n < 2 ^ p) :
    float_round p ((n : F) / 2 ^ k) = (n : F) / 2 ^ k :=
  le_antisymm (float_round_le p n k hn _ (le_refl _)) (float_round_ge p n k hp hn _ (le_refl _))

/-- In binary32 every number above the midpoint `1 - 2 ^ (-25)` and up to 1 rounds
to 1. -/
theorem float_round_to_one (x : F) (h1 : 1 - 1 / 2 ^ 25 < x) (h2 : x ≤ 1) :
    float_round 24 x = 1 := by
  have hle : float_round 24 x ≤ 1 := by
    have := float_round_le 24 1 0 (by norm_num) x (by simpa using h2)
    simpa using this
  refine le_antisymm hle ?_
  rcases eq_or_lt_of_le h2 with h | h
  · rw [h]
    have := float_round_exact (F := F) 24 1 0 (by norm_num) (by norm_num)
    simp at this
    rw [this]
  · have hx0 : (0 : F) < x := by
      have : (0 : F) < 1 - 1 / 2 ^ 25 := by norm_num
      linarith
    have hlog : Int.log 2 x = -1 := by
      have hhalf : (1 : F) / 2 ≤ x := by
        have : (1 : F) / 2 ≤ 1 - 1 / 2 ^ 25 := by norm_num
        linarith
      have a1 : (-1 : Int) ≤ Int.log 2 x := by
        apply (Int.zpow_le_iff_le_log (b := 2) (by norm_num) hx0).1
        simp only [Nat.cast_ofNat]
        rw [zpow_neg, zpow_one]
        simpa using hhalf
      have a2 : Int.log 2 x < 0 := by
        apply (Int.lt_zpow_iff_log_lt (b := 2) (by norm_num) hx0).1
        simpa using h
      omega
    rw [float_round_of_pos 24 x hx0, hlog]
    have hu : (2 : F) ^ ((-1 : Int) - ((24 : Nat) : Int) + 1) = 1 / 2 ^ 24 := by
      have : ((-1 : Int) - ((24 : Nat) : Int) + 1) = -((24 : Nat) : Int) := by norm_num
      rw [this, zpow_neg, zpow_natCast]
      simp
    rw [hu]
    have hq : (((2 : Int) ^ 24 : Int) : F) - 1 / 2 < x / (1 / 2 ^ 24) := by
      rw [lt_div_iff₀ (by positivity)]
      push_cast
      have e : ((16777216 : F) - 1 / 2) * (1 / 2 ^ 24) = 1 - 1 / 2 ^ 25 := by norm_num
      rw [e]; exact h1
    have hr := round_half_even_ge_of_gt_half _ _ hq
    have hr2 : (((2 : Int) ^ 24 : Int) : F) ≤ ((round_half_even (x / (1 / 2 ^ 24)) : Int) : F) := by
      exact_mod_cast hr
    calc (1 : F) = (((2 : Int) ^ 24 : Int) : F) * (1 / 2 ^ 24) := by push_cast; norm_num
      _ ≤ _ := mul_le_mul_of_nonneg_right hr2 (by positivity)

/-- The rounding to `p` significant bits is a rounding to precision `p`. -/
theorem float_round_rounds (p : Nat) (hp : 1 ≤ p) :
    RoundsToPrecision p (float_round p : F → F) := by
  intro n k hn
  exact ⟨fun x hx => float_round_le p n k hn x hx, fun x hx => float_round_ge p n k hp hn x hx⟩

end Rounding

/-! ## The range of the pairwise score in floating point -/

section FloatRange

variable {F : Type} [LinearOrderedField F]

theorem rounds_le (p : Nat) (f : F → F) (h : RoundsToPrecision p f) (n k : Nat)
    (hn : n < 2 ^ p) (c : F) (hc : c = (n : F) / 2 ^ k) (x : F) (hx : x ≤ c) : f x ≤ c := by
  subst hc
  exact (h n k hn).1 x hx

theorem rounds_ge (p : Nat) (f : F → F) (h : RoundsToPrecision p f) (n k : Nat)
    (hn : n < 2 ^ p) (c : F) (hc : c = (n : F) / 2 ^ k) (x : F) (hx : c ≤ x) : c ≤ f x := by
  subst hc
  exact (h n k hn).2 x hx

/-- A rounding keeps `[0, 1]`. -/
theorem rounds_unit (p : Nat) (hp : 1 ≤ p) (f : F → F) (h : RoundsToPrecision p f) (x : F)
    (h0 : 0 ≤ x) (h1 : x ≤ 1) : 0 ≤ f x ∧ f x ≤ 1 := by
  have h2 : 1 < 2 ^ p := Nat.one_lt_two_pow (by omega)
  exact ⟨rounds_ge p f h 0 0 (by positivity) 0 (by norm_num) x h0,
    rounds_le p f h 1 0 h2 1 (by norm_num) x h1⟩

/-- In floating point `word_distance` lies in `[0, 255/256]`. -/
theorem word_distance_fp_range (fl : FloatFns F) (m : MathFns F)
    (h32 : RoundsToPrecision 24 fl.f32) (h64 : RoundsToPrecision 53 fl.f64)
    (hexp : ∀ x : F, 0 < m.exp x) (d : Int) :
    0 ≤ word_distance_fp fl m d ∧ word_distance_fp fl m d ≤ 255 / 256 := by
  unfold word_distance_fp
  by_cases hd : 100 < d
  · rw [if_pos hd]
    exact ⟨rounds_ge 24 fl.f32 h32 0 0 (by norm_num) 0 (by norm_num) _ (by positivity),
      rounds_le 24 fl.f32 h32 255 8 (by norm_num) (255 / 256) (by norm_num) _ (by norm_num)⟩
  · rw [if_neg hd]
    have hE : 0 ≤ fl.f64 (m.exp (fl.f64 (fl.f64 (fl.f32 (d : F) / 1.5) - 2))) :=
      rounds_ge 53 fl.f64 h64 0 0 (by norm_num) 0 (by norm_num) _ (le_of_lt (hexp _))
    have hc : 0 ≤ fl.f64 0.05 :=
      rounds_ge 53 fl.f64 h64 0 0 (by norm_num) 0 (by norm_num) _ (by norm_num)
    have hP : 0 ≤ fl.f64 (fl.f64 0.05 *
        fl.f64 (m.exp (fl.f64 (fl.f64 (fl.f32 (d : F) / 1.5) - 2)))) :=
      rounds_ge 53 fl.f64 h64 0 0 (by norm_num) 0 (by norm_num) _ (mul_nonneg hc hE)
    have hc2 : (1029 : F) / 1024 ≤ fl.f64 1.005 :=
      rounds_ge 53 fl.f64 h64 1029 10 (by norm_num) (1029 / 1024) (by norm_num) _
        (by norm_num)
    have hS : (1029 : F) / 1024 ≤ fl.f64 (fl.f64 1.005 + fl.f64 (fl.f64 0.05 *
        fl.f64 (m.exp (fl.f64 (fl.f64 (fl.f32 (d : F) / 1.5) - 2))))) :=
      rounds_ge 53 fl.f64 h64 1029 10 (by norm_num) (1029 / 1024) (by norm_num) _
        (by linarith)
    generalize fl.f64 (fl.f64 1.005 + fl.f64 (fl.f64 0.05 *
        fl.f64 (m.exp (fl.f64 (fl.f64 (fl.f32 (d : F) / 1.5) - 2))))) = S at hS
    have hSpos : (0 : F) < S := by
      have : (0 : F) < 1029 / 1024 := by norm_num
      linarith
    have hQ0 : (0 : F) ≤ 1.0 / S := by
      rw [one_lit]; exact le_of_lt (div_pos zero_lt_one hSpos)
    have hQ1 : (1.0 : F) / S ≤ 255 / 256 := by
      rw [one_lit, div_le_iff₀ hSpos]
      have : (255 : F) / 256 * (1029 / 1024) ≤ 255 / 256 * S :=
        mul_le_mul_of_nonneg_left hS (by norm_num)
      have h2 : (1 : F) ≤ 255 / 256 * (1029 / 1024) := by norm_num
      linarith
    have hR0 := rounds_ge 53 fl.f64 h64 0 0 (by norm_num) 0 (by norm_num) _ hQ0
    have hR1 := rounds_le 53 fl.f64 h64 255 8 (by norm_num) (255 / 256) (by norm_num) _ hQ1
    exact ⟨rounds_ge 24 fl.f32 h32 0 0 (by norm_num) 0 (by norm_num) _ hR0,
      rounds_le 24 fl.f32 h32 255 8 (by norm_num) (255 / 256) (by norm_num) _ hR1⟩

/-- In floating point every contribution `curw` lies in `[0, 511/512]`, so in
`[0, 1)`. -/
theorem pair_curw_fp_range (fl : FloatFns F) (m : MathFns F)
    (h32 : RoundsToPrecision 24 fl.f32) (h64 : RoundsToPrecision 53 fl.f64)
    (hsqrt : ∀ x : F, 0 ≤ x → 0 ≤ m.sqrt x ∧ m.sqrt x * m.sqrt x = x)
    (hexp : ∀ x : F, 0 < m.exp x) (w : List F) (hw : ∀ x ∈ w, 0 ≤ x ∧ x ≤ 1)
    (p : Bool × Nat × Nat) :
    0 ≤ pair_curw_fp fl m w p ∧ pair_curw_fp fl m w p ≤ 511 / 512 := by
  unfold pair_curw_fp
  have h1 := wpos_nonneg w (fun x hx => (hw x hx).1) p.2.1
  have h2 := wpos_nonneg w (fun x hx => (hw x hx).1) p.2.2
  have h3 := wpos_le_one w (fun x hx => (hw x hx).2) p.2.1
  have h4 := wpos_le_one w (fun x hx => (hw x hx).2) p.2.2
  obtain ⟨hd0, hd1⟩ := word_distance_fp_range fl m h32 h64 hexp (pair_distance p : Nat)
  have h12 : 0 ≤ wpos w p.2.1 * wpos w p.2.2 := mul_nonneg h1 h2
  have h12le : wpos w p.2.1 * wpos w p.2.2 ≤ 1 := by
    calc wpos w p.2.1 * wpos w p.2.2 ≤ 1 * 1 := mul_le_mul h3 h4 h2 zero_le_one
      _ = 1 := one_mul 1
  obtain ⟨a0, a1⟩ := rounds_unit 24 (by norm_num) fl.f32 h32 _ h12 h12le
  generalize fl.f32 (wpos w p.2.1 * wpos w p.2.2) = a at a0 a1
  generalize word_distance_fp fl m (pair_distance p : Nat) = d at hd0 hd1
  have b0 : 0 ≤ a * d := mul_nonneg a0 hd0
  have b1 : a * d ≤ 255 / 256 := by
    calc a * d ≤ 1 * d := mul_le_mul_of_nonneg_right a1 hd0
      _ = d := one_mul d
      _ ≤ 255 / 256 := hd1
  have c0 := rounds_ge 24 fl.f32 h32 0 0 (by norm_num) 0 (by norm_num) _ b0
  have c1 := rounds_le 24 fl.f32 h32 255 8 (by norm_num) (255 / 256) (by norm_num) _ b1
  generalize fl.f32 (a * d) = y at c0 c1
  obtain ⟨s0, s1⟩ := hsqrt y c0
  have s2 : m.sqrt y ≤ 511 / 512 := by
    by_contra hcon
    have hgt : (511 : F) / 512 < m.sqrt y := not_le.1 hcon
    have : (511 : F) / 512 * (511 / 512) < m.sqrt y * m.sqrt y :=
      mul_lt_mul'' hgt hgt (by norm_num) (by norm_num)
    have h5 : (255 : F) / 256 ≤ 511 / 512 * (511 / 512) := by norm_num
    linarith
  have e0 := rounds_ge 53 fl.f64 h64 0 0 (by norm_num) 0 (by norm_num) _ s0
  have e1 := rounds_le 53 fl.f64 h64 511 9 (by norm_num) (511 / 512) (by norm_num) _ s2
  exact ⟨rounds_ge 24 fl.f32 h32 0 0 (by norm_num) 0 (by norm_num) _ e0,
    rounds_le 24 fl.f32 h32 511 9 (by norm_num) (511 / 512) (by norm_num) _ e1⟩

/-- The loop body in floating point, on a contributing pair and on another one. -/
theorem rank_and_pair_fp_cases (fl : FloatFns F) (m : MathFns F) (w : List F)
    (p : Bool × Nat × Nat) (res : F) :
    rank_and_pair_fp fl m w p.1 p.2.1 p.2.2 res =
      if pair_contributes p = true then
        (if res < 0 then pair_curw_fp fl m w p
          else fl.f32 (fl.f64 (1.0 - fl.f64 (fl.f64 (1.0 - res) *
            fl.f64 (1.0 - pair_curw_fp fl m w p)))))
      else res := by
  unfold rank_and_pair_fp pair_contributes pair_curw_fp pair_distance
  by_cases h : WEP_GETPOS p.2.1 = WEP_GETPOS p.2.2
  · have hd : Int.natAbs ((WEP_GETPOS p.2.1 : Int) - (WEP_GETPOS p.2.2 : Int)) = 0 := by
      rw [h]; simp
    by_cases hp : p.1 = true
    · simp [h, hp]
    · simp [h, hp]
  · have hd : Int.natAbs ((WEP_GETPOS p.2.1 : Int) - (WEP_GETPOS p.2.2 : Int)) ≠ 0 := by
      omega
    simp [h, hd]

/-- The noisy-OR step in floating point keeps an accumulator of `[0, 1]` in `[0, 1]`. -/
theorem noisy_or_fp_range (fl : FloatFns F) (h32 : RoundsToPrecision 24 fl.f32)
    (h64 : RoundsToPrecision 53 fl.f64) (res curw : F) (h0 : 0 ≤ res) (h1 : res ≤ 1)
    (c0 : 0 ≤ curw) (c1 : curw ≤ 1) :
    0 ≤ fl.f32 (fl.f64 (1.0 - fl.f64 (fl.f64 (1.0 - res) * fl.f64 (1.0 - curw)))) ∧
      fl.f32 (fl.f64 (1.0 - fl.f64 (fl.f64 (1.0 - res) * fl.f64 (1.0 - curw)))) ≤ 1 := by
  rw [one_lit]
  obtain ⟨a0, a1⟩ := rounds_unit 53 (by norm_num) fl.f64 h64 (1 - res) (by linarith)
    (by linarith)
  obtain ⟨b0, b1⟩ := rounds_unit 53 (by norm_num) fl.f64 h64 (1 - curw) (by linarith)
    (by linarith)
  have m0 : 0 ≤ fl.f64 (1 - res) * fl.f64 (1 - curw) := mul_nonneg a0 b0
  have m1 : fl.f64 (1 - res) * fl.f64 (1 - curw) ≤ 1 := by
    calc fl.f64 (1 - res) * fl.f64 (1 - curw) ≤ 1 * 1 := mul_le_mul a1 b1 b0 zero_le_one
      _ = 1 := one_mul 1
  obtain ⟨d0, d1⟩ := rounds_unit 53 (by norm_num) fl.f64 h64 _ m0 m1
  obtain ⟨e0, e1⟩ := rounds_unit 53 (by norm_num) fl.f64 h64
    (1 - fl.f64 (fl.f64 (1 - res) * fl.f64 (1 - curw))) (by linarith) (by linarith)
  exact rounds_unit 24 (by norm_num) fl.f32 h32 _ e0 e1

end FloatRange

section FloatPairs

variable {F : Type} [LinearOrderedField F]

theorem calc_rank_and_pairs_fp_eq (fl : FloatFns F) (m : MathFns F) (w : List F)
    (posi posk : PosVector) (res : F) :
    calc_rank_and_pairs_fp fl m w posi posk res =
      (posvector_pairs posi posk).foldl
        (fun r p => rank_and_pair_fp fl m w p.1 p.2.1 p.2.2 r) res := by
  unfold calc_rank_and_pairs_fp posvector_pairs
  rw [foldl_flatMap_eq]
  congr 1
  funext r post
  rw [List.foldl_map]

theorem calc_rank_and_entry_fp_eq (fl : FloatFns F) (m : MathFns F) (w : List F)
    (posi : PosVector) (pos : List (Option PosVector)) (res : F) :
    calc_rank_and_entry_fp fl m w posi pos res =
      (entry_pairs posi pos).foldl
        (fun r p => rank_and_pair_fp fl m w p.1 p.2.1 p.2.2 r) res := by
  unfold calc_rank_and_entry_fp entry_pairs
  rw [foldl_flatMap_eq]
  congr 1
  funext r posk
  cases posk with
  | none => rfl
  | some posk => exact calc_rank_and_pairs_fp_eq fl m w posi posk r

theorem calc_rank_and_entries_fp_eq (fl : FloatFns F) (m : MathFns F) (w : List F)
    (pos : List (Option PosVector)) (es : List WordEntry) :
    ∀ st : Option PosVector × F, es ≠ [] →
      calc_rank_and_entries_fp fl m w pos es st =
        (last_posvector es,
          (es.flatMap (fun e => entry_pairs (entry_posvector e) pos)).foldl
            (fun r p => rank_and_pair_fp fl m w p.1 p.2.1 p.2.2 r) st.2) := by
  induction es with
  | nil => intro st h; exact absurd rfl h
  | cons e es ih =>
    intro st _
    cases es with
    | nil =>
      simp only [calc_rank_and_entries_fp, last_posvector, List.flatMap_cons,
        List.flatMap_nil, List.append_nil, calc_rank_and_entry_fp_eq, entry_posvector]
    | cons e2 es2 =>
      simp only [calc_rank_and_entries_fp] at ih ⊢
      rw [ih (none, calc_rank_and_entry_fp fl m w
        (if e.haspos = true then { isPOSNULL := false, pos := e.pos } else POSNULL) pos st.2)
        (by simp)]
      simp only [last_posvector, List.flatMap_cons, List.foldl_append,
        calc_rank_and_entry_fp_eq, entry_posvector]

/-- In floating point, too, the pairwise kernel is the accumulation of the loop body
over the pairs it examines. -/
theorem calc_rank_and_items_fp_eq (fl : FloatFns F) (m : MathFns F) (w : List F)
    (t : TSVector) (items : List QueryOperand) :
    ∀ (pos : List (Option PosVector)) (res : F),
      calc_rank_and_items_fp fl m w t items pos res =
        some ((items_pairs t items pos).foldl
          (fun r p => rank_and_pair_fp fl m w p.1 p.2.1 p.2.2 r) res) := by
  induction items with
  | nil => intro pos res; rfl
  | cons item rest ih =>
    intro pos res
    obtain ⟨r, hr⟩ := find_wordentry_isSome t item
    have hm : matched_entries t item = r.entries t := by
      simp only [matched_entries, hr]
    simp only [calc_rank_and_items_fp, hr, items_pairs, hm, List.foldl_append]
    by_cases hnil : r.entries t = []
    · simp only [hnil, calc_rank_and_entries_fp, last_posvector, List.flatMap_nil,
        List.foldl_nil, ih]
    · rw [calc_rank_and_entries_fp_eq fl m w pos _ _ hnil, ih]

end FloatPairs

section FloatClaim

variable {F : Type} [LinearOrderedField F]

/-- In floating point the loop over the pairs keeps an accumulator of `[0, 1]` in
`[0, 1]`. -/
theorem foldl_pairs_fp_from_unit (fl : FloatFns F) (m : MathFns F) (w : List F)
    (h32 : RoundsToPrecision 24 fl.f32) (h64 : RoundsToPrecision 53 fl.f64)
    (hc : ∀ p : Bool × Nat × Nat, 0 ≤ pair_curw_fp fl m w p ∧ pair_curw_fp fl m w p ≤ 1)
    (ps : List (Bool × Nat × Nat)) :
    ∀ res : F, 0 ≤ res → res ≤ 1 →
      0 ≤ ps.foldl (fun r p => rank_and_pair_fp fl m w p.1 p.2.1 p.2.2 r) res ∧
        ps.foldl (fun r p => rank_and_pair_fp fl m w p.1 p.2.1 p.2.2 r) res ≤ 1 := by
  induction ps with
  | nil => intro res h0 h1; exact ⟨h0, h1⟩
  | cons p ps ih =>
    intro res h0 h1
    simp only [List.foldl_cons]
    apply ih
    · rw [rank_and_pair_fp_cases]
      split_ifs with hp hneg
      · exact (hc p).1
      · exact (noisy_or_fp_range fl h32 h64 res _ h0 h1 (hc p).1 (hc p).2).1
      · exact h0
    · rw [rank_and_pair_fp_cases]
      split_ifs with hp hneg
      · exact (hc p).2
      · exact (noisy_or_fp_range fl h32 h64 res _ h0 h1 (hc p).1 (hc p).2).2
      · exact h1

/-- In floating point the loop over the pairs leaves a negative accumulator when no pair
contributes, and otherwise ends in `[0, 1]`. -/
theorem foldl_pairs_fp_from_neg (fl : FloatFns F) (m : MathFns F) (w : List F)
    (h32 : RoundsToPrecision 24 fl.f32) (h64 : RoundsToPrecision 53 fl.f64)
    (hc : ∀ p : Bool × Nat × Nat, 0 ≤ pair_curw_fp fl m w p ∧ pair_curw_fp fl m w p ≤ 1)
    (ps : List (Bool × Nat × Nat)) (res : F) (hres : res < 0) :
    (ps.filter pair_contributes = [] →
      ps.foldl (fun r p => rank_and_pair_fp fl m w p.1 p.2.1 p.2.2 r) res = res) ∧
    (ps.filter pair_contributes ≠ [] →
      0 ≤ ps.foldl (fun r p => rank_and_pair_fp fl m w p.1 p.2.1 p.2.2 r) res ∧
        ps.foldl (fun r p => rank_and_pair_fp fl m w p.1 p.2.1 p.2.2 r) res ≤ 1) := by
  induction ps with
  | nil => exact ⟨fun _ => rfl, fun h => absurd rfl h⟩
  | cons p ps ih =>
    by_cases hp : pair_contributes p = true
    · have hstep : rank_and_pair_fp fl m w p.1 p.2.1 p.2.2 res = pair_curw_fp fl m w p := by
        rw [rank_and_pair_fp_cases, if_pos hp, if_pos hres]
      simp only [List.foldl_cons, List.filter_cons, hp, if_true, hstep]
      refine ⟨fun h => absurd h (by simp), fun _ => ?_⟩
      exact foldl_pairs_fp_from_unit fl m w h32 h64 hc ps _ (hc p).1 (hc p).2
    · have hp2 : pair_contributes p = false := by simpa using hp
      have hstep : rank_and_pair_fp fl m w p.1 p.2.1 p.2.2 res = res := by
        rw [rank_and_pair_fp_cases, if_neg hp]
      simp only [List.foldl_cons, List.filter_cons, hp2, hstep]
      simpa using ih

/-- With roundings that change nothing the loop body in floating point is the exact
one. -/
theorem rank_and_pair_fp_exact (m : MathFns F) (w : List F) (posnull : Bool) (post ct : Nat)
    (res : F) :
    rank_and_pair_fp ⟨id, id⟩ m w posnull post ct res = rank_and_pair m w posnull post ct res := by
  unfold rank_and_pair_fp rank_and_pair word_distance_fp word_distance
  rfl

/-- With roundings that change nothing `calc_rank_and` in floating point is the exact
`calc_rank_and`. -/
theorem calc_rank_and_fp_exact (m : MathFns F)
    (qsort_arg : List QueryOperand → List QueryOperand) (w : List F) (t : TSVector)
    (q : TSQuery) :
    calc_rank_and_fp ⟨id, id⟩ m qsort_arg (calc_rank_or qsort_arg w t q) w t q =
      calc_rank_and m qsort_arg w t q := by
  unfold calc_rank_and_fp calc_rank_and
  simp only []
  by_cases h : (SortAndUniqItems qsort_arg q).length < 2
  · rw [if_pos h, if_pos h]
  · rw [if_neg h, if_neg h, calc_rank_and_items_fp_eq, calc_rank_and_items_eq]
    have hstep : (fun (r : F) (p : Bool × Nat × Nat) =>
        rank_and_pair_fp ⟨id, id⟩ m w p.1 p.2.1 p.2.2 r) =
        (fun r p => rank_and_pair m w p.1 p.2.1 p.2.2 r) := by
      funext r p
      exact rank_and_pair_fp_exact m w p.1 p.2.1 p.2.2 r
    rw [hstep]

/-- C21, as amended. Pairwise score range: with roundings to binary32 and binary64 that
never cross a number of their format, an exact square root and a positive `exp`, for
every weight table with all weights in `[0, 1]`, every document and every query with at
least two distinct operands, the value `calc_rank_and` computes in floating point is
exactly `-1` when no pair contributes and lies in `[0, 1]` otherwise: each contribution
`curw` lies in `[0, 1)`, the loop body sets a negative accumulator to `curw` and takes
an accumulator `res` of `[0, 1]` to the rounded `1 - (1 - res) * (1 - curw)`, again in
`[0, 1]` (1 included). In exact arithmetic the accumulated score is 1 minus the product
of `1 - curw` over the contributing pairs, a value of `[0, 1)`. -/
theorem calc_rank_and_rounded_range (fl : FloatFns F) (m : MathFns F)
    (h32 : RoundsToPrecision 24 fl.f32) (h64 : RoundsToPrecision 53 fl.f64)
    (hsqrt : ∀ x : F, 0 ≤ x → 0 ≤ m.sqrt x ∧ m.sqrt x * m.sqrt x = x)
    (hexp : ∀ x : F, 0 < m.exp x)
    (qsort_arg : List QueryOperand → List QueryOperand) (per_term : Option F)
    (w : List F) (hw : ∀ x ∈ w, 0 ≤ x ∧ x ≤ 1) (t : TSVector) (q : TSQuery)
    (h2 : 2 ≤ (SortAndUniqItems qsort_arg q).length) :
    (∀ p ∈ contributing_pairs t (SortAndUniqItems qsort_arg q),
      (0 ≤ pair_curw_fp fl m w p ∧ pair_curw_fp fl m w p < 1) ∧
      (∀ res : F, res < 0 →
        rank_and_pair_fp fl m w p.1 p.2.1 p.2.2 res = pair_curw_fp fl m w p) ∧
      (∀ res : F, 0 ≤ res → res ≤ 1 →
        rank_and_pair_fp fl m w p.1 p.2.1 p.2.2 res =
          fl.f32 (fl.f64 (1 - fl.f64 (fl.f64 (1 - res) *
            fl.f64 (1 - pair_curw_fp fl m w p)))) ∧
        0 ≤ rank_and_pair_fp fl m w p.1 p.2.1 p.2.2 res ∧
        rank_and_pair_fp fl m w p.1 p.2.1 p.2.2 res ≤ 1)) ∧
    (contributing_pairs t (SortAndUniqItems qsort_arg q) = [] →
      calc_rank_and_fp fl m qsort_arg per_term w t q = some (-1)) ∧
    (contributing_pairs t (SortAndUniqItems qsort_arg q) ≠ [] →
      ∃ r, calc_rank_and_fp fl m qsort_arg per_term w t q = some r ∧ 0 ≤ r ∧ r ≤ 1) ∧
    (contributing_pairs t (SortAndUniqItems qsort_arg q) ≠ [] →
      calc_rank_and m qsort_arg w t q =
        some (1 - ((contributing_pairs t (SortAndUniqItems qsort_arg q)).map
          (fun p => 1 - pair_curw m w p)).prod) ∧
      0 ≤ 1 - ((contributing_pairs t (SortAndUniqItems qsort_arg q)).map
          (fun p => 1 - pair_curw m w p)).prod ∧
      1 - ((contributing_pairs t (SortAndUniqItems qsort_arg q)).map
          (fun p => 1 - pair_curw m w p)).prod < 1) := by
  have hc : ∀ p : Bool × Nat × Nat,
      0 ≤ pair_curw_fp fl m w p ∧ pair_curw_fp fl m w p ≤ 511 / 512 :=
    pair_curw_fp_range fl m h32 h64 hsqrt hexp w hw
  have hc1 : ∀ p : Bool × Nat × Nat,
      0 ≤ pair_curw_fp fl m w p ∧ pair_curw_fp fl m w p ≤ 1 := by
    intro p
    have h511 : (511 : F) / 512 ≤ 1 := by norm_num
    exact ⟨(hc p).1, le_trans (hc p).2 h511⟩
  have hrun : calc_rank_and_fp fl m qsort_arg per_term w t q =
      some ((items_pairs t (SortAndUniqItems qsort_arg q) []).foldl
        (fun r p => rank_and_pair_fp fl m w p.1 p.2.1 p.2.2 r) (-1.0)) := by
    unfold calc_rank_and_fp
    simp only []
    rw [if_neg (by omega), calc_rank_and_items_fp_eq]
  obtain ⟨hfold0, hfold1⟩ := foldl_pairs_fp_from_neg fl m w h32 h64 hc1
    (items_pairs t (SortAndUniqItems qsort_arg q) []) (-1.0) (by norm_num)
  have hsqrt1 : ∀ x : F, 0 ≤ x → x < 1 → 0 ≤ m.sqrt x ∧ m.sqrt x < 1 := by
    intro x h0 h1
    obtain ⟨s0, s1⟩ := hsqrt x h0
    refine ⟨s0, ?_⟩
    by_contra hcon
    have hge : 1 ≤ m.sqrt x := not_lt.1 hcon
    have : 1 * 1 ≤ m.sqrt x * m.sqrt x := mul_le_mul hge hge zero_le_one s0
    linarith
  refine ⟨?_, ?_, ?_, ?_⟩
  · intro p hp
    have hcontrib : pair_contributes p = true := by
      unfold contributing_pairs at hp
      exact (List.mem_filter.1 hp).2
    have h511 : (511 : F) / 512 < 1 := by norm_num
    refine ⟨⟨(hc p).1, lt_of_le_of_lt (hc p).2 h511⟩, ?_, ?_⟩
    · intro res hres
      rw [rank_and_pair_fp_cases, if_pos hcontrib, if_pos hres]
    · intro res h0 h1
      have hstep : rank_and_pair_fp fl m w p.1 p.2.1 p.2.2 res =
          fl.f32 (fl.f64 (1 - fl.f64 (fl.f64 (1 - res) *
            fl.f64 (1 - pair_curw_fp fl m w p)))) := by
        rw [rank_and_pair_fp_cases, if_pos hcontrib, if_neg (not_lt.2 h0), one_lit]
      rw [hstep]
      have hr := noisy_or_fp_range fl h32 h64 res (pair_curw_fp fl m w p) h0 h1
        (hc1 p).1 (hc1 p).2
      rw [one_lit] at hr
      exact ⟨rfl, hr⟩
  · intro hnil
    rw [hrun, hfold0 hnil]
    norm_num
  · intro hne
    exact ⟨_, hrun, hfold1 hne⟩
  · intro hne
    exact (calc_rank_and_exact_score_range m hsqrt1 hexp qsort_arg w hw t q h2).2.2 hne

end FloatClaim

/-! ## Lower bounds in floating point -/

section FloatBounds

variable {F : Type} [LinearOrderedField F]

theorem rounds_eq (p : Nat) (f : F → F) (h : RoundsToPrecision p f) (n k : Nat)
    (hn : n < 2 ^ p) (c : F) (hc : c = (n : F) / 2 ^ k) : f c = c :=
  le_antisymm (rounds_le p f h n k hn c hc c (le_refl c))
    (rounds_ge p f h n k hn c hc c (le_refl c))

theorem weights_fp_range (fl : FloatFns F) (h32 : RoundsToPrecision 24 fl.f32) :
    ∀ x ∈ weights_fp fl, 0 ≤ x ∧ x ≤ 1 := by
  intro x hx
  simp only [weights_fp, List.mem_cons, List.mem_singleton, List.not_mem_nil, or_false] at hx
  rcases hx with rfl | rfl | rfl | rfl <;>
    exact rounds_unit 24 (by norm_num) fl.f32 h32 _ (by norm_num) (by norm_num)

/-- A lower bound of `word_distance` in floating point from an upper bound `b / 2 ^ 16`
of the exponential: `n6 / 2 ^ 16`, when `0.05 * b / 2 ^ 16 <= n4 / 2 ^ 16` and
`n6 / 2 ^ 16 <= 1 / (1.005 + n4 / 2 ^ 16)`, the constants rounded outwards to
`3277 / 2 ^ 16` and `65864 / 2 ^ 16`. -/
theorem word_distance_fp_ge (fl : FloatFns F) (m : MathFns F)
    (h32 : RoundsToPrecision 24 fl.f32) (h64 : RoundsToPrecision 53 fl.f64)
    (hexp : ∀ x : F, 0 < m.exp x) (d : Int) (hd : ¬ 100 < d) (b n4 n6 : Nat)
    (hb : b < 2 ^ 53) (hn4 : n4 < 2 ^ 52) (hn6 : n6 < 2 ^ 24)
    (hE : m.exp (fl.f64 (fl.f64 (fl.f32 (d : F) / 1.5) - 2)) ≤ (b : F) / 2 ^ 16)
    (h1 : 3277 * b ≤ n4 * 65536) (h2 : n6 * (65864 + n4) ≤ 65536 * 65536) :
    (n6 : F) / 2 ^ 16 ≤ word_distance_fp fl m d := by
  unfold word_distance_fp
  rw [if_neg hd]
  have hE0 : 0 ≤ fl.f64 (m.exp (fl.f64 (fl.f64 (fl.f32 (d : F) / 1.5) - 2))) :=
    rounds_ge 53 fl.f64 h64 0 0 (by norm_num) 0 (by norm_num) _ (le_of_lt (hexp _))
  have hE1 : fl.f64 (m.exp (fl.f64 (fl.f64 (fl.f32 (d : F) / 1.5) - 2))) ≤ (b : F) / 2 ^ 16 :=
    rounds_le 53 fl.f64 h64 b 16 hb _ rfl _ hE
  generalize fl.f64 (m.exp (fl.f64 (fl.f64 (fl.f32 (d : F) / 1.5) - 2))) = E at hE0 hE1
  have hc0 : 0 ≤ fl.f64 0.05 :=
    rounds_ge 53 fl.f64 h64 0 0 (by norm_num) 0 (by norm_num) _ (by norm_num)
  have hc1 : fl.f64 0.05 ≤ 3277 / 2 ^ 16 :=
    rounds_le 53 fl.f64 h64 3277 16 (by norm_num) _ (by norm_num) _ (by norm_num)
  have h1F : (3277 : F) * (b : F) ≤ (n4 : F) * 65536 := by exact_mod_cast h1
  have hP : fl.f64 0.05 * E ≤ (n4 : F) / 2 ^ 16 := by
    calc fl.f64 0.05 * E ≤ 3277 / 2 ^ 16 * ((b : F) / 2 ^ 16) :=
          mul_le_mul hc1 hE1 hE0 (by positivity)
      _ = (3277 * (b : F)) / (2 ^ 16 * 2 ^ 16) := by ring
      _ ≤ ((n4 : F) * 65536) / (2 ^ 16 * 2 ^ 16) :=
          div_le_div_of_nonneg_right h1F (by positivity)
      _ = (n4 : F) / 2 ^ 16 := by
          have : (65536 : F) = 2 ^ 16 := by norm_num
          rw [this]; field_simp; ring
  have hP0 : 0 ≤ fl.f64 (fl.f64 0.05 * E) :=
    rounds_ge 53 fl.f64 h64 0 0 (by norm_num) 0 (by norm_num) _ (mul_nonneg hc0 hE0)
  have hP1 := rounds_le 53 fl.f64 h64 n4 16 (lt_trans hn4 (by norm_num)) _ rfl _ hP
  generalize fl.f64 (fl.f64 0.05 * E) = P at hP0 hP1
  have hk0 : (1029 : F) / 1024 ≤ fl.f64 1.005 :=
    rounds_ge 53 fl.f64 h64 1029 10 (by norm_num) (1029 / 1024) (by norm_num) _ (by norm_num)
  have hk1 : fl.f64 1.005 ≤ 65864 / 2 ^ 16 :=
    rounds_le 53 fl.f64 h64 65864 16 (by norm_num) _ (by norm_num) _ (by norm_num)
  have hS : fl.f64 1.005 + P ≤ ((65864 + n4 : Nat) : F) / 2 ^ 16 := by
    push_cast
    have : ((65864 : F) + (n4 : F)) / 2 ^ 16 = 65864 / 2 ^ 16 + (n4 : F) / 2 ^ 16 := by ring
    rw [this]
    linarith
  have hS1 := rounds_le 53 fl.f64 h64 (65864 + n4) 16
    (by have h53 : (2 : Nat) ^ 53 = 2 ^ 52 + 2 ^ 52 := by norm_num
        have h52 : (65864 : Nat) < 2 ^ 52 := by norm_num
        omega) _ rfl _ hS
  have hS0 : (1029 : F) / 1024 ≤ fl.f64 (fl.f64 1.005 + P) :=
    rounds_ge 53 fl.f64 h64 1029 10 (by norm_num) (1029 / 1024) (by norm_num) _ (by linarith)
  generalize fl.f64 (fl.f64 1.005 + P) = S at hS0 hS1
  have hSpos : (0 : F) < S := by
    have : (0 : F) < 1029 / 1024 := by norm_num
    linarith
  have h2F : (n6 : F) * ((65864 + n4 : Nat) : F) ≤ 65536 * 65536 := by exact_mod_cast h2
  have hQ : (n6 : F) / 2 ^ 16 ≤ 1.0 / S := by
    rw [one_lit, le_div_iff₀ hSpos]
    have hn6 : (0 : F) ≤ (n6 : F) / 2 ^ 16 := by positivity
    calc (n6 : F) / 2 ^ 16 * S ≤ (n6 : F) / 2 ^ 16 * (((65864 + n4 : Nat) : F) / 2 ^ 16) :=
          mul_le_mul_of_nonneg_left hS1 hn6
      _ = ((n6 : F) * ((65864 + n4 : Nat) : F)) / (2 ^ 16 * 2 ^ 16) := by ring
      _ ≤ (65536 * 65536) / (2 ^ 16 * 2 ^ 16) :=
          div_le_div_of_nonneg_right h2F (by positivity)
      _ = 1 := by norm_num
  have hR := rounds_ge 53 fl.f64 h64 n6 16 (lt_trans hn6 (by norm_num)) _ rfl _ hQ
  exact rounds_ge 24 fl.f32 h32 n6 16 hn6 _ rfl _ hR

/-- A lower bound of a contribution `curw` in floating point, for weights 1, from a
lower bound `n6 / 2 ^ 16` of `word_distance`: `n7 / 2 ^ 16` when its square is at most
`n6 / 2 ^ 16`. -/
theorem curw_fp_ge (fl : FloatFns F) (m : MathFns F)
    (h32 : RoundsToPrecision 24 fl.f32) (h64 : RoundsToPrecision 53 fl.f64)
    (hsqrt : ∀ x : F, 0 ≤ x → 0 ≤ m.sqrt x ∧ m.sqrt x * m.sqrt x = x)
    (wd : F) (n6 n7 : Nat) (hn6 : n6 < 2 ^ 24) (hn7 : n7 < 2 ^ 24)
    (hwd : (n6 : F) / 2 ^ 16 ≤ wd) (h : n7 * n7 ≤ n6 * 65536) :
    (n7 : F) / 2 ^ 16 ≤ fl.f32 (fl.f64 (m.sqrt (fl.f32 (fl.f32 (1 * 1) * wd)))) := by
  have e1 : fl.f32 (1 * 1) = 1 := by
    rw [one_mul]
    exact rounds_eq 24 fl.f32 h32 1 0 (by norm_num) 1 (by norm_num)
  rw [e1, one_mul]
  have hy := rounds_ge 24 fl.f32 h32 n6 16 hn6 _ rfl _ hwd
  generalize fl.f32 wd = y at hy
  have hy0 : (0 : F) ≤ y := le_trans (by positivity) hy
  obtain ⟨s0, s1⟩ := hsqrt y hy0
  have hF : (n7 : F) * (n7 : F) ≤ (n6 : F) * 65536 := by exact_mod_cast h
  have hs : (n7 : F) / 2 ^ 16 ≤ m.sqrt y := by
    by_contra hcon
    have hlt : m.sqrt y < (n7 : F) / 2 ^ 16 := not_le.1 hcon
    have hsq : m.sqrt y * m.sqrt y < (n7 : F) / 2 ^ 16 * ((n7 : F) / 2 ^ 16) :=
      mul_lt_mul'' hlt hlt s0 s0
    have hle : (n7 : F) / 2 ^ 16 * ((n7 : F) / 2 ^ 16) ≤ (n6 : F) / 2 ^ 16 := by
      calc (n7 : F) / 2 ^ 16 * ((n7 : F) / 2 ^ 16) = ((n7 : F) * (n7 : F)) / (2 ^ 16 * 2 ^ 16) := by
            ring
        _ ≤ ((n6 : F) * 65536) / (2 ^ 16 * 2 ^ 16) :=
            div_le_div_of_nonneg_right hF (by positivity)
        _ = (n6 : F) / 2 ^ 16 := by
            have : (65536 : F) = 2 ^ 16 := by norm_num
            rw [this]; field_simp; ring
    linarith
  have hr := rounds_ge 53 fl.f64 h64 n7 16 (lt_trans hn7 (by norm_num)) _ rfl _ hs
  exact rounds_ge 24 fl.f32 h32 n7 16 hn7 _ rfl _ hr

/-- A lower bound of the noisy-OR step in floating point: from `1 - res <= a / 2 ^ k1`
and `1 - curw <= c / 2 ^ k2` the rounded product is at most `a * c / 2 ^ (k1 + k2)`, and
the new accumulator is at least any binary32 number below `1 - a * c / 2 ^ (k1 + k2)`. -/
theorem noisy_or_fp_ge (fl : FloatFns F) (h32 : RoundsToPrecision 24 fl.f32)
    (h64 : RoundsToPrecision 53 fl.f64) (res curw : F) (a c k1 k2 n k : Nat)
    (ha : a < 2 ^ 26) (hc : c < 2 ^ 26) (hk : k1 + k2 ≤ 52) (hac : a * c ≤ 2 ^ (k1 + k2))
    (hn : n < 2 ^ 24)
    (hres : 1 - (a : F) / 2 ^ k1 ≤ res) (hres1 : res ≤ 1)
    (hcurw : 1 - (c : F) / 2 ^ k2 ≤ curw) (hcurw1 : curw ≤ 1)
    (hbound : (n : F) / 2 ^ k ≤ 1 - ((a * c : Nat) : F) / 2 ^ (k1 + k2)) :
    (n : F) / 2 ^ k ≤
        fl.f32 (fl.f64 (1.0 - fl.f64 (fl.f64 (1.0 - res) * fl.f64 (1.0 - curw)))) ∧
      fl.f32 (fl.f64 (1.0 - fl.f64 (fl.f64 (1.0 - res) * fl.f64 (1.0 - curw)))) ≤ 1 ∧
      1 - ((a * c : Nat) : F) / 2 ^ (k1 + k2) ≤
        fl.f64 (1.0 - fl.f64 (fl.f64 (1.0 - res) * fl.f64 (1.0 - curw))) ∧
      fl.f64 (1.0 - fl.f64 (fl.f64 (1.0 - res) * fl.f64 (1.0 - curw))) ≤ 1 := by
  rw [one_lit]
  have h26 : (2 : Nat) ^ 26 < 2 ^ 53 := by norm_num
  have a0 := rounds_ge 53 fl.f64 h64 0 0 (by norm_num) 0 (by norm_num) (1 - res) (by linarith)
  have a1 := rounds_le 53 fl.f64 h64 a k1 (lt_trans ha h26) _ rfl (1 - res) (by linarith)
  have b0 := rounds_ge 53 fl.f64 h64 0 0 (by norm_num) 0 (by norm_num) (1 - curw)
    (by linarith)
  have b1 := rounds_le 53 fl.f64 h64 c k2 (lt_trans hc h26) _ rfl (1 - curw) (by linarith)
  generalize fl.f64 (1 - res) = x at a0 a1
  generalize fl.f64 (1 - curw) = y at b0 b1
  have hacn : a * c < 2 ^ 53 := by
    have h1 : a * c ≤ 2 ^ 26 * 2 ^ 26 := Nat.mul_le_mul (le_of_lt ha) (le_of_lt hc)
    have h2 : (2 : Nat) ^ 26 * 2 ^ 26 < 2 ^ 53 := by norm_num
    omega
  have hxy : x * y ≤ ((a * c : Nat) : F) / 2 ^ (k1 + k2) := by
    have : (a : F) / 2 ^ k1 * ((c : F) / 2 ^ k2) = ((a * c : Nat) : F) / 2 ^ (k1 + k2) := by
      push_cast
      rw [pow_add]
      field_simp
    rw [← this]
    exact mul_le_mul a1 b1 b0 (by positivity)
  have p0 := rounds_ge 53 fl.f64 h64 0 0 (by norm_num) 0 (by norm_num) _ (mul_nonneg a0 b0)
  have p1 := rounds_le 53 fl.f64 h64 (a * c) (k1 + k2) hacn _ rfl _ hxy
  generalize fl.f64 (x * y) = z at p0 p1
  have hrep : 1 - ((a * c : Nat) : F) / 2 ^ (k1 + k2) =
      ((2 ^ (k1 + k2) - a * c : Nat) : F) / 2 ^ (k1 + k2) := by
    rw [Nat.cast_sub hac]
    push_cast
    field_simp
  have hnk : 2 ^ (k1 + k2) - a * c < 2 ^ 53 := by
    have : (2 : Nat) ^ (k1 + k2) ≤ 2 ^ 52 := Nat.pow_le_pow_right (by norm_num) hk
    have h2 : (2 : Nat) ^ 52 < 2 ^ 53 := by norm_num
    omega
  have q0 := rounds_ge 53 fl.f64 h64 (2 ^ (k1 + k2) - a * c) (k1 + k2) hnk _ hrep (1 - z)
    (by linarith)
  have q1 := rounds_le 53 fl.f64 h64 1 0 (by norm_num) 1 (by norm_num) (1 - z) (by linarith)
  refine ⟨?_, ?_, q0, q1⟩
  · exact rounds_ge 24 fl.f32 h32 n k hn _ rfl _ (le_trans hbound q0)
  · exact rounds_le 24 fl.f32 h32 1 0 (by norm_num) 1 (by norm_num) _ q1

end FloatBounds

/-! ## The pairwise score reaches 1 in binary32 -/

theorem real_exp_neg_bound : Real.exp (-(341 / 256)) ≤ 17695 / 65536 := by
  have h1 : Real.exp (341 / 256) = Real.exp 1 * Real.exp (85 / 256) := by
    rw [← Real.exp_add]
    norm_num
  have h2 : (1 : ℝ) + 85 / 256 + (85 / 256) ^ 2 / 2 ≤ Real.exp (85 / 256) :=
    Real.quadratic_le_exp_of_nonneg (by norm_num)
  have h3 := Real.exp_one_gt_d9
  have h4 : (65536 : ℝ) / 17695 ≤ Real.exp (341 / 256) := by
    rw [h1]
    have h5 : (2.7182818283 : ℝ) * (1 + 85 / 256 + (85 / 256) ^ 2 / 2) ≤
        Real.exp 1 * Real.exp (85 / 256) :=
      mul_le_mul (le_of_lt h3) h2 (by norm_num) (le_of_lt (Real.exp_pos 1))
    have h6 : (65536 : ℝ) / 17695 ≤ 2.7182818283 * (1 + 85 / 256 + (85 / 256) ^ 2 / 2) := by
      norm_num
    linarith
  rw [Real.exp_neg, inv_le_comm₀ (Real.exp_pos _) (by norm_num)]
  have : ((17695 : ℝ) / 65536)⁻¹ = 65536 / 17695 := by norm_num
  rw [this]
  exact h4

/-- The argument of `exp` in `word_distance(1)`, computed in binary64, is at most
`-341/256`, and its exponential at most `17695 / 2 ^ 16`. -/
theorem word_distance_one_exp_bound :
    Real.exp ((ieee_rounding : FloatFns ℝ).f64 ((ieee_rounding : FloatFns ℝ).f64
      ((ieee_rounding : FloatFns ℝ).f32 (((1 : Nat) : Int) : ℝ) / 1.5) - 2)) ≤
      ((17695 : Nat) : ℝ) / 2 ^ 16 := by
  have h32 : RoundsToPrecision 24 (ieee_rounding : FloatFns ℝ).f32 :=
    float_round_rounds 24 (by norm_num)
  have h64 : RoundsToPrecision 53 (ieee_rounding : FloatFns ℝ).f64 :=
    float_round_rounds 53 (by norm_num)
  have e1 : (ieee_rounding : FloatFns ℝ).f32 (((1 : Nat) : Int) : ℝ) = 1 := by
    have : ((((1 : Nat) : Int)) : ℝ) = 1 := by norm_num
    rw [this]
    exact rounds_eq 24 _ h32 1 0 (by norm_num) 1 (by norm_num)
  rw [e1]
  have a1 : (ieee_rounding : FloatFns ℝ).f64 (1 / 1.5) ≤ 171 / 256 :=
    rounds_le 53 _ h64 171 8 (by norm_num) _ (by norm_num) _ (by norm_num)
  have a2 : (ieee_rounding : FloatFns ℝ).f64
      ((ieee_rounding : FloatFns ℝ).f64 (1 / 1.5) - 2) ≤ -(341 / 256) := by
    generalize (ieee_rounding : FloatFns ℝ).f64 (1 / 1.5) = y at a1
    have hneg : (341 : ℝ) / 256 ≤ float_round 53 (-(y - 2)) :=
      rounds_ge 53 _ (float_round_rounds 53 (by norm_num)) 341 8 (by norm_num) _
        (by norm_num) _ (by linarith)
    rw [float_round_neg] at hneg
    have : (ieee_rounding : FloatFns ℝ).f64 (y - 2) = float_round 53 (y - 2) := rfl
    rw [this]
    linarith
  calc Real.exp _ ≤ Real.exp (-(341 / 256)) := Real.exp_le_exp.2 a2
    _ ≤ 17695 / 65536 := real_exp_neg_bound
    _ = ((17695 : Nat) : ℝ) / 2 ^ 16 := by norm_num

/-- The exponential in `word_distance(3)`, computed in binary64, is 1. -/
theorem word_distance_three_exp_bound :
    Real.exp ((ieee_rounding : FloatFns ℝ).f64 ((ieee_rounding : FloatFns ℝ).f64
      ((ieee_rounding : FloatFns ℝ).f32 (((3 : Nat) : Int) : ℝ) / 1.5) - 2)) ≤
      ((65536 : Nat) : ℝ) / 2 ^ 16 := by
  have h32 : RoundsToPrecision 24 (ieee_rounding : FloatFns ℝ).f32 :=
    float_round_rounds 24 (by norm_num)
  have h64 : RoundsToPrecision 53 (ieee_rounding : FloatFns ℝ).f64 :=
    float_round_rounds 53 (by norm_num)
  have e1 : (ieee_rounding : FloatFns ℝ).f32 (((3 : Nat) : Int) : ℝ) = 3 := by
    have : ((((3 : Nat) : Int)) : ℝ) = 3 := by norm_num
    rw [this]
    exact rounds_eq 24 _ h32 3 0 (by norm_num) 3 (by norm_num)
  have e2 : (ieee_rounding : FloatFns ℝ).f64 (3 / 1.5) = 2 := by
    have : (3 : ℝ) / 1.5 = 2 := by norm_num
    rw [this]
    exact rounds_eq 53 _ h64 2 0 (by norm_num) 2 (by norm_num)
  have e3 : (ieee_rounding : FloatFns ℝ).f64 (2 - 2) = 0 := by
    have : (2 : ℝ) - 2 = 0 := by norm_num
    rw [this]
    exact rounds_eq 53 _ h64 0 0 (by norm_num) 0 (by norm_num)
  rw [e1, e2, e3, Real.exp_zero]
  norm_num

theorem wpos_weights_fp_level_A (x : Nat) (hx : WEP_GETWEIGHT x = 3) :
    wpos (weights_fp (ieee_rounding : FloatFns ℝ)) x = 1 := by
  unfold wpos weights_fp
  rw [hx]
  have : ((1.0 : ℝ)) = 1 := by norm_num
  simp only [List.getD_cons_succ, List.getD_cons_zero, this]
  exact rounds_eq 24 _ (float_round_rounds 24 (by norm_num)) 1 0 (by norm_num) 1 (by norm_num)

/-- In binary32 a pair of level-A positions at distance 1 contributes at least
`64937 / 2 ^ 16` (about 0.99086), one at distance 3 at least `63804 / 2 ^ 16` (about
0.97357). -/
theorem pair_curw_fp_level_A (p : Bool × Nat × Nat) (h1 : WEP_GETWEIGHT p.2.1 = 3)
    (h2 : WEP_GETWEIGHT p.2.2 = 3) :
    (pair_distance p = 1 →
      ((64937 : Nat) : ℝ) / 2 ^ 16 ≤ pair_curw_fp (ieee_rounding : FloatFns ℝ)
        ⟨Real.sqrt, Real.exp, Real.log⟩ (weights_fp ieee_rounding) p) ∧
    (pair_distance p = 3 →
      ((63804 : Nat) : ℝ) / 2 ^ 16 ≤ pair_curw_fp (ieee_rounding : FloatFns ℝ)
        ⟨Real.sqrt, Real.exp, Real.log⟩ (weights_fp ieee_rounding) p) ∧
    pair_curw_fp (ieee_rounding : FloatFns ℝ) ⟨Real.sqrt, Real.exp, Real.log⟩
      (weights_fp ieee_rounding) p ≤ 1 := by
  have h32 : RoundsToPrecision 24 (ieee_rounding : FloatFns ℝ).f32 :=
    float_round_rounds 24 (by norm_num)
  have h64 : RoundsToPrecision 53 (ieee_rounding : FloatFns ℝ).f64 :=
    float_round_rounds 53 (by norm_num)
  have hsqrt : ∀ x : ℝ, 0 ≤ x → 0 ≤ Real.sqrt x ∧ Real.sqrt x * Real.sqrt x = x :=
    fun x hx => ⟨Real.sqrt_nonneg x, Real.mul_self_sqrt hx⟩
  refine ⟨?_, ?_, ?_⟩
  · intro hd
    unfold pair_curw_fp
    rw [hd, wpos_weights_fp_level_A _ h1, wpos_weights_fp_level_A _ h2]
    exact curw_fp_ge ieee_rounding ⟨Real.sqrt, Real.exp, Real.log⟩ h32 h64 hsqrt _ 64345 64937
      (by norm_num) (by norm_num)
      (word_distance_fp_ge ieee_rounding ⟨Real.sqrt, Real.exp, Real.log⟩ h32 h64 Real.exp_pos
        ((1 : Nat) : Int) (by norm_num) 17695 885 64345 (by norm_num) (by norm_num)
        (by norm_num) word_distance_one_exp_bound (by norm_num) (by norm_num))
      (by norm_num)
  · intro hd
    unfold pair_curw_fp
    rw [hd, wpos_weights_fp_level_A _ h1, wpos_weights_fp_level_A _ h2]
    exact curw_fp_ge ieee_rounding ⟨Real.sqrt, Real.exp, Real.log⟩ h32 h64 hsqrt _ 62118 63804
      (by norm_num) (by norm_num)
      (word_distance_fp_ge ieee_rounding ⟨Real.sqrt, Real.exp, Real.log⟩ h32 h64 Real.exp_pos
        ((3 : Nat) : Int) (by norm_num) 65536 3277 62118 (by norm_num) (by norm_num)
        (by norm_num) word_distance_three_exp_bound (by norm_num) (by norm_num))
      (by norm_num)
  · have h := (pair_curw_fp_range ieee_rounding ⟨Real.sqrt, Real.exp, Real.log⟩ h32 h64 hsqrt
      Real.exp_pos (weights_fp ieee_rounding) (weights_fp_range ieee_rounding h32) p).2
    have h511 : (511 : ℝ) / 512 ≤ 1 := by norm_num
    exact le_trans h h511

/-- C21, as amended, in IEEE 754 arithmetic over the real numbers, with the weights
`0.1f, 0.2f, 0.4f, 1.0f`, on the document with `cat` at offset 1 (level A) and `dog` at
offset 5 (level D) and the query `cat & dog`: one pair contributes and the score lies in
`[0, 1]`. -/
theorem calc_rank_and_rounded_range_witness :
    contributing_pairs doc_cat_dog (SortAndUniqItems insertion_sort query_cat_and_dog) =
      [(false, 5, 49153)] ∧
    ∃ r : ℝ, calc_rank_and_fp (ieee_rounding : FloatFns ℝ) ⟨Real.sqrt, Real.exp, Real.log⟩
        insertion_sort none (weights_fp ieee_rounding) doc_cat_dog query_cat_and_dog =
        some r ∧ 0 ≤ r ∧ r ≤ 1 :=
  ⟨by decide,
    (calc_rank_and_rounded_range (ieee_rounding : FloatFns ℝ) ⟨Real.sqrt, Real.exp, Real.log⟩
      (float_round_rounds 24 (by norm_num)) (float_round_rounds 53 (by norm_num))
      (fun x hx => ⟨Real.sqrt_nonneg x, Real.mul_self_sqrt hx⟩) Real.exp_pos insertion_sort
      none (weights_fp ieee_rounding)
      (weights_fp_range ieee_rounding (float_round_rounds 24 (by norm_num)))
      doc_cat_dog query_cat_and_dog (by decide)).2.2.1 (by decide)⟩

/-- C21 fails as stated: in IEEE 754 arithmetic (`float` binary32, `double` binary64,
rounding to nearest) with the default weights, on the document with `cat` at the offsets
1 and 3 and `dog` at 2 and 4, all at level A, and the query `cat & dog`, four pairs
contribute, at the distances 1, 1, 3, 1, and the fourth noisy-OR step rounds the
accumulator to exactly 1: `calc_rank_and` returns 1, which is not in `[0, 1)` and is not
1 minus a product of positive factors. -/
theorem calc_rank_and_fp_reaches_one_counterexample :
    contributing_pairs doc_cat_dog_interleaved
        (SortAndUniqItems insertion_sort query_cat_and_dog) =
      [(false, 49154, 49153), (false, 49154, 49155), (false, 49156, 49153),
        (false, 49156, 49155)] ∧
    (contributing_pairs doc_cat_dog_interleaved
        (SortAndUniqItems insertion_sort query_cat_and_dog)).map pair_distance = [1, 1, 3, 1] ∧
    calc_rank_and_fp (ieee_rounding : FloatFns ℝ) ⟨Real.sqrt, Real.exp, Real.log⟩
      insertion_sort none (weights_fp ieee_rounding) doc_cat_dog_interleaved
      query_cat_and_dog = some 1 ∧
    ¬ ((1 : ℝ) < 1) := by
  have h32 : RoundsToPrecision 24 (ieee_rounding : FloatFns ℝ).f32 :=
    float_round_rounds 24 (by norm_num)
  have h64 : RoundsToPrecision 53 (ieee_rounding : FloatFns ℝ).f64 :=
    float_round_rounds 53 (by norm_num)
  refine ⟨by decide, by decide, ?_, lt_irrefl 1⟩
  have hitems : items_pairs doc_cat_dog_interleaved
      (SortAndUniqItems insertion_sort query_cat_and_dog) [] =
      [(false, 49154, 49153), (false, 49154, 49155), (false, 49156, 49153),
        (false, 49156, 49155)] := by decide
  have hlen : ¬ (SortAndUniqItems insertion_sort query_cat_and_dog).length < 2 := by decide
  have hrun : calc_rank_and_fp (ieee_rounding : FloatFns ℝ) ⟨Real.sqrt, Real.exp, Real.log⟩
      insertion_sort none (weights_fp ieee_rounding) doc_cat_dog_interleaved
      query_cat_and_dog =
      some (([(false, 49154, 49153), (false, 49154, 49155), (false, 49156, 49153),
        (false, 49156, 49155)] : List (Bool × Nat × Nat)).foldl
        (fun r p => rank_and_pair_fp (ieee_rounding : FloatFns ℝ)
          ⟨Real.sqrt, Real.exp, Real.log⟩ (weights_fp ieee_rounding) p.1 p.2.1 p.2.2 r)
        (-1.0)) := by
    unfold calc_rank_and_fp
    simp only []
    rw [if_neg hlen, calc_rank_and_items_fp_eq, hitems]
  rw [hrun]
  simp only [List.foldl_cons, List.foldl_nil]
  -- the four contributions
  obtain ⟨ca, _, ca1⟩ := pair_curw_fp_level_A (false, 49154, 49153) (by decide) (by decide)
  obtain ⟨cb, _, cb1⟩ := pair_curw_fp_level_A (false, 49154, 49155) (by decide) (by decide)
  obtain ⟨_, cc, cc1⟩ := pair_curw_fp_level_A (false, 49156, 49153) (by decide) (by decide)
  obtain ⟨cd, _, cd1⟩ := pair_curw_fp_level_A (false, 49156, 49155) (by decide) (by decide)
  have ha := ca (by decide)
  have hb := cb (by decide)
  have hc := cc (by decide)
  have hd := cd (by decide)
  have pa : pair_contributes (false, 49154, 49153) = true := by decide
  have pb : pair_contributes (false, 49154, 49155) = true := by decide
  have pc : pair_contributes (false, 49156, 49153) = true := by decide
  have pd : pair_contributes (false, 49156, 49155) = true := by decide
  rw [rank_and_pair_fp_cases _ _ _ (false, 49154, 49153), if_pos pa,
    if_pos (by norm_num : (-1.0 : ℝ) < 0)]
  generalize pair_curw_fp (ieee_rounding : FloatFns ℝ) ⟨Real.sqrt, Real.exp, Real.log⟩
    (weights_fp ieee_rounding) (false, 49154, 49153) = r1 at ha ca1
  have r1pos : ¬ r1 < 0 := by
    have : (0 : ℝ) ≤ ((64937 : Nat) : ℝ) / 2 ^ 16 := by positivity
    linarith
  rw [rank_and_pair_fp_cases _ _ _ (false, 49154, 49155), if_pos pb, if_neg r1pos]
  generalize pair_curw_fp (ieee_rounding : FloatFns ℝ) ⟨Real.sqrt, Real.exp, Real.log⟩
    (weights_fp ieee_rounding) (false, 49154, 49155) = c2 at hb cb1
  obtain ⟨s2, s2le, _, _⟩ := noisy_or_fp_ge ieee_rounding h32 h64 r1 c2 599 599 16 16 65530 16
    (by norm_num) (by norm_num) (by norm_num) (by norm_num) (by norm_num)
    (by norm_num at ha ⊢; linarith) ca1 (by norm_num at hb ⊢; linarith) cb1 (by norm_num)
  generalize (ieee_rounding : FloatFns ℝ).f32 ((ieee_rounding : FloatFns ℝ).f64
    (1.0 - (ieee_rounding : FloatFns ℝ).f64 ((ieee_rounding : FloatFns ℝ).f64 (1.0 - r1) *
      (ieee_rounding : FloatFns ℝ).f64 (1.0 - c2)))) = r2 at s2 s2le
  have r2pos : ¬ r2 < 0 := by
    have : (0 : ℝ) ≤ ((65530 : Nat) : ℝ) / 2 ^ 16 := by positivity
    linarith
  rw [rank_and_pair_fp_cases _ _ _ (false, 49156, 49153), if_pos pc, if_neg r2pos]
  generalize pair_curw_fp (ieee_rounding : FloatFns ℝ) ⟨Real.sqrt, Real.exp, Real.log⟩
    (weights_fp ieee_rounding) (false, 49156, 49153) = c3 at hc cc1
  obtain ⟨s3, s3le, _, _⟩ := noisy_or_fp_ge ieee_rounding h32 h64 r2 c3 6 1732 16 16 16777175 24
    (by norm_num) (by norm_num) (by norm_num) (by norm_num) (by norm_num)
    (by norm_num at s2 ⊢; linarith) s2le (by norm_num at hc ⊢; linarith) cc1 (by norm_num)
  generalize (ieee_rounding : FloatFns ℝ).f32 ((ieee_rounding : FloatFns ℝ).f64
    (1.0 - (ieee_rounding : FloatFns ℝ).f64 ((ieee_rounding : FloatFns ℝ).f64 (1.0 - r2) *
      (ieee_rounding : FloatFns ℝ).f64 (1.0 - c3)))) = r3 at s3 s3le
  have r3pos : ¬ r3 < 0 := by
    have : (0 : ℝ) ≤ ((16777175 : Nat) : ℝ) / 2 ^ 24 := by positivity
    linarith
  rw [rank_and_pair_fp_cases _ _ _ (false, 49156, 49155), if_pos pd, if_neg r3pos]
  generalize pair_curw_fp (ieee_rounding : FloatFns ℝ) ⟨Real.sqrt, Real.exp, Real.log⟩
    (weights_fp ieee_rounding) (false, 49156, 49155) = c4 at hd cd1
  obtain ⟨_, _, s4, s4le⟩ := noisy_or_fp_ge ieee_rounding h32 h64 r3 c4 41 599 24 16 0 0
    (by norm_num) (by norm_num) (by norm_num) (by norm_num) (by norm_num)
    (by norm_num at s3 ⊢; linarith) s3le (by norm_num at hd ⊢; linarith) cd1 (by norm_num)
  have hfinal := float_round_to_one ((ieee_rounding : FloatFns ℝ).f64
    (1.0 - (ieee_rounding : FloatFns ℝ).f64 ((ieee_rounding : FloatFns ℝ).f64 (1.0 - r3) *
      (ieee_rounding : FloatFns ℝ).f64 (1.0 - c4))))
    (by norm_num at s4 ⊢; linarith) s4le
  exact congrArg some hfinal

end Rum
